import Mathlib

/-!
# uuidposman: positioned object management on a wrap-around 2d grid

A shallow embedding of `src/lib/uuidposman/uuidposman.go`.

* Go `int` values are `Int`; the one arithmetic operation of the package, the
  addition `sx+v.X`, is two's complement 64 bit addition (`goAdd`).
* A Go `map[string]T` is an association list; the order of the list is the
  (unspecified) iteration order of the map.
* An interface value of type `UUIDPosI` that is `nil` is `none`; the bucket
  `[]UUIDPosI` is a `List (Option Obj)`.
* A run-time panic (index out of range) is the outer `none` of a result.
* The mutex is not part of the state: every operation is one atomic step.  What
  a method does with the mutex is recorded separately, as the sequence of its
  mutex operations and field accesses (section on lock discipline).
* A callback of the caller is a function that takes and returns the state of
  the caller.
-/

namespace uuidposman

/-! ## Data model -/

/-- An object stored in the index: any value implementing `UUIDPosI`.  The
field `uuid` is what `GetUUID()` returns; `tag` distinguishes two object values
that carry the same identity. -/
structure Obj where
  uuid : String
  tag : Nat
deriving DecidableEq, Repr

/-- The method `GetUUID()` of the interface `UUIDPosI`. -/
def Obj.GetUUID (o : Obj) : String := o.uuid

/-- The type `UUIDPosIList`: a slice of interface values, `none` being `nil`. -/
abbrev UUIDPosIList := List (Option Obj)

/-- An element of `findnear.XYLenList`: a relative offset and its length.  The
length `L` (a `float64` in the imported package) is never read by the index; it
is carried as an uninterpreted value. -/
structure XYLen where
  X : Int
  Y : Int
  L : Nat
deriving DecidableEq, Repr

/-- The error values built by `fmt.Errorf` in the package, one per message. -/
inductive Err where
  | addObjExist
  | delObjNotExist
  | delObjNotFound
  | updObjNotFound
  | objNotAt
  | getObjNotExist
  | posNotMatch
deriving DecidableEq, Repr

/-- Go addition on `int` (64 bit two's complement, wrapping on overflow). -/
def goAdd (a b : Int) : Int := (a + b + 2 ^ 63) % 2 ^ 64 - 2 ^ 63

/-- Modelled from the spec: the axis wrap function `wrapper.New(size).GetWrapFn()`
of the imported package `github.com/kasworld/wrapper`, which is not under `src/`.
It returns the representative in `[0, size)` congruent to the input modulo
`size` (true mathematical modulo). -/
def wrapFn (size : Int) (i : Int) : Int := i % size

/-! ## Go maps as association lists -/

/-- The lookup `m[k]` with the comma-ok form: `none` when the key is absent. -/
def mapGet {β : Type} : List (String × β) → String → Option β
  | [], _ => none
  | (k, v) :: m, id => if k = id then some v else mapGet m id

/-- The assignment `m[k] = v`. -/
def mapSet {β : Type} : List (String × β) → String → β → List (String × β)
  | [], id, v => [(id, v)]
  | (k, w) :: m, id, v => if k = id then (id, v) :: m else (k, w) :: mapSet m id v

/-- The statement `delete(m, k)`. -/
def mapDelete {β : Type} : List (String × β) → String → List (String × β)
  | [], _ => []
  | (k, w) :: m, id => if k = id then mapDelete m id else (k, w) :: mapDelete m id

/-- The keys of a map, in iteration order. -/
def mapKeys {β : Type} (m : List (String × β)) : List String := m.map Prod.fst

/-! ## The index -/

/-- The struct `UUIDPosMan` without its mutex.  `xWidth` and `yWidth` are the
widths held by `XWrapper` and `YWrapper`. -/
structure UUIDPosMan where
  uuid2obj : List (String × Obj)
  uuid2pos : List (String × (Int × Int))
  pos2objs : List (List UUIDPosIList)
  xWidth : Int
  yWidth : Int
deriving DecidableEq, Repr

/-- The function `New(x, y)`: empty maps and an `x` by `y` grid of nil buckets.
(For a negative size Go's `make` panics; the sizes of interest are positive.) -/
def New (x y : Int) : UUIDPosMan :=
  { uuid2obj := []
    uuid2pos := []
    pos2objs := List.replicate x.toNat (List.replicate y.toNat [])
    xWidth := x
    yWidth := y }

/-- The field `XWrap`. -/
def UUIDPosMan.XWrap (fo : UUIDPosMan) (i : Int) : Int := wrapFn fo.xWidth i

/-- The field `YWrap`. -/
def UUIDPosMan.YWrap (fo : UUIDPosMan) (i : Int) : Int := wrapFn fo.yWidth i

/-- The method `Wrap`. -/
def UUIDPosMan.Wrap (fo : UUIDPosMan) (x y : Int) : Int × Int := (fo.XWrap x, fo.YWrap y)

/-- Indexing a slice with a Go `int`: `none` is the out-of-range panic. -/
def sliceAt {α : Type} (l : List α) (i : Int) : Option α :=
  if 0 ≤ i then l[i.toNat]? else none

/-- The expression `fo.pos2objs[x][y]`. -/
def bucketAt (g : List (List UUIDPosIList)) (x y : Int) : Option UUIDPosIList :=
  (sliceAt g x).bind (fun col => sliceAt col y)

/-- The assignment `fo.pos2objs[x][y] = b` (for indices already known to be in
range). -/
def bucketPut (g : List (List UUIDPosIList)) (x y : Int) (b : UUIDPosIList) :
    List (List UUIDPosIList) :=
  match g[x.toNat]? with
  | some col => g.set x.toNat (col.set y.toNat b)
  | none => g

/-- The loop of `addObj2Pos` on one bucket: the first nil slot takes the object,
and when there is none the object is appended. -/
def addToBucket (o : Obj) : UUIDPosIList → UUIDPosIList
  | [] => [some o]
  | none :: b => some o :: b
  | some v :: b => some v :: addToBucket o b

/-- The loop of `delObjAt` on one bucket: the first live slot holding the
identity becomes nil; `none` when no live slot holds it. -/
def delFromBucket (id : String) : UUIDPosIList → Option UUIDPosIList
  | [] => none
  | none :: b => (delFromBucket id b).map (fun r => none :: r)
  | some v :: b =>
    if v.GetUUID = id then some (none :: b)
    else (delFromBucket id b).map (fun r => some v :: r)

/-- The method `addObj2Pos`. -/
def UUIDPosMan.addObj2Pos (fo : UUIDPosMan) (o : Obj) (x y : Int) : Option UUIDPosMan :=
  match bucketAt fo.pos2objs x y with
  | none => none
  | some b => some { fo with pos2objs := bucketPut fo.pos2objs x y (addToBucket o b) }

/-- The method `delObjAt`: the new state and the returned error. -/
def UUIDPosMan.delObjAt (fo : UUIDPosMan) (o : Obj) (x y : Int) :
    Option (UUIDPosMan × Option Err) :=
  match bucketAt fo.pos2objs x y with
  | none => none
  | some b =>
    match delFromBucket o.GetUUID b with
    | some r => some ({ fo with pos2objs := bucketPut fo.pos2objs x y r }, none)
    | none => some (fo, some Err.objNotAt)

/-- The method `addNolock`. -/
def UUIDPosMan.addNolock (fo : UUIDPosMan) (o : Obj) (x y : Int) :
    Option (UUIDPosMan × Option Err) :=
  let id := o.GetUUID
  if mapGet fo.uuid2obj id ≠ none then some (fo, some Err.addObjExist)
  else
    let p := fo.Wrap x y
    let fo1 := { fo with uuid2obj := mapSet fo.uuid2obj id o }
    let fo2 := { fo1 with uuid2pos := mapSet fo1.uuid2pos id (p.1, p.2) }
    (fo2.addObj2Pos o p.1 p.2).map (fun fo3 => (fo3, none))

/-- The method `AddToXY`. -/
def UUIDPosMan.AddToXY (fo : UUIDPosMan) (o : Obj) (x y : Int) :
    Option (UUIDPosMan × Option Err) :=
  fo.addNolock o x y

/-- The method `delNolock`. -/
def UUIDPosMan.delNolock (fo : UUIDPosMan) (o : Obj) : Option (UUIDPosMan × Option Err) :=
  let id := o.GetUUID
  if mapGet fo.uuid2obj id = none then some (fo, some Err.delObjNotExist)
  else
    match mapGet fo.uuid2pos id with
    | none => some (fo, some Err.delObjNotFound)
    | some pos =>
      match fo.delObjAt o pos.1 pos.2 with
      | none => none
      | some (fo1, none) =>
        let fo2 := { fo1 with uuid2obj := mapDelete fo1.uuid2obj id }
        some ({ fo2 with uuid2pos := mapDelete fo2.uuid2pos id }, none)
      | some (fo1, some err) => some (fo1, some err)

/-- The method `Del`. -/
def UUIDPosMan.Del (fo : UUIDPosMan) (o : Obj) : Option (UUIDPosMan × Option Err) :=
  fo.delNolock o

/-- The method `AddOrUpdateToXY`. -/
def UUIDPosMan.AddOrUpdateToXY (fo : UUIDPosMan) (o : Obj) (x y : Int) :
    Option (UUIDPosMan × Option Err) :=
  if mapGet fo.uuid2obj o.GetUUID ≠ none then
    match fo.delNolock o with
    | none => none
    | some (fo1, some err) => some (fo1, some err)
    | some (fo1, none) => fo1.addNolock o x y
  else fo.addNolock o x y

/-- The method `UpdateToXY`. -/
def UUIDPosMan.UpdateToXY (fo : UUIDPosMan) (o : Obj) (newx newy : Int) :
    Option (UUIDPosMan × Option Err) :=
  let p := fo.Wrap newx newy
  match mapGet fo.uuid2pos o.GetUUID with
  | none => some (fo, some Err.updObjNotFound)
  | some oldpos =>
    match fo.delObjAt o oldpos.1 oldpos.2 with
    | none => none
    | some (fo1, none) =>
      let fo2 := { fo1 with uuid2pos := mapSet fo1.uuid2pos o.GetUUID (p.1, p.2) }
      (fo2.addObj2Pos o p.1 p.2).map (fun fo3 => (fo3, none))
    | some (fo1, some err) => some (fo1, some err)

/-- One iteration of the loop of `Cleanup`, for the map entry `(id, o)`: both
map entries are deleted, and only then is the position looked up. -/
def UUIDPosMan.cleanupStep (fo : UUIDPosMan) (e : String × Obj) : Option UUIDPosMan :=
  let fo1 := { fo with uuid2obj := mapDelete fo.uuid2obj e.1 }
  let fo2 := { fo1 with uuid2pos := mapDelete fo1.uuid2pos e.1 }
  match mapGet fo2.uuid2pos e.1 with
  | some pos => (fo2.delObjAt e.2 pos.1 pos.2).map Prod.fst
  | none => some fo2

/-- The loop of `Cleanup` over the entries still to be visited. -/
def UUIDPosMan.cleanupLoop : List (String × Obj) → UUIDPosMan → Option UUIDPosMan
  | [], fo => some fo
  | e :: es, fo => (fo.cleanupStep e).bind (cleanupLoop es)

/-- The method `Cleanup`: the loop ranges over the entries of `uuid2obj`. -/
def UUIDPosMan.Cleanup (fo : UUIDPosMan) : Option UUIDPosMan :=
  UUIDPosMan.cleanupLoop fo.uuid2obj fo

/-! ## Queries -/

/-- The method `Count`. -/
def UUIDPosMan.Count (fo : UUIDPosMan) : Nat := fo.uuid2obj.length

/-- The method `GetByUUID`: `none` is the nil interface value. -/
def UUIDPosMan.GetByUUID (fo : UUIDPosMan) (id : String) : Option Obj :=
  mapGet fo.uuid2obj id

/-- The method `GetXYByUUID`: an absent identity gives the zero position. -/
def UUIDPosMan.GetXYByUUID (fo : UUIDPosMan) (id : String) : Int × Int × Bool :=
  match mapGet fo.uuid2pos id with
  | some pos => (pos.1, pos.2, true)
  | none => (0, 0, false)

/-- The loop of `Get1stObjAt` on one bucket. -/
def firstLive : UUIDPosIList → Option Obj
  | [] => none
  | none :: b => firstLive b
  | some v :: _ => some v

/-- The method `Get1stObjAt`. -/
def UUIDPosMan.Get1stObjAt (fo : UUIDPosMan) (x y : Int) : Option (Option Obj) :=
  let p := fo.Wrap x y
  (bucketAt fo.pos2objs p.1 p.2).map firstLive

/-- The loop of `GetObjListAt` on one bucket, appending to `rtn`. -/
def collectLive : List Obj → UUIDPosIList → List Obj
  | rtn, [] => rtn
  | rtn, none :: b => collectLive rtn b
  | rtn, some v :: b => collectLive (rtn ++ [v]) b

/-- The method `GetObjListAt`.  The capacity of the result is computed from
`fo.pos2objs[x][y]` before `x, y` are wrapped. -/
def UUIDPosMan.GetObjListAt (fo : UUIDPosMan) (x y : Int) : Option (List Obj) :=
  match bucketAt fo.pos2objs x y with
  | none => none
  | some _ =>
    let p := fo.Wrap x y
    (bucketAt fo.pos2objs p.1 p.2).map (collectLive [])

/-- The method `GetAllList`: the values of `uuid2obj` in iteration order. -/
def UUIDPosMan.GetAllList (fo : UUIDPosMan) : List Obj := fo.uuid2obj.map Prod.snd

/-- The method `GetByXYAndUUID`: the returned object and the returned error. -/
def UUIDPosMan.GetByXYAndUUID (fo : UUIDPosMan) (id : String) (x y : Int) :
    Option Obj × Option Err :=
  let p := fo.Wrap x y
  match mapGet fo.uuid2obj id with
  | none => (none, some Err.getObjNotExist)
  | some obj =>
    match mapGet fo.uuid2pos id with
    | none => (none, some Err.getObjNotExist)
    | some pos =>
      if p.1 ≠ pos.1 ∨ p.2 ≠ pos.2 then (some obj, some Err.posNotMatch)
      else (some obj, none)

/-! ## Queries driven by an offset list

A callback of the caller (`filterfn`, `stopFn`) is a Go closure: it may read and
write state of the caller.  It is embedded as a function that takes and returns
that state, of type `σ`; the index threads the state through its calls in the
order in which it makes them. -/

/-- The inner loop of `Search1stByXYLenList` over one bucket: the object on
which `filterfn` returned true, if any, and the state of the caller. -/
def search1stBucket {σ : Type} (filterfn : σ → Obj → Int → Int → XYLen → Bool × σ)
    (x y : Int) (v : XYLen) : UUIDPosIList → σ → Option Obj × σ
  | [], st => (none, st)
  | none :: b, st => search1stBucket filterfn x y v b st
  | some o :: b, st =>
    if (filterfn st o x y v).1 then (some o, (filterfn st o x y v).2)
    else search1stBucket filterfn x y v b (filterfn st o x y v).2

/-- The outer loop of `Search1stByXYLenList` over the offsets still to visit. -/
def UUIDPosMan.search1stLoop {σ : Type} (fo : UUIDPosMan) (sx sy : Int)
    (filterfn : σ → Obj → Int → Int → XYLen → Bool × σ) :
    List XYLen → σ → Option ((Option Obj × Int × Int) × σ)
  | [], st => some ((none, 0, 0), st)
  | v :: vs, st =>
    match bucketAt fo.pos2objs (fo.Wrap (goAdd sx v.X) (goAdd sy v.Y)).1
        (fo.Wrap (goAdd sx v.X) (goAdd sy v.Y)).2 with
    | none => none
    | some b =>
      match search1stBucket filterfn (fo.Wrap (goAdd sx v.X) (goAdd sy v.Y)).1
          (fo.Wrap (goAdd sx v.X) (goAdd sy v.Y)).2 v b st with
      | (some o, st') =>
        some ((some o, (fo.Wrap (goAdd sx v.X) (goAdd sy v.Y)).1,
          (fo.Wrap (goAdd sx v.X) (goAdd sy v.Y)).2), st')
      | (none, st') => search1stLoop fo sx sy filterfn vs st'

/-- The method `Search1stByXYLenList`: the returned triple and the state of the
caller after the calls of `filterfn`. -/
def UUIDPosMan.Search1stByXYLenList {σ : Type} (fo : UUIDPosMan) (xylenlist : List XYLen)
    (sx sy : Int) (filterfn : σ → Obj → Int → Int → XYLen → Bool × σ) (st : σ) :
    Option ((Option Obj × Int × Int) × σ) :=
  fo.search1stLoop sx sy filterfn xylenlist st

/-- The struct `VPIXYObj`. -/
structure VPIXYObj where
  I : Int
  X : Int
  Y : Int
  O : Option Obj
deriving DecidableEq, Repr

/-- The inner loop of `GetVPIXYObjByXYLenList` over one bucket: the slice built
so far, and whether the function returned from inside the loop. -/
def vpBucket (i x y l : Int) : UUIDPosIList → List VPIXYObj → List VPIXYObj × Bool
  | [], rtn => (rtn, false)
  | none :: b, rtn => vpBucket i x y l b rtn
  | some o :: b, rtn =>
    if ((rtn ++ [VPIXYObj.mk i x y (some o)]).length : Int) ≥ l then
      (rtn ++ [VPIXYObj.mk i x y (some o)], true)
    else vpBucket i x y l b (rtn ++ [VPIXYObj.mk i x y (some o)])

/-- The outer loop of `GetVPIXYObjByXYLenList`, at offset index `i`. -/
def UUIDPosMan.vpLoop (fo : UUIDPosMan) (sx sy l : Int) :
    Int → List XYLen → List VPIXYObj → Option (List VPIXYObj)
  | _, [], rtn => some rtn
  | i, v :: vs, rtn =>
    match bucketAt fo.pos2objs (fo.Wrap (goAdd sx v.X) (goAdd sy v.Y)).1
        (fo.Wrap (goAdd sx v.X) (goAdd sy v.Y)).2 with
    | none => none
    | some b =>
      match vpBucket i (fo.Wrap (goAdd sx v.X) (goAdd sy v.Y)).1
          (fo.Wrap (goAdd sx v.X) (goAdd sy v.Y)).2 l b rtn with
      | (rtn', true) => some rtn'
      | (rtn', false) => vpLoop fo sx sy l (i + 1) vs rtn'

/-- The method `GetVPIXYObjByXYLenList`. -/
def UUIDPosMan.GetVPIXYObjByXYLenList (fo : UUIDPosMan) (xylenlist : List XYLen)
    (sx sy l : Int) : Option (List VPIXYObj) :=
  fo.vpLoop sx sy l 0 xylenlist []

/-- The inner loop of `IterByXYLenList` over one bucket: whether `stopFn`
returned true (`break loop`), and the state of the caller. -/
def iterBucket {σ : Type} (stopFn : σ → Obj → Int → Int → Int → XYLen → Bool × σ)
    (x y i : Int) (v : XYLen) : UUIDPosIList → σ → Bool × σ
  | [], st => (false, st)
  | none :: b, st => iterBucket stopFn x y i v b st
  | some o :: b, st =>
    if (stopFn st o x y i v).1 then (true, (stopFn st o x y i v).2)
    else iterBucket stopFn x y i v b (stopFn st o x y i v).2

/-- The outer loop of `IterByXYLenList`, at offset index `i`. -/
def UUIDPosMan.iterLoop {σ : Type} (fo : UUIDPosMan) (sx sy : Int)
    (stopFn : σ → Obj → Int → Int → Int → XYLen → Bool × σ) :
    Int → List XYLen → σ → Option σ
  | _, [], st => some st
  | i, v :: vs, st =>
    match bucketAt fo.pos2objs (fo.Wrap (goAdd sx v.X) (goAdd sy v.Y)).1
        (fo.Wrap (goAdd sx v.X) (goAdd sy v.Y)).2 with
    | none => none
    | some b =>
      match iterBucket stopFn (fo.Wrap (goAdd sx v.X) (goAdd sy v.Y)).1
          (fo.Wrap (goAdd sx v.X) (goAdd sy v.Y)).2 i v b st with
      | (true, st') => some st'
      | (false, st') => iterLoop fo sx sy stopFn (i + 1) vs st'

/-- The method `IterByXYLenList`; the parameter `l` is not used by the body. -/
def UUIDPosMan.IterByXYLenList {σ : Type} (fo : UUIDPosMan) (xylenlist : List XYLen)
    (sx sy : Int) (_l : Int) (stopFn : σ → Obj → Int → Int → Int → XYLen → Bool × σ)
    (st : σ) : Option σ :=
  fo.iterLoop sx sy stopFn 0 xylenlist st

/-! ## Specification vocabulary -/

/-- The live (non-nil) entries of a bucket, in slot order. -/
def live : UUIDPosIList → List Obj
  | [] => []
  | none :: b => live b
  | some v :: b => v :: live b

/-- The number of live slots of a bucket that hold the identity `id`. -/
def occ (id : String) (b : UUIDPosIList) : Nat :=
  (live b).countP (fun o => decide (o.GetUUID = id))

/-- The number of live slots of a bucket. -/
def liveCount (b : UUIDPosIList) : Nat := (live b).length

/-- The sum of a measure of buckets over the whole grid. -/
def gridSum (f : UUIDPosIList → Nat) (g : List (List UUIDPosIList)) : Nat :=
  (g.map (fun col => (col.map f).sum)).sum

/-- The grid has `w` columns of `h` buckets each. -/
def GridDims (w h : Int) (g : List (List UUIDPosIList)) : Prop :=
  g.length = w.toNat ∧ ∀ col ∈ g, col.length = h.toNat

/-! ## Reachable states and the invariant -/

/-- A call of one of the four single-object mutators. -/
inductive Call where
  | addToXY (o : Obj) (x y : Int)
  | addOrUpdateToXY (o : Obj) (x y : Int)
  | del (o : Obj)
  | updateToXY (o : Obj) (x y : Int)
deriving DecidableEq, Repr

/-- Running one call on the index. -/
def UUIDPosMan.call (fo : UUIDPosMan) : Call → Option (UUIDPosMan × Option Err)
  | Call.addToXY o x y => fo.AddToXY o x y
  | Call.addOrUpdateToXY o x y => fo.AddOrUpdateToXY o x y
  | Call.del o => fo.Del o
  | Call.updateToXY o x y => fo.UpdateToXY o x y

/-- The states reachable from `New(w, h)`, `w, h > 0`, by a finite sequence of
`AddToXY`, `AddOrUpdateToXY`, `Del` and `UpdateToXY` calls, successful or
failing. -/
inductive Reachable (w h : Int) : UUIDPosMan → Prop where
  | init : 0 < w → 0 < h → Reachable w h (New w h)
  | step {s s' : UUIDPosMan} {e : Option Err} (c : Call) :
      Reachable w h s → s.call c = some (s', e) → Reachable w h s'

/-- The number of live slots over the whole grid that hold the identity. -/
def UUIDPosMan.slotsOf (fo : UUIDPosMan) (id : String) : Nat :=
  gridSum (occ id) fo.pos2objs

/-- The number of live slots over the whole grid. -/
def UUIDPosMan.liveTotal (fo : UUIDPosMan) : Nat := gridSum liveCount fo.pos2objs

/-- The grid agrees with a position assignment: an identity with a position
holds exactly one live slot of the grid, in the bucket of that position, and an
identity without a position holds none. -/
structure GridOK (w h : Int) (pos : String → Option (Int × Int))
    (g : List (List UUIDPosIList)) : Prop where
  dims : GridDims w h g
  slots : ∀ id, gridSum (occ id) g = if (pos id).isSome then 1 else 0
  atPos : ∀ id p, pos id = some p → ∃ b, bucketAt g p.1 p.2 = some b ∧ occ id b = 1

/-- The invariant of the index of size `w` by `h`. -/
structure Inv (w h : Int) (s : UUIDPosMan) : Prop where
  xw : s.xWidth = w
  yw : s.yWidth = h
  wpos : 0 < w
  hpos : 0 < h
  grid : GridOK w h (mapGet s.uuid2pos) s.pos2objs
  objKeys : (mapKeys s.uuid2obj).Nodup
  posKeys : (mapKeys s.uuid2pos).Nodup
  objPos : ∀ id, mapGet s.uuid2obj id ≠ none ↔ mapGet s.uuid2pos id ≠ none
  count : s.uuid2obj.length = gridSum liveCount s.pos2objs

/-! ## Vocabulary of the offset-list queries -/

/-- The candidates of an offset-list query with origin `(sx, sy)`: for every
offset in list order, the live entries `o` of the cell
`(x, y) = (XWrap(sx+off.X), YWrap(sy+off.Y))` in slot order, each as
`(o, x, y, off)`.  (In a reachable state that cell always is a cell of the
grid.) -/
def UUIDPosMan.candidates (fo : UUIDPosMan) (sx sy : Int) :
    List XYLen → List (Obj × Int × Int × XYLen)
  | [] => []
  | v :: vs =>
    (match bucketAt fo.pos2objs (fo.Wrap (goAdd sx v.X) (goAdd sy v.Y)).1
        (fo.Wrap (goAdd sx v.X) (goAdd sy v.Y)).2 with
      | some b => (live b).map (fun o =>
          (o, (fo.Wrap (goAdd sx v.X) (goAdd sy v.Y)).1,
            (fo.Wrap (goAdd sx v.X) (goAdd sy v.Y)).2, v))
      | none => []) ++ candidates fo sx sy vs

/-- A side-effect-free predicate as a callback whose caller records every call:
the state of the caller is the list of the arguments of the calls so far. -/
def logged (p : Obj → Int → Int → XYLen → Bool) :
    List (Obj × Int × Int × XYLen) → Obj → Int → Int → XYLen →
      Bool × List (Obj × Int × Int × XYLen) :=
  fun log o x y v => (p o x y v, log ++ [(o, x, y, v)])

/-- The predicate applied to a candidate. -/
def holdsAt (p : Obj → Int → Int → XYLen → Bool) (c : Obj × Int × Int × XYLen) : Bool :=
  p c.1 c.2.1 c.2.2.1 c.2.2.2

/-- The shortest prefix of a list of candidates that ends with the first
candidate satisfying the predicate; the whole list when there is none. -/
def callsUntil (p : Obj → Int → Int → XYLen → Bool) :
    List (Obj × Int × Int × XYLen) → List (Obj × Int × Int × XYLen)
  | [] => []
  | c :: cs => if holdsAt p c then [c] else c :: callsUntil p cs

/-- The triple for the first candidate satisfying the predicate; the absent
result `(nil, 0, 0)` when there is none. -/
def firstResult (p : Obj → Int → Int → XYLen → Bool)
    (cs : List (Obj × Int × Int × XYLen)) : Option Obj × Int × Int :=
  match cs.find? (holdsAt p) with
  | some c => (some c.1, c.2.1, c.2.2.1)
  | none => (none, 0, 0)

/-! ## States reachable with `Cleanup` -/

/-- The states reachable from `New(w, h)`, `w, h > 0`, by a finite sequence of
calls of the public mutators `AddToXY`, `AddOrUpdateToXY`, `Del`, `UpdateToXY`
and `Cleanup`. -/
inductive ReachableAll (w h : Int) : UUIDPosMan → Prop where
  | init : 0 < w → 0 < h → ReachableAll w h (New w h)
  | step {s s' : UUIDPosMan} {e : Option Err} (c : Call) :
      ReachableAll w h s → s.call c = some (s', e) → ReachableAll w h s'
  | cleanup {s s' : UUIDPosMan} :
      ReachableAll w h s → s.Cleanup = some s' → ReachableAll w h s'

/-- The part of the invariant that `Cleanup` keeps as well: the shape of the
grid, maps with the same distinct keys, every object registered under its own
identity, and every registered identity in a live slot of the bucket at its
recorded position (other buckets may hold entries that `Cleanup` left). -/
structure Located (w h : Int) (s : UUIDPosMan) : Prop where
  xw : s.xWidth = w
  yw : s.yWidth = h
  wpos : 0 < w
  hpos : 0 < h
  dims : GridDims w h s.pos2objs
  objKeys : (mapKeys s.uuid2obj).Nodup
  posKeys : (mapKeys s.uuid2pos).Nodup
  objPos : ∀ id, mapGet s.uuid2obj id ≠ none ↔ mapGet s.uuid2pos id ≠ none
  keyed : ∀ id o, mapGet s.uuid2obj id = some o → o.GetUUID = id
  atPos : ∀ id p, mapGet s.uuid2pos id = some p →
    ∃ b, bucketAt s.pos2objs p.1 p.2 = some b ∧ 1 ≤ occ id b

/-- The object a call is about. -/
def Call.obj : Call → Obj
  | Call.addToXY o _ _ => o
  | Call.addOrUpdateToXY o _ _ => o
  | Call.del o => o
  | Call.updateToXY o _ _ => o

/-- The live entries of the cell `(x, y)` of the grid, in slot order (none for
coordinates outside the grid). -/
def UUIDPosMan.cellLive (fo : UUIDPosMan) (x y : Int) : List Obj :=
  match bucketAt fo.pos2objs x y with
  | some b => live b
  | none => []

/-- The live entries of the cell `(x, y)` that carry the identity `id`. -/
def UUIDPosMan.cellLiveOf (fo : UUIDPosMan) (id : String) (x y : Int) : List Obj :=
  (fo.cellLive x y).filter (fun v => decide (v.GetUUID = id))

/-- The enumeration behind `GetVPIXYObjByXYLenList`, from offset index `i` on:
for every offset in list order and every live entry `o` of its cell in slot
order, the element `VPIXYObj{I: i, X: x, Y: y, O: o}`. -/
def UUIDPosMan.vpEnum (fo : UUIDPosMan) (sx sy : Int) : Int → List XYLen → List VPIXYObj
  | _, [] => []
  | i, v :: vs =>
    (match bucketAt fo.pos2objs (fo.Wrap (goAdd sx v.X) (goAdd sy v.Y)).1
        (fo.Wrap (goAdd sx v.X) (goAdd sy v.Y)).2 with
      | some b => (live b).map (fun o =>
          VPIXYObj.mk i (fo.Wrap (goAdd sx v.X) (goAdd sy v.Y)).1
            (fo.Wrap (goAdd sx v.X) (goAdd sy v.Y)).2 (some o))
      | none => []) ++ vpEnum fo sx sy (i + 1) vs

/-- The enumeration behind `IterByXYLenList`, from offset index `i` on: for
every offset in list order and every live entry `o` of its cell in slot order,
the arguments `(o, x, y, i, offsets[i])` of a call of `stopFn`. -/
def UUIDPosMan.iterCandidates (fo : UUIDPosMan) (sx sy : Int) :
    Int → List XYLen → List (Obj × Int × Int × Int × XYLen)
  | _, [] => []
  | i, v :: vs =>
    (match bucketAt fo.pos2objs (fo.Wrap (goAdd sx v.X) (goAdd sy v.Y)).1
        (fo.Wrap (goAdd sx v.X) (goAdd sy v.Y)).2 with
      | some b => (live b).map (fun o =>
          (o, (fo.Wrap (goAdd sx v.X) (goAdd sy v.Y)).1,
            (fo.Wrap (goAdd sx v.X) (goAdd sy v.Y)).2, i, v))
      | none => []) ++ iterCandidates fo sx sy (i + 1) vs

/-- Calling `stopFn` on the elements of a list of arguments, in order, until it
returns true: the state of the caller after the last call. -/
def callUntilTrue {σ : Type} (stopFn : σ → Obj → Int → Int → Int → XYLen → Bool × σ) :
    List (Obj × Int × Int × Int × XYLen) → σ → σ
  | [], st => st
  | c :: cs, st =>
    if (stopFn st c.1 c.2.1 c.2.2.1 c.2.2.2.1 c.2.2.2.2).1 then
      (stopFn st c.1 c.2.1 c.2.2.1 c.2.2.2.1 c.2.2.2.2).2
    else callUntilTrue stopFn cs (stopFn st c.1 c.2.1 c.2.2.1 c.2.2.2.1 c.2.2.2.2).2

/-- A side-effect-free stop predicate as a callback whose caller records every
call. -/
def loggedStop (p : Obj → Int → Int → Int → XYLen → Bool) :
    List (Obj × Int × Int × Int × XYLen) → Obj → Int → Int → Int → XYLen →
      Bool × List (Obj × Int × Int × Int × XYLen) :=
  fun log o x y i v => (p o x y i v, log ++ [(o, x, y, i, v)])

/-- The shortest initial segment of a list that ends with the first element
satisfying `q`; the whole list when there is none. -/
def takeThrough {α : Type} (q : α → Bool) : List α → List α
  | [] => []
  | c :: cs => if q c then [c] else c :: takeThrough q cs

/-! ## Lock discipline

The mutex is not part of the state of the embedding.  What a method does with
it is recorded as the sequence, in program order, of its mutex operations and
of its accesses to the three fields `uuid2obj`, `uuid2pos` and `pos2objs`. -/

/-- A mutex operation, or a read or write of one of the three fields. -/
inductive LockEv where
  | Lock
  | Unlock
  | RLock
  | RUnlock
  | read
  | write
deriving DecidableEq, Repr

/-- The lock held at a point of a method: none, shared, or exclusive. -/
inductive Held where
  | nothing
  | shared
  | exclusive
deriving DecidableEq, Repr

/-- Whether every read in a sequence of events happens while a lock is held and
every write while the exclusive lock is held, starting from `held`. -/
def disciplined : Held → List LockEv → Bool
  | _, [] => true
  | _, LockEv.Lock :: es => disciplined Held.exclusive es
  | _, LockEv.Unlock :: es => disciplined Held.nothing es
  | _, LockEv.RLock :: es => disciplined Held.shared es
  | _, LockEv.RUnlock :: es => disciplined Held.nothing es
  | held, LockEv.read :: es => decide (held ≠ Held.nothing) && disciplined held es
  | held, LockEv.write :: es => decide (held = Held.exclusive) && disciplined held es

/-- The events of `Count`: `return len(fo.uuid2obj)`, with no mutex operation. -/
def CountEvents : List LockEv := [LockEv.read]

/-- The events of `GetAllList` on a map of `n` entries: `len(fo.uuid2obj)` is
read for the capacity, then `RLock`, the `n` reads of the range loop, and the
deferred `RUnlock`. -/
def GetAllListEvents (n : Nat) : List LockEv :=
  [LockEv.read, LockEv.RLock] ++ List.replicate n LockEv.read ++ [LockEv.RUnlock]

/-- The events of `GetByUUID`: `RLock`, the read `fo.uuid2obj[id]`, and the
deferred `RUnlock`. -/
def GetByUUIDEvents : List LockEv := [LockEv.RLock, LockEv.read, LockEv.RUnlock]

/-- The events of `GetXYByUUID`: `RLock`, the read `fo.uuid2pos[id]`, and the
deferred `RUnlock`. -/
def GetXYByUUIDEvents : List LockEv := [LockEv.RLock, LockEv.read, LockEv.RUnlock]

/-! ## Example states -/

/-- An object with identity `"a"`. -/
def objA : Obj := { uuid := "a", tag := 0 }

/-- A second object value that carries the identity `"a"`. -/
def objA2 : Obj := { uuid := "a", tag := 1 }

/-- An object with identity `"b"`. -/
def objB : Obj := { uuid := "b", tag := 0 }

/-- The 10 by 10 index after `AddToXY(objA, 12, -1)`. -/
def stateA : UUIDPosMan :=
  { uuid2obj := [("a", objA)]
    uuid2pos := [("a", (2, 9))]
    pos2objs := bucketPut (New 10 10).pos2objs 2 9 [some objA]
    xWidth := 10
    yWidth := 10 }

/-- The 10 by 10 index after `AddToXY(objA, 12, -1)`, `Cleanup()` and
`AddToXY(objA, 5, 5)`: cell `(2, 9)` still holds the entry that `Cleanup` left
there. -/
def stateC : UUIDPosMan :=
  { uuid2obj := [("a", objA)]
    uuid2pos := [("a", (5, 5))]
    pos2objs := bucketPut (bucketPut (New 10 10).pos2objs 2 9 [some objA]) 5 5 [some objA]
    xWidth := 10
    yWidth := 10 }

/-- The 10 by 10 index after `AddToXY(objA, 12, -1)` and `Cleanup()`: both maps
are empty and cell `(2, 9)` still holds the entry that `Cleanup` left there. -/
def stateCleaned : UUIDPosMan :=
  { uuid2obj := []
    uuid2pos := []
    pos2objs := bucketPut (New 10 10).pos2objs 2 9 [some objA]
    xWidth := 10
    yWidth := 10 }

/-- The 10 by 10 index after `AddToXY(objA, 12, -1)`, `Cleanup()` and
`AddToXY(objA, 2, 9)`: the bucket of cell `(2, 9)` holds the entry that `Cleanup`
left and the new one. -/
def stateD : UUIDPosMan :=
  { uuid2obj := [("a", objA)]
    uuid2pos := [("a", (2, 9))]
    pos2objs := bucketPut (New 10 10).pos2objs 2 9 [some objA, some objA]
    xWidth := 10
    yWidth := 10 }

/-! ## Lemmas on maps -/

theorem mapGet_mapSet {β : Type} (m : List (String × β)) (k k' : String) (v : β) :
    mapGet (mapSet m k v) k' = if k = k' then some v else mapGet m k' := by
  induction m with
  | nil => simp [mapSet, mapGet]
  | cons e m ih =>
    obtain ⟨a, w⟩ := e
    by_cases h : a = k
    · subst h
      by_cases h2 : a = k' <;> simp [mapSet, mapGet, h2]
    · by_cases h2 : a = k'
      · subst h2
        simp [mapSet, mapGet, h, Ne.symm h]
      · simp [mapSet, mapGet, h, h2, ih]

theorem mapGet_mapDelete {β : Type} (m : List (String × β)) (k k' : String) :
    mapGet (mapDelete m k) k' = if k = k' then none else mapGet m k' := by
  induction m with
  | nil => simp [mapDelete, mapGet]
  | cons e m ih =>
    obtain ⟨a, w⟩ := e
    by_cases h : a = k
    · subst h
      by_cases h2 : a = k'
      · subst h2
        simpa [mapDelete] using ih
      · simpa [mapDelete, mapGet, h2] using ih
    · by_cases h2 : k = k'
      · subst h2
        simpa [mapDelete, mapGet, h] using ih
      · by_cases h3 : a = k'
        · subst h3
          simp [mapDelete, mapGet, h, h2]
        · simpa [mapDelete, mapGet, h, h2, h3] using ih

theorem mem_mapKeys {β : Type} (m : List (String × β)) (k : String) :
    k ∈ mapKeys m ↔ mapGet m k ≠ none := by
  induction m with
  | nil => simp [mapKeys, mapGet]
  | cons e m ih =>
    obtain ⟨a, w⟩ := e
    simp only [mapKeys] at ih
    by_cases h : a = k
    · simp [mapKeys, mapGet, h]
    · simp [mapKeys, mapGet, h, ih, Ne.symm h]

theorem mapKeys_mapSet_nodup {β : Type} (m : List (String × β)) (k : String) (v : β)
    (hm : (mapKeys m).Nodup) : (mapKeys (mapSet m k v)).Nodup := by
  induction m with
  | nil => simp [mapSet, mapKeys]
  | cons e m ih =>
    obtain ⟨a, w⟩ := e
    have hm' : a ∉ mapKeys m ∧ (mapKeys m).Nodup := by
      simpa [mapKeys] using hm
    by_cases h : a = k
    · subst h
      simpa [mapSet, mapKeys] using hm
    · have hnot : a ∉ mapKeys (mapSet m k v) := by
        have h1 := hm'.1
        rw [mem_mapKeys] at h1 ⊢
        rw [mapGet_mapSet]
        simpa [Ne.symm h] using h1
      have := ih hm'.2
      simp only [mapSet, h, if_false]
      simp only [mapKeys, List.map_cons, List.nodup_cons]
      exact ⟨hnot, this⟩

theorem mapKeys_mapDelete_nodup {β : Type} (m : List (String × β)) (k : String)
    (hm : (mapKeys m).Nodup) : (mapKeys (mapDelete m k)).Nodup := by
  induction m with
  | nil => simp [mapDelete, mapKeys]
  | cons e m ih =>
    obtain ⟨a, w⟩ := e
    have hm' : a ∉ mapKeys m ∧ (mapKeys m).Nodup := by
      simpa [mapKeys] using hm
    by_cases h : a = k
    · simpa [mapDelete, h] using ih hm'.2
    · have hnot : a ∉ mapKeys (mapDelete m k) := by
        have h1 := hm'.1
        rw [mem_mapKeys] at h1 ⊢
        rw [mapGet_mapDelete]
        simpa [Ne.symm h] using h1
      simp only [mapDelete, h, if_false]
      simp only [mapKeys, List.map_cons, List.nodup_cons]
      exact ⟨hnot, ih hm'.2⟩

theorem length_mapSet {β : Type} (m : List (String × β)) (k : String) (v : β) :
    (mapSet m k v).length = if (mapGet m k).isSome then m.length else m.length + 1 := by
  induction m with
  | nil => simp [mapSet, mapGet]
  | cons e m ih =>
    obtain ⟨a, w⟩ := e
    by_cases h : a = k
    · simp [mapSet, mapGet, h]
    · simp only [mapSet, mapGet, h, if_false, List.length_cons, ih]
      split <;> rfl

theorem mapDelete_of_absent {β : Type} (m : List (String × β)) (k : String)
    (h : mapGet m k = none) : mapDelete m k = m := by
  induction m with
  | nil => rfl
  | cons e m ih =>
    obtain ⟨a, w⟩ := e
    by_cases h2 : a = k
    · simp [mapGet, h2] at h
    · simp only [mapGet, h2, if_false] at h
      simp [mapDelete, h2, ih h]

theorem length_mapDelete {β : Type} (m : List (String × β)) (k : String)
    (hm : (mapKeys m).Nodup) (h : mapGet m k ≠ none) :
    (mapDelete m k).length + 1 = m.length := by
  induction m with
  | nil => simp [mapGet] at h
  | cons e m ih =>
    obtain ⟨a, w⟩ := e
    have hm' : a ∉ mapKeys m ∧ (mapKeys m).Nodup := by
      simpa [mapKeys] using hm
    by_cases h2 : a = k
    · subst h2
      have habs : mapGet m a = none := by
        have := hm'.1
        rw [mem_mapKeys] at this
        simpa using this
      simp [mapDelete, mapDelete_of_absent m a habs]
    · simp only [mapGet, h2, if_false] at h
      simp [mapDelete, h2, ih hm'.2 h]

/-! ## Lemmas on buckets -/

theorem collectLive_eq (rtn : List Obj) (b : UUIDPosIList) :
    collectLive rtn b = rtn ++ live b := by
  induction b generalizing rtn with
  | nil => simp [collectLive, live]
  | cons s b ih =>
    cases s with
    | none => simp [collectLive, live, ih]
    | some v => simp [collectLive, live, ih]

theorem firstLive_eq (b : UUIDPosIList) : firstLive b = (live b).head? := by
  induction b with
  | nil => rfl
  | cons s b ih =>
    cases s with
    | none => simpa [firstLive, live] using ih
    | some v => simp [firstLive, live]

theorem occ_addToBucket (id : String) (o : Obj) (b : UUIDPosIList) :
    occ id (addToBucket o b) = occ id b + (if o.GetUUID = id then 1 else 0) := by
  induction b with
  | nil => simp [occ, addToBucket, live, List.countP_cons]
  | cons s b ih =>
    cases s with
    | none => simp [occ, addToBucket, live, List.countP_cons]
    | some v =>
      simp only [occ, addToBucket, live, List.countP_cons] at ih ⊢
      omega

theorem liveCount_addToBucket (o : Obj) (b : UUIDPosIList) :
    liveCount (addToBucket o b) = liveCount b + 1 := by
  induction b with
  | nil => simp [liveCount, addToBucket, live]
  | cons s b ih =>
    cases s with
    | none => simp [liveCount, addToBucket, live]
    | some v =>
      simp only [liveCount, addToBucket, live, List.length_cons] at ih ⊢
      omega

theorem mem_live_addToBucket (v o : Obj) (b : UUIDPosIList) :
    v ∈ live (addToBucket o b) ↔ v = o ∨ v ∈ live b := by
  induction b with
  | nil => simp [addToBucket, live]
  | cons s b ih =>
    cases s with
    | none => simp [addToBucket, live]
    | some u =>
      simp only [addToBucket, live, List.mem_cons, ih]
      tauto

theorem delFromBucket_eq_none (id : String) (b : UUIDPosIList) :
    delFromBucket id b = none ↔ occ id b = 0 := by
  induction b with
  | nil => simp [delFromBucket, occ, live]
  | cons s b ih =>
    cases s with
    | none => simpa [delFromBucket, occ, live] using ih
    | some v =>
      by_cases h : v.GetUUID = id
      · simp [delFromBucket, occ, live, h, List.countP_cons]
      · simpa [delFromBucket, occ, live, h, List.countP_cons] using ih

theorem occ_delFromBucket (id id' : String) (b r : UUIDPosIList)
    (h : delFromBucket id b = some r) :
    occ id' r + (if id = id' then 1 else 0) = occ id' b := by
  induction b generalizing r with
  | nil => simp [delFromBucket] at h
  | cons s b ih =>
    cases s with
    | none =>
      simp only [delFromBucket, Option.map_eq_some'] at h
      obtain ⟨r', hr', rfl⟩ := h
      simpa [occ, live] using ih r' hr'
    | some v =>
      by_cases hv : v.GetUUID = id
      · simp only [delFromBucket, hv, if_true, Option.some.injEq] at h
        subst h
        subst hv
        by_cases h2 : v.GetUUID = id' <;> simp [occ, live, List.countP_cons, h2]
      · simp only [delFromBucket, hv, if_false, Option.map_eq_some'] at h
        obtain ⟨r', hr', rfl⟩ := h
        have := ih r' hr'
        simp only [occ, live, List.countP_cons] at this ⊢
        omega

theorem liveCount_delFromBucket (id : String) (b r : UUIDPosIList)
    (h : delFromBucket id b = some r) : liveCount r + 1 = liveCount b := by
  induction b generalizing r with
  | nil => simp [delFromBucket] at h
  | cons s b ih =>
    cases s with
    | none =>
      simp only [delFromBucket, Option.map_eq_some'] at h
      obtain ⟨r', hr', rfl⟩ := h
      simpa [liveCount, live] using ih r' hr'
    | some v =>
      by_cases hv : v.GetUUID = id
      · simp only [delFromBucket, hv, if_true, Option.some.injEq] at h
        subst h
        simp [liveCount, live]
      · simp only [delFromBucket, hv, if_false, Option.map_eq_some'] at h
        obtain ⟨r', hr', rfl⟩ := h
        have := ih r' hr'
        simp only [liveCount, live, List.length_cons] at this ⊢
        omega

theorem mem_live_delFromBucket (id : String) (b r : UUIDPosIList) (v : Obj)
    (h : delFromBucket id b = some r) (hv : v ∈ live r) : v ∈ live b := by
  induction b generalizing r with
  | nil => simp [delFromBucket] at h
  | cons s b ih =>
    cases s with
    | none =>
      simp only [delFromBucket, Option.map_eq_some'] at h
      obtain ⟨r', hr', rfl⟩ := h
      simp only [live] at hv ⊢
      exact ih r' hr' hv
    | some u =>
      by_cases hu : u.GetUUID = id
      · simp only [delFromBucket, hu, if_true, Option.some.injEq] at h
        subst h
        simp only [live] at hv ⊢
        exact List.mem_cons_of_mem _ hv
      · simp only [delFromBucket, hu, if_false, Option.map_eq_some'] at h
        obtain ⟨r', hr', rfl⟩ := h
        simp only [live, List.mem_cons] at hv ⊢
        rcases hv with hv | hv
        · exact Or.inl hv
        · exact Or.inr (ih r' hr' hv)

theorem occ_eq_zero_iff (id : String) (b : UUIDPosIList) :
    occ id b = 0 ↔ ∀ v ∈ live b, v.GetUUID ≠ id := by
  simp [occ, List.countP_eq_zero]

/-! ## Lemmas on the grid -/

theorem sliceAt_eq_some {α : Type} (l : List α) (i : Int) (a : α) :
    sliceAt l i = some a ↔ 0 ≤ i ∧ l[i.toNat]? = some a := by
  unfold sliceAt
  by_cases h : 0 ≤ i <;> simp [h]

theorem bucketAt_eq_some (g : List (List UUIDPosIList)) (x y : Int) (b : UUIDPosIList) :
    bucketAt g x y = some b ↔
      0 ≤ x ∧ 0 ≤ y ∧ ∃ col, g[x.toNat]? = some col ∧ col[y.toNat]? = some b := by
  unfold bucketAt
  simp only [Option.bind_eq_some, sliceAt_eq_some]
  constructor
  · rintro ⟨col, ⟨hx, hc⟩, hy, hb⟩
    exact ⟨hx, hy, col, hc, hb⟩
  · rintro ⟨hx, hy, col, hc, hb⟩
    exact ⟨col, ⟨hx, hc⟩, hy, hb⟩

theorem bucketAt_of_dims {w h : Int} {g : List (List UUIDPosIList)} (hd : GridDims w h g)
    {x y : Int} (hx : 0 ≤ x) (hxw : x < w) (hy : 0 ≤ y) (hyh : y < h) :
    ∃ b, bucketAt g x y = some b := by
  have hxl : x.toNat < g.length := by rw [hd.1]; omega
  have hcl : (g[x.toNat]).length = h.toNat := hd.2 _ (List.getElem_mem hxl)
  have hyl : y.toNat < (g[x.toNat]).length := by rw [hcl]; omega
  refine ⟨(g[x.toNat])[y.toNat], ?_⟩
  rw [bucketAt_eq_some]
  exact ⟨hx, hy, g[x.toNat], List.getElem?_eq_getElem hxl, List.getElem?_eq_getElem hyl⟩

theorem inRange_of_bucketAt {w h : Int} {g : List (List UUIDPosIList)} (hd : GridDims w h g)
    {x y : Int} {b : UUIDPosIList} (hb : bucketAt g x y = some b) :
    0 ≤ x ∧ x < w ∧ 0 ≤ y ∧ y < h := by
  rw [bucketAt_eq_some] at hb
  obtain ⟨hx, hy, col, hc, hcb⟩ := hb
  rw [List.getElem?_eq_some_iff] at hc hcb
  obtain ⟨hxl, hc⟩ := hc
  obtain ⟨hyl, -⟩ := hcb
  have hcl : col.length = h.toNat := hd.2 col (hc ▸ List.getElem_mem hxl)
  rw [hd.1] at hxl
  rw [hcl] at hyl
  omega

theorem bucketAt_bucketPut {g : List (List UUIDPosIList)} {x y : Int} {b : UUIDPosIList}
    (hb : bucketAt g x y = some b) (b' : UUIDPosIList) (x' y' : Int) :
    bucketAt (bucketPut g x y b') x' y' =
      if x' = x ∧ y' = y then some b' else bucketAt g x' y' := by
  rw [bucketAt_eq_some] at hb
  obtain ⟨hx, hy, col, hc, hcb⟩ := hb
  have hxl : x.toNat < g.length := (List.getElem?_eq_some_iff.1 hc).1
  have hyl : y.toNat < col.length := (List.getElem?_eq_some_iff.1 hcb).1
  simp only [bucketPut, hc]
  unfold bucketAt sliceAt
  by_cases hx' : 0 ≤ x'
  · by_cases hxx : x' = x
    · subst hxx
      simp only [hx', if_true, List.getElem?_set, hxl, hc, Option.some_bind, true_and]
      by_cases hy' : 0 ≤ y'
      · by_cases hyy : y' = y
        · subst hyy
          simp [hy', hyl]
        · have : y.toNat ≠ y'.toNat := by omega
          simp [hy', hyy, this]
      · have : y' ≠ y := by omega
        simp [hy', this]
    · have : x.toNat ≠ x'.toNat := by omega
      simp [hx', hxx, List.getElem?_set, this]
  · have : x' ≠ x := by omega
    simp [hx', this]

theorem dims_bucketPut {w h : Int} {g : List (List UUIDPosIList)} (hd : GridDims w h g)
    (x y : Int) (b' : UUIDPosIList) : GridDims w h (bucketPut g x y b') := by
  unfold bucketPut
  cases hc : g[x.toNat]? with
  | none => exact hd
  | some col =>
    refine ⟨by simpa using hd.1, ?_⟩
    intro c hcmem
    rcases List.mem_or_eq_of_mem_set hcmem with h1 | h1
    · exact hd.2 c h1
    · subst h1
      have : col ∈ g := List.getElem?_mem hc
      simpa using hd.2 col this

theorem sum_map_set {α : Type} (f : α → Nat) (l : List α) (n : Nat) (a a' : α)
    (h : l[n]? = some a) :
    ((l.set n a').map f).sum + f a = (l.map f).sum + f a' := by
  induction l generalizing n with
  | nil => simp at h
  | cons c l ih =>
    cases n with
    | zero =>
      simp only [List.getElem?_cons_zero, Option.some.injEq] at h
      subst h
      simp only [List.set_cons_zero, List.map_cons, List.sum_cons]
      omega
    | succ n =>
      simp only [List.getElem?_cons_succ] at h
      have := ih n h
      simp only [List.set_cons_succ, List.map_cons, List.sum_cons]
      omega

theorem gridSum_bucketPut (f : UUIDPosIList → Nat) {g : List (List UUIDPosIList)}
    {x y : Int} {b : UUIDPosIList} (hb : bucketAt g x y = some b) (b' : UUIDPosIList) :
    gridSum f (bucketPut g x y b') + f b = gridSum f g + f b' := by
  rw [bucketAt_eq_some] at hb
  obtain ⟨-, -, col, hc, hcb⟩ := hb
  simp only [bucketPut, hc, gridSum]
  have h1 := sum_map_set (fun c : List UUIDPosIList => (c.map f).sum) g x.toNat col
    (col.set y.toNat b') hc
  have h2 := sum_map_set f col y.toNat b b' hcb
  simp only at h1
  omega

theorem le_gridSum (f : UUIDPosIList → Nat) {g : List (List UUIDPosIList)}
    {x y : Int} {b : UUIDPosIList} (hb : bucketAt g x y = some b) : f b ≤ gridSum f g + f [] := by
  have := gridSum_bucketPut f hb []
  omega

theorem gridSum_replicate (f : UUIDPosIList → Nat) (hf : f [] = 0) (m n : Nat) :
    gridSum f (List.replicate m (List.replicate n [])) = 0 := by
  simp [gridSum, List.map_replicate, List.sum_replicate, hf]

theorem dims_New (w h : Int) : GridDims w h (New w h).pos2objs := by
  constructor
  · simp [New]
  · intro col hcol
    simp only [New, List.mem_replicate] at hcol
    simp [hcol.2]

/-! ## Preservation of the grid invariant -/

theorem occ_nil (id : String) : occ id [] = 0 := rfl

theorem GridOK.occ_zero {w h : Int} {pos : String → Option (Int × Int)}
    {g : List (List UUIDPosIList)} (hg : GridOK w h pos g) {id : String}
    (hid : pos id = none) {x y : Int} {b : UUIDPosIList} (hb : bucketAt g x y = some b) :
    occ id b = 0 := by
  have h1 := le_gridSum (occ id) hb
  have h2 := hg.slots id
  simp only [hid, Option.isSome_none] at h2
  rw [occ_nil] at h1
  simp at h2
  omega

theorem GridOK.del {w h : Int} {pos pos' : String → Option (Int × Int)}
    {g : List (List UUIDPosIList)} (hg : GridOK w h pos g) {id : String} {p : Int × Int}
    {b r : UUIDPosIList} (hb : bucketAt g p.1 p.2 = some b)
    (hr : delFromBucket id b = some r) (hp : pos id = some p)
    (hnew : pos' id = none) (hframe : ∀ id', id' ≠ id → pos' id' = pos id') :
    GridOK w h pos' (bucketPut g p.1 p.2 r) := by
  refine ⟨dims_bucketPut hg.dims _ _ _, ?_, ?_⟩
  · intro id'
    have h1 := gridSum_bucketPut (occ id') hb r
    have h2 := occ_delFromBucket id id' b r hr
    have h3 := hg.slots id'
    by_cases hid : id' = id
    · subst hid
      simp only [hp, Option.isSome_some, if_true] at h3
      simp only [if_true] at h2
      simp only [hnew, Option.isSome_none]
      simp
      omega
    · rw [hframe id' hid]
      have : ¬ id = id' := fun e => hid e.symm
      simp only [this, if_false] at h2
      omega
  · intro id' p' hp'
    have hid : id' ≠ id := by
      intro e
      subst e
      rw [hnew] at hp'
      exact Option.noConfusion hp'
    rw [hframe id' hid] at hp'
    obtain ⟨b0, hb0, hocc⟩ := hg.atPos id' p' hp'
    rw [bucketAt_bucketPut hb]
    by_cases hpp : p'.1 = p.1 ∧ p'.2 = p.2
    · refine ⟨r, by simp [hpp], ?_⟩
      rw [hpp.1, hpp.2, hb] at hb0
      have h2 := occ_delFromBucket id id' b r hr
      have : ¬ id = id' := fun e => hid e.symm
      simp only [this, if_false] at h2
      cases hb0
      omega
    · exact ⟨b0, by simp [hpp, hb0], hocc⟩

theorem GridOK.add {w h : Int} {pos pos' : String → Option (Int × Int)}
    {g : List (List UUIDPosIList)} (hg : GridOK w h pos g) (o : Obj) {q : Int × Int}
    {b : UUIDPosIList} (hb : bucketAt g q.1 q.2 = some b)
    (hp : pos o.GetUUID = none)
    (hnew : pos' o.GetUUID = some q) (hframe : ∀ id', id' ≠ o.GetUUID → pos' id' = pos id') :
    GridOK w h pos' (bucketPut g q.1 q.2 (addToBucket o b)) := by
  refine ⟨dims_bucketPut hg.dims _ _ _, ?_, ?_⟩
  · intro id'
    have h1 := gridSum_bucketPut (occ id') hb (addToBucket o b)
    have h2 := occ_addToBucket id' o b
    have h3 := hg.slots id'
    by_cases hid : id' = o.GetUUID
    · subst hid
      simp only [hp, Option.isSome_none] at h3
      simp only [if_true] at h2
      simp only [hnew, Option.isSome_some, if_true]
      simp at h3
      omega
    · rw [hframe id' hid]
      have : ¬ o.GetUUID = id' := fun e => hid e.symm
      simp only [this, if_false] at h2
      omega
  · intro id' p' hp'
    rw [bucketAt_bucketPut hb]
    by_cases hid : id' = o.GetUUID
    · subst hid
      rw [hnew] at hp'
      cases hp'
      refine ⟨addToBucket o b, by simp, ?_⟩
      rw [occ_addToBucket, hg.occ_zero hp hb]
      simp
    · rw [hframe id' hid] at hp'
      obtain ⟨b0, hb0, hocc⟩ := hg.atPos id' p' hp'
      by_cases hpp : p'.1 = q.1 ∧ p'.2 = q.2
      · refine ⟨addToBucket o b, by simp [hpp], ?_⟩
        rw [hpp.1, hpp.2, hb] at hb0
        cases hb0
        rw [occ_addToBucket]
        have : ¬ o.GetUUID = id' := fun e => hid e.symm
        simp [this, hocc]
      · exact ⟨b0, by simp [hpp, hb0], hocc⟩

theorem wrapFn_range {n : Int} (hn : 0 < n) (i : Int) : 0 ≤ wrapFn n i ∧ wrapFn n i < n := by
  unfold wrapFn
  exact ⟨Int.emod_nonneg _ (by omega), Int.emod_lt_of_pos _ hn⟩

theorem inv_New {w h : Int} (hw : 0 < w) (hh : 0 < h) : Inv w h (New w h) := by
  refine ⟨rfl, rfl, hw, hh, ⟨dims_New w h, ?_, ?_⟩, ?_, ?_, ?_, ?_⟩
  · intro id
    simp only [New, mapGet, Option.isSome_none]
    simpa using gridSum_replicate (occ id) rfl _ _
  · intro id p hp
    simp [New, mapGet] at hp
  · simp [New, mapKeys]
  · simp [New, mapKeys]
  · intro id
    simp [New, mapGet]
  · simp only [New, List.length_nil]
    exact (gridSum_replicate liveCount rfl _ _).symm

/-! ## The mutators on states that satisfy the invariant -/

theorem Inv.wrap_bucket {w h : Int} {s : UUIDPosMan} (hs : Inv w h s) (x y : Int) :
    ∃ b, bucketAt s.pos2objs (s.Wrap x y).1 (s.Wrap x y).2 = some b := by
  have hx := wrapFn_range hs.wpos x
  have hy := wrapFn_range hs.hpos y
  simp only [UUIDPosMan.Wrap, UUIDPosMan.XWrap, UUIDPosMan.YWrap, hs.xw, hs.yw]
  exact bucketAt_of_dims hs.grid.dims hx.1 hx.2 hy.1 hy.2

theorem addNolock_conflict (s : UUIDPosMan) (o : Obj) (x y : Int)
    (hreg : mapGet s.uuid2obj o.GetUUID ≠ none) :
    s.addNolock o x y = some (s, some Err.addObjExist) := by
  simp [UUIDPosMan.addNolock, hreg]

theorem addNolock_ok {w h : Int} {s : UUIDPosMan} (hs : Inv w h s) (o : Obj) (x y : Int)
    (habs : mapGet s.uuid2obj o.GetUUID = none) :
    ∃ b, bucketAt s.pos2objs (s.Wrap x y).1 (s.Wrap x y).2 = some b ∧
      s.addNolock o x y = some
        ({ s with
            uuid2obj := mapSet s.uuid2obj o.GetUUID o
            uuid2pos := mapSet s.uuid2pos o.GetUUID (s.Wrap x y)
            pos2objs := bucketPut s.pos2objs (s.Wrap x y).1 (s.Wrap x y).2 (addToBucket o b) },
          none) := by
  obtain ⟨b, hb⟩ := hs.wrap_bucket x y
  refine ⟨b, hb, ?_⟩
  simp only [UUIDPosMan.addNolock, habs, ne_eq, not_true_eq_false, if_false,
    UUIDPosMan.addObj2Pos]
  have hb' : bucketAt s.pos2objs (s.Wrap x y).1 (s.Wrap x y).2 = some b := hb
  simp only [UUIDPosMan.Wrap, UUIDPosMan.XWrap, UUIDPosMan.YWrap] at hb' ⊢
  rw [hb']
  rfl

theorem inv_added {w h : Int} {s : UUIDPosMan} (hs : Inv w h s) (o : Obj) (q : Int × Int)
    {b : UUIDPosIList} (hb : bucketAt s.pos2objs q.1 q.2 = some b)
    (habs : mapGet s.uuid2obj o.GetUUID = none) :
    Inv w h { s with
      uuid2obj := mapSet s.uuid2obj o.GetUUID o
      uuid2pos := mapSet s.uuid2pos o.GetUUID q
      pos2objs := bucketPut s.pos2objs q.1 q.2 (addToBucket o b) } := by
  have hpabs : mapGet s.uuid2pos o.GetUUID = none := by
    have := (hs.objPos o.GetUUID).not
    simp only [ne_eq, not_not] at this
    exact this.1 habs
  refine ⟨hs.xw, hs.yw, hs.wpos, hs.hpos, ?_, ?_, ?_, ?_, ?_⟩
  · refine hs.grid.add o hb hpabs ?_ ?_
    · simp [mapGet_mapSet]
    · intro id' hid
      have : ¬ o.GetUUID = id' := fun e => hid e.symm
      simp [mapGet_mapSet, this]
  · exact mapKeys_mapSet_nodup _ _ _ hs.objKeys
  · exact mapKeys_mapSet_nodup _ _ _ hs.posKeys
  · intro id
    simp only [mapGet_mapSet]
    by_cases hid : o.GetUUID = id
    · simp [hid]
    · simpa [hid] using hs.objPos id
  · have h1 := gridSum_bucketPut liveCount hb (addToBucket o b)
    have h2 := liveCount_addToBucket o b
    have h3 := hs.count
    simp only [length_mapSet, habs, Option.isSome_none]
    simp
    omega

theorem delNolock_absent (s : UUIDPosMan) (o : Obj)
    (habs : mapGet s.uuid2obj o.GetUUID = none) :
    s.delNolock o = some (s, some Err.delObjNotExist) := by
  simp [UUIDPosMan.delNolock, habs]

theorem Inv.registered_slot {w h : Int} {s : UUIDPosMan} (hs : Inv w h s) {id : String}
    (hreg : mapGet s.uuid2pos id ≠ none) :
    ∃ p b r, mapGet s.uuid2pos id = some p ∧ bucketAt s.pos2objs p.1 p.2 = some b ∧
      occ id b = 1 ∧ delFromBucket id b = some r := by
  cases hp : mapGet s.uuid2pos id with
  | none => exact absurd hp hreg
  | some p =>
    obtain ⟨b, hb, hocc⟩ := hs.grid.atPos id p hp
    cases hr : delFromBucket id b with
    | none =>
      rw [delFromBucket_eq_none] at hr
      omega
    | some r => exact ⟨p, b, r, rfl, hb, hocc, hr⟩

theorem delNolock_ok {w h : Int} {s : UUIDPosMan} (hs : Inv w h s) (o : Obj)
    (hreg : mapGet s.uuid2obj o.GetUUID ≠ none) :
    ∃ p b r, mapGet s.uuid2pos o.GetUUID = some p ∧ bucketAt s.pos2objs p.1 p.2 = some b ∧
      occ o.GetUUID b = 1 ∧ delFromBucket o.GetUUID b = some r ∧
      s.delNolock o = some
        ({ s with
            uuid2obj := mapDelete s.uuid2obj o.GetUUID
            uuid2pos := mapDelete s.uuid2pos o.GetUUID
            pos2objs := bucketPut s.pos2objs p.1 p.2 r },
          none) := by
  obtain ⟨p, b, r, hp, hb, hocc, hr⟩ := hs.registered_slot ((hs.objPos _).1 hreg)
  refine ⟨p, b, r, hp, hb, hocc, hr, ?_⟩
  simp [UUIDPosMan.delNolock, hreg, hp, UUIDPosMan.delObjAt, hb, hr]

theorem inv_deleted {w h : Int} {s : UUIDPosMan} (hs : Inv w h s) (id : String)
    {p : Int × Int} {b r : UUIDPosIList} (hp : mapGet s.uuid2pos id = some p)
    (hb : bucketAt s.pos2objs p.1 p.2 = some b) (hr : delFromBucket id b = some r) :
    Inv w h { s with
      uuid2obj := mapDelete s.uuid2obj id
      uuid2pos := mapDelete s.uuid2pos id
      pos2objs := bucketPut s.pos2objs p.1 p.2 r } := by
  have hreg : mapGet s.uuid2obj id ≠ none := by
    rw [hs.objPos, hp]
    simp
  refine ⟨hs.xw, hs.yw, hs.wpos, hs.hpos, ?_, ?_, ?_, ?_, ?_⟩
  · refine hs.grid.del hb hr hp ?_ ?_
    · simp [mapGet_mapDelete]
    · intro id' hid
      have : ¬ id = id' := fun e => hid e.symm
      simp [mapGet_mapDelete, this]
  · exact mapKeys_mapDelete_nodup _ _ hs.objKeys
  · exact mapKeys_mapDelete_nodup _ _ hs.posKeys
  · intro id'
    simp only [mapGet_mapDelete]
    by_cases hid : id = id'
    · simp [hid]
    · simpa [hid] using hs.objPos id'
  · have h1 := gridSum_bucketPut liveCount hb r
    have h2 := liveCount_delFromBucket id b r hr
    have h3 := hs.count
    have h4 := length_mapDelete s.uuid2obj id hs.objKeys hreg
    show (mapDelete s.uuid2obj id).length = gridSum liveCount (bucketPut s.pos2objs p.1 p.2 r)
    omega

theorem UpdateToXY_absent (s : UUIDPosMan) (o : Obj) (x y : Int)
    (habs : mapGet s.uuid2pos o.GetUUID = none) :
    s.UpdateToXY o x y = some (s, some Err.updObjNotFound) := by
  simp [UUIDPosMan.UpdateToXY, habs]

theorem UpdateToXY_ok {w h : Int} {s : UUIDPosMan} (hs : Inv w h s) (o : Obj) (x y : Int)
    (hreg : mapGet s.uuid2pos o.GetUUID ≠ none) :
    ∃ p b r b2, mapGet s.uuid2pos o.GetUUID = some p ∧ bucketAt s.pos2objs p.1 p.2 = some b ∧
      occ o.GetUUID b = 1 ∧ delFromBucket o.GetUUID b = some r ∧
      bucketAt (bucketPut s.pos2objs p.1 p.2 r) (s.Wrap x y).1 (s.Wrap x y).2 = some b2 ∧
      s.UpdateToXY o x y = some
        ({ s with
            uuid2pos := mapSet s.uuid2pos o.GetUUID (s.Wrap x y)
            pos2objs := bucketPut (bucketPut s.pos2objs p.1 p.2 r)
              (s.Wrap x y).1 (s.Wrap x y).2 (addToBucket o b2) },
          none) := by
  obtain ⟨p, b, r, hp, hb, hocc, hr⟩ := hs.registered_slot hreg
  obtain ⟨b1, hb1⟩ := hs.wrap_bucket x y
  have hb2 : ∃ b2, bucketAt (bucketPut s.pos2objs p.1 p.2 r) (s.Wrap x y).1 (s.Wrap x y).2
      = some b2 := by
    rw [bucketAt_bucketPut hb]
    split
    · exact ⟨r, rfl⟩
    · exact ⟨b1, hb1⟩
  obtain ⟨b2, hb2⟩ := hb2
  refine ⟨p, b, r, b2, hp, hb, hocc, hr, hb2, ?_⟩
  simp only [UUIDPosMan.UpdateToXY, hp, UUIDPosMan.delObjAt, hb, hr, UUIDPosMan.addObj2Pos]
  have hb2' := hb2
  simp only [UUIDPosMan.Wrap, UUIDPosMan.XWrap, UUIDPosMan.YWrap] at hb2' ⊢
  rw [hb2']
  rfl

theorem inv_updated {w h : Int} {s : UUIDPosMan} (hs : Inv w h s) (o : Obj) (q : Int × Int)
    {p : Int × Int} {b r b2 : UUIDPosIList} (hp : mapGet s.uuid2pos o.GetUUID = some p)
    (hb : bucketAt s.pos2objs p.1 p.2 = some b) (hr : delFromBucket o.GetUUID b = some r)
    (hb2 : bucketAt (bucketPut s.pos2objs p.1 p.2 r) q.1 q.2 = some b2) :
    Inv w h { s with
      uuid2pos := mapSet s.uuid2pos o.GetUUID q
      pos2objs := bucketPut (bucketPut s.pos2objs p.1 p.2 r) q.1 q.2 (addToBucket o b2) } := by
  have hmid : GridOK w h (fun id => if o.GetUUID = id then none else mapGet s.uuid2pos id)
      (bucketPut s.pos2objs p.1 p.2 r) := by
    refine hs.grid.del hb hr hp ?_ ?_
    · simp
    · intro id' hid
      have : ¬ o.GetUUID = id' := fun e => hid e.symm
      simp [this]
  refine ⟨hs.xw, hs.yw, hs.wpos, hs.hpos, ?_, hs.objKeys, ?_, ?_, ?_⟩
  · refine hmid.add o hb2 ?_ ?_ ?_
    · simp
    · simp [mapGet_mapSet]
    · intro id' hid
      have : ¬ o.GetUUID = id' := fun e => hid e.symm
      simp [mapGet_mapSet, this]
  · exact mapKeys_mapSet_nodup _ _ _ hs.posKeys
  · intro id
    simp only [mapGet_mapSet]
    by_cases hid : o.GetUUID = id
    · subst hid
      simp only [if_true]
      rw [hs.objPos, hp]
      simp
    · simpa [hid] using hs.objPos id
  · have h1 := gridSum_bucketPut liveCount hb r
    have h2 := liveCount_delFromBucket _ b r hr
    have h3 := hs.count
    have h4 := gridSum_bucketPut liveCount hb2 (addToBucket o b2)
    have h5 := liveCount_addToBucket o b2
    show s.uuid2obj.length = gridSum liveCount
      (bucketPut (bucketPut s.pos2objs p.1 p.2 r) q.1 q.2 (addToBucket o b2))
    omega

/-! ## Every reachable state satisfies the invariant -/

theorem inv_addNolock {w h : Int} {s s' : UUIDPosMan} {e : Option Err} (hs : Inv w h s)
    (o : Obj) (x y : Int) (hcall : s.addNolock o x y = some (s', e)) : Inv w h s' := by
  by_cases hreg : mapGet s.uuid2obj o.GetUUID = none
  · obtain ⟨b, hb, hok⟩ := addNolock_ok hs o x y hreg
    rw [hok] at hcall
    simp only [Option.some.injEq, Prod.mk.injEq] at hcall
    rw [← hcall.1]
    exact inv_added hs o (s.Wrap x y) hb hreg
  · rw [addNolock_conflict s o x y hreg] at hcall
    simp only [Option.some.injEq, Prod.mk.injEq] at hcall
    rw [← hcall.1]
    exact hs

theorem inv_delNolock {w h : Int} {s s' : UUIDPosMan} {e : Option Err} (hs : Inv w h s)
    (o : Obj) (hcall : s.delNolock o = some (s', e)) : Inv w h s' := by
  by_cases hreg : mapGet s.uuid2obj o.GetUUID = none
  · rw [delNolock_absent s o hreg] at hcall
    simp only [Option.some.injEq, Prod.mk.injEq] at hcall
    rw [← hcall.1]
    exact hs
  · obtain ⟨p, b, r, hp, hb, -, hr, hok⟩ := delNolock_ok hs o hreg
    rw [hok] at hcall
    simp only [Option.some.injEq, Prod.mk.injEq] at hcall
    rw [← hcall.1]
    exact inv_deleted hs o.GetUUID hp hb hr

theorem inv_UpdateToXY {w h : Int} {s s' : UUIDPosMan} {e : Option Err} (hs : Inv w h s)
    (o : Obj) (x y : Int) (hcall : s.UpdateToXY o x y = some (s', e)) : Inv w h s' := by
  by_cases hreg : mapGet s.uuid2pos o.GetUUID = none
  · rw [UpdateToXY_absent s o x y hreg] at hcall
    simp only [Option.some.injEq, Prod.mk.injEq] at hcall
    rw [← hcall.1]
    exact hs
  · obtain ⟨p, b, r, b2, hp, hb, -, hr, hb2, hok⟩ := UpdateToXY_ok hs o x y hreg
    rw [hok] at hcall
    simp only [Option.some.injEq, Prod.mk.injEq] at hcall
    rw [← hcall.1]
    exact inv_updated hs o (s.Wrap x y) hp hb hr hb2

theorem AddOrUpdateToXY_absent (s : UUIDPosMan) (o : Obj) (x y : Int)
    (habs : mapGet s.uuid2obj o.GetUUID = none) :
    s.AddOrUpdateToXY o x y = s.AddToXY o x y := by
  simp [UUIDPosMan.AddOrUpdateToXY, UUIDPosMan.AddToXY, habs]

theorem AddOrUpdateToXY_present {w h : Int} {s : UUIDPosMan} (hs : Inv w h s) (o : Obj)
    (x y : Int) (hreg : mapGet s.uuid2obj o.GetUUID ≠ none) :
    ∃ s1, s.Del o = some (s1, none) ∧ Inv w h s1 ∧ mapGet s1.uuid2obj o.GetUUID = none ∧
      s.AddOrUpdateToXY o x y = s1.AddToXY o x y := by
  obtain ⟨p, b, r, hp, hb, -, hr, hok⟩ := delNolock_ok hs o hreg
  refine ⟨_, hok, inv_deleted hs o.GetUUID hp hb hr, ?_, ?_⟩
  · simp [mapGet_mapDelete]
  · simp only [UUIDPosMan.AddOrUpdateToXY, hreg, ne_eq, not_false_eq_true, if_true, hok,
      UUIDPosMan.AddToXY]

theorem inv_call {w h : Int} {s s' : UUIDPosMan} {e : Option Err} (hs : Inv w h s)
    (c : Call) (hcall : s.call c = some (s', e)) : Inv w h s' := by
  cases c with
  | addToXY o x y => exact inv_addNolock hs o x y hcall
  | del o => exact inv_delNolock hs o hcall
  | updateToXY o x y => exact inv_UpdateToXY hs o x y hcall
  | addOrUpdateToXY o x y =>
    simp only [UUIDPosMan.call] at hcall
    by_cases hreg : mapGet s.uuid2obj o.GetUUID = none
    · rw [AddOrUpdateToXY_absent s o x y hreg] at hcall
      exact inv_addNolock hs o x y hcall
    · obtain ⟨s1, -, hs1, -, heq⟩ := AddOrUpdateToXY_present hs o x y hreg
      rw [heq] at hcall
      exact inv_addNolock hs1 o x y hcall

theorem reachable_inv {w h : Int} {s : UUIDPosMan} (hr : Reachable w h s) : Inv w h s := by
  induction hr with
  | init hw hh => exact inv_New hw hh
  | step c _ hcall ih => exact inv_call ih c hcall

/-! ## Observations on states that satisfy the invariant -/

theorem wrapFn_of_inRange {n i : Int} (h0 : 0 ≤ i) (h1 : i < n) : wrapFn n i = i :=
  Int.emod_eq_of_lt h0 h1

theorem GetObjListAt_of_bucketAt {w h : Int} {s : UUIDPosMan} (hs : Inv w h s) {x y : Int}
    {b : UUIDPosIList} (hb : bucketAt s.pos2objs x y = some b) :
    s.GetObjListAt x y = some (live b) := by
  obtain ⟨hx0, hx1, hy0, hy1⟩ := inRange_of_bucketAt hs.grid.dims hb
  simp only [UUIDPosMan.GetObjListAt, hb, UUIDPosMan.Wrap, UUIDPosMan.XWrap, UUIDPosMan.YWrap,
    hs.xw, hs.yw, wrapFn_of_inRange hx0 hx1, wrapFn_of_inRange hy0 hy1, Option.map_some',
    collectLive_eq, List.nil_append]

theorem Get1stObjAt_of_bucketAt {w h : Int} {s : UUIDPosMan} (hs : Inv w h s) {x y : Int}
    {b : UUIDPosIList} (hb : bucketAt s.pos2objs x y = some b) :
    s.Get1stObjAt x y = some (live b).head? := by
  obtain ⟨hx0, hx1, hy0, hy1⟩ := inRange_of_bucketAt hs.grid.dims hb
  simp only [UUIDPosMan.Get1stObjAt, UUIDPosMan.Wrap, UUIDPosMan.XWrap, UUIDPosMan.YWrap,
    hs.xw, hs.yw, wrapFn_of_inRange hx0 hx1, wrapFn_of_inRange hy0 hy1, hb, Option.map_some',
    firstLive_eq]

theorem gridSum_two (f : UUIDPosIList → Nat) (hf : f [] = 0) {g : List (List UUIDPosIList)}
    {x y x' y' : Int} {b b' : UUIDPosIList} (hb : bucketAt g x y = some b)
    (hb' : bucketAt g x' y' = some b') (hne : ¬ (x' = x ∧ y' = y)) :
    f b + f b' ≤ gridSum f g := by
  have h1 := gridSum_bucketPut f hb []
  have h2 : bucketAt (bucketPut g x y []) x' y' = some b' := by
    rw [bucketAt_bucketPut hb, if_neg hne, hb']
  have h3 := le_gridSum f h2
  omega

theorem reachable_stateA : Reachable 10 10 stateA :=
  Reachable.step (Call.addToXY objA 12 (-1)) (Reachable.init (by decide) (by decide))
    (by decide : (New 10 10).call (Call.addToXY objA 12 (-1)) = some (stateA, none))

/-! ## C1: index consistency -/

/-- C1. In every state reachable from `New(w, h)` by `AddToXY`,
`AddOrUpdateToXY`, `Del` and `UpdateToXY` calls, an identity is a key of
`uuid2obj` iff it is a key of `uuid2pos` iff it holds exactly one live slot of
the whole grid, that slot being in the bucket at its recorded position (every
other bucket holds none, and an unregistered identity holds no slot at all); no
bucket holds an identity twice, the keys of `uuid2obj` are distinct, and
`Count()` is the number of live slots of the whole grid. -/
theorem index_consistency {w h : Int} {s : UUIDPosMan} (hr : Reachable w h s) (id : String) :
    (id ∈ mapKeys s.uuid2obj ↔ id ∈ mapKeys s.uuid2pos) ∧
    (id ∈ mapKeys s.uuid2pos ↔
      s.slotsOf id = 1 ∧ ∃ p b, mapGet s.uuid2pos id = some p ∧
        bucketAt s.pos2objs p.1 p.2 = some b ∧ occ id b = 1 ∧
        ∀ x y b', bucketAt s.pos2objs x y = some b' → ¬ (x = p.1 ∧ y = p.2) → occ id b' = 0) ∧
    (id ∉ mapKeys s.uuid2pos → s.slotsOf id = 0) ∧
    (∀ x y b, bucketAt s.pos2objs x y = some b → occ id b ≤ 1) ∧
    (mapKeys s.uuid2obj).Nodup ∧
    s.Count = s.liveTotal := by
  have hs := reachable_inv hr
  have hslots := hs.grid.slots id
  refine ⟨?_, ?_, ?_, ?_, hs.objKeys, hs.count⟩
  · rw [mem_mapKeys, mem_mapKeys]
    exact hs.objPos id
  · rw [mem_mapKeys]
    constructor
    · intro hreg
      obtain ⟨p, b, -, hp, hb, hocc, -⟩ := hs.registered_slot hreg
      have h1 : s.slotsOf id = 1 := by
        simp only [UUIDPosMan.slotsOf, hslots, hp, Option.isSome_some, if_true]
      refine ⟨h1, p, b, hp, hb, hocc, ?_⟩
      intro x y b' hb' hne
      have h2 := gridSum_two (occ id) rfl hb hb' hne
      simp only [UUIDPosMan.slotsOf] at h1
      omega
    · rintro ⟨-, p, -, hp, -⟩
      rw [hp]
      simp
  · rw [mem_mapKeys]
    intro habs
    simp only [ne_eq, not_not] at habs
    simp only [UUIDPosMan.slotsOf, hslots, habs, Option.isSome_none]
    simp
  · intro x y b hb
    have h1 := le_gridSum (occ id) hb
    rw [occ_nil] at h1
    split at hslots <;> omega

/-- The witness of C1: the 10 by 10 index holding `"a"` at cell `(2, 9)`. -/
theorem index_consistency_witness :
    Reachable 10 10 stateA ∧
    ("a" ∈ mapKeys stateA.uuid2obj ↔ "a" ∈ mapKeys stateA.uuid2pos) ∧
    ("a" ∈ mapKeys stateA.uuid2pos ↔
      stateA.slotsOf "a" = 1 ∧ ∃ p b, mapGet stateA.uuid2pos "a" = some p ∧
        bucketAt stateA.pos2objs p.1 p.2 = some b ∧ occ "a" b = 1 ∧
        ∀ x y b', bucketAt stateA.pos2objs x y = some b' → ¬ (x = p.1 ∧ y = p.2) →
          occ "a" b' = 0) ∧
    ("a" ∉ mapKeys stateA.uuid2pos → stateA.slotsOf "a" = 0) ∧
    (∀ x y b, bucketAt stateA.pos2objs x y = some b → occ "a" b ≤ 1) ∧
    (mapKeys stateA.uuid2obj).Nodup ∧
    stateA.Count = stateA.liveTotal :=
  ⟨reachable_stateA, index_consistency reachable_stateA "a"⟩

/-! ## C2: `Cleanup` -/

theorem cleanupStep_eq (s : UUIDPosMan) (e : String × Obj) :
    s.cleanupStep e = some { s with
      uuid2obj := mapDelete s.uuid2obj e.1
      uuid2pos := mapDelete s.uuid2pos e.1 } := by
  simp [UUIDPosMan.cleanupStep, mapGet_mapDelete]

theorem cleanupLoop_grid (es : List (String × Obj)) (s : UUIDPosMan) :
    ∃ s', UUIDPosMan.cleanupLoop es s = some s' ∧ s'.pos2objs = s.pos2objs := by
  induction es generalizing s with
  | nil => exact ⟨s, rfl, rfl⟩
  | cons e es ih =>
    obtain ⟨s', h1, h2⟩ := ih { s with
      uuid2obj := mapDelete s.uuid2obj e.1
      uuid2pos := mapDelete s.uuid2pos e.1 }
    refine ⟨s', ?_, h2⟩
    simp only [UUIDPosMan.cleanupLoop, cleanupStep_eq, Option.some_bind]
    exact h1

/-- In every state `Cleanup` returns and leaves the whole grid as it was: the
position of an entry is looked up after the entry was deleted from `uuid2pos`,
so `delObjAt` is never called. -/
theorem Cleanup_grid (s : UUIDPosMan) :
    ∃ s', s.Cleanup = some s' ∧ s'.pos2objs = s.pos2objs :=
  cleanupLoop_grid s.uuid2obj s

/-- C2 (the code at the failing input). On the 10 by 10 index that holds `"a"`
at cell `(2, 9)`, `Cleanup()` empties both maps but leaves the object in its
bucket: `Get1stObjAt(2, 9)` returns the object and `GetObjListAt(2, 9)` is not
empty, while on `New(10, 10)` they return nil and the empty list. -/
theorem cleanup_keeps_bucket_entry :
    Reachable 10 10 stateA ∧
    ∃ s', stateA.Cleanup = some s' ∧ s'.Count = 0 ∧ s'.GetByUUID "a" = none ∧
      s'.GetXYByUUID "a" = (0, 0, false) ∧
      s'.Get1stObjAt 2 9 = some (some objA) ∧ s'.GetObjListAt 2 9 = some [objA] ∧
      (New 10 10).Get1stObjAt 2 9 = some none ∧ (New 10 10).GetObjListAt 2 9 = some [] :=
  ⟨reachable_stateA, { stateA with uuid2obj := [], uuid2pos := [] }, by decide⟩

/-! ## `UpdateToXY` without `Cleanup` -/

theorem mapGet_of_GetXYByUUID {s : UUIDPosMan} {id : String} {p : Int × Int}
    (hp : s.GetXYByUUID id = (p.1, p.2, true)) : mapGet s.uuid2pos id = some p := by
  unfold UUIDPosMan.GetXYByUUID at hp
  cases hq : mapGet s.uuid2pos id with
  | none => simp [hq] at hp
  | some q =>
    simp only [hq, Prod.mk.injEq, and_true] at hp
    exact congrArg some (Prod.ext hp.1 hp.2)

/-- `UpdateToXY` on a state reached without `Cleanup`: for an object `o` whose
identity is registered with recorded cell `p` the call succeeds, the new cell
contains `o`, the position is recorded, `Count()` is unchanged and, when the new
cell differs from `p`, the old cell holds no entry with the identity of `o`. -/
theorem UpdateToXY_vacates {w h : Int} {s : UUIDPosMan} (hr : Reachable w h s) (o : Obj)
    (p : Int × Int) (nx ny : Int) (hp : s.GetXYByUUID o.GetUUID = (p.1, p.2, true)) :
    ∃ s' lold lnew, s.UpdateToXY o nx ny = some (s', none) ∧
      s'.GetObjListAt p.1 p.2 = some lold ∧
      (¬ (s.XWrap nx = p.1 ∧ s.YWrap ny = p.2) → ∀ v ∈ lold, v.GetUUID ≠ o.GetUUID) ∧
      s'.GetObjListAt (s.XWrap nx) (s.YWrap ny) = some lnew ∧ o ∈ lnew ∧
      s'.GetXYByUUID o.GetUUID = (s.XWrap nx, s.YWrap ny, true) ∧
      s'.Count = s.Count := by
  have hs := reachable_inv hr
  have hp' := mapGet_of_GetXYByUUID hp
  have hreg : mapGet s.uuid2pos o.GetUUID ≠ none := by rw [hp']; simp
  obtain ⟨p1, b, r, b2, hp1, hb, hocc, hr', hb2, hok⟩ := UpdateToXY_ok hs o nx ny hreg
  rw [hp'] at hp1
  cases hp1
  have hs' := inv_updated hs o (s.Wrap nx ny) hp' hb hr' hb2
  have hnew : bucketAt (bucketPut (bucketPut s.pos2objs p.1 p.2 r) (s.Wrap nx ny).1
      (s.Wrap nx ny).2 (addToBucket o b2)) (s.Wrap nx ny).1 (s.Wrap nx ny).2
      = some (addToBucket o b2) := by
    rw [bucketAt_bucketPut hb2]
    simp
  have hmid : bucketAt (bucketPut s.pos2objs p.1 p.2 r) p.1 p.2 = some r := by
    rw [bucketAt_bucketPut hb]
    simp
  have hold : ∃ bo, bucketAt (bucketPut (bucketPut s.pos2objs p.1 p.2 r) (s.Wrap nx ny).1
      (s.Wrap nx ny).2 (addToBucket o b2)) p.1 p.2 = some bo ∧
      (¬ (s.XWrap nx = p.1 ∧ s.YWrap ny = p.2) → bo = r) := by
    rw [bucketAt_bucketPut hb2]
    by_cases hc : p.1 = (s.Wrap nx ny).1 ∧ p.2 = (s.Wrap nx ny).2
    · refine ⟨addToBucket o b2, by simp [hc], ?_⟩
      intro hne
      exact absurd ⟨hc.1.symm, hc.2.symm⟩ hne
    · exact ⟨r, by simp [hc, hmid], fun _ => rfl⟩
  obtain ⟨bo, hbo, hbor⟩ := hold
  refine ⟨_, live bo, live (addToBucket o b2), hok, GetObjListAt_of_bucketAt hs' hbo, ?_,
    GetObjListAt_of_bucketAt hs' hnew, ?_, ?_, rfl⟩
  · intro hne
    rw [hbor hne]
    have h1 := occ_delFromBucket o.GetUUID o.GetUUID b r hr'
    simp only [if_true] at h1
    have h2 : occ o.GetUUID r = 0 := by omega
    exact (occ_eq_zero_iff _ _).1 h2
  · rw [mem_live_addToBucket]
    exact Or.inl rfl
  · simp [UUIDPosMan.GetXYByUUID, mapGet_mapSet, UUIDPosMan.Wrap]

/-! ## C4: the limit of `GetVPIXYObjByXYLenList` -/

theorem vpBucket_length (i x y l : Int) (b : UUIDPosIList) (rtn : List VPIXYObj)
    (hl : (rtn.length : Int) < l) :
    ((vpBucket i x y l b rtn).1.length : Int) ≤ l ∧
      ((vpBucket i x y l b rtn).2 = false → ((vpBucket i x y l b rtn).1.length : Int) < l) := by
  induction b generalizing rtn with
  | nil => exact ⟨by simp only [vpBucket]; omega, fun _ => by simpa only [vpBucket] using hl⟩
  | cons slot b ih =>
    cases slot with
    | none => simpa only [vpBucket] using ih rtn hl
    | some o =>
      simp only [vpBucket]
      have hlen : ((rtn ++ [VPIXYObj.mk i x y (some o)]).length : Int) = rtn.length + 1 := by
        simp
      split
      · refine ⟨?_, fun hf => ?_⟩
        · simp only
          omega
        · simp at hf
      · rename_i hlt
        exact ih _ (by omega)

theorem vpLoop_length (s : UUIDPosMan) (sx sy l i : Int) (vs : List XYLen)
    (rtn res : List VPIXYObj) (hl : (rtn.length : Int) < l)
    (hres : s.vpLoop sx sy l i vs rtn = some res) : (res.length : Int) ≤ l := by
  induction vs generalizing rtn i with
  | nil =>
    simp only [UUIDPosMan.vpLoop, Option.some.injEq] at hres
    subst hres
    omega
  | cons v vs ih =>
    simp only [UUIDPosMan.vpLoop] at hres
    split at hres
    · exact Option.noConfusion hres
    · rename_i b hb
      have hbk := vpBucket_length i (s.Wrap (goAdd sx v.X) (goAdd sy v.Y)).1
        (s.Wrap (goAdd sx v.X) (goAdd sy v.Y)).2 l b rtn hl
      split at hres
      · rename_i rtn' heq
        simp only [Option.some.injEq] at hres
        subst hres
        rw [heq] at hbk
        exact hbk.1
      · rename_i rtn' heq
        rw [heq] at hbk
        exact ih (i + 1) rtn' (hbk.2 rfl) hres

/-- For a limit `l ≥ 1` the slice returned by `GetVPIXYObjByXYLenList` has at
most `l` elements. -/
theorem GetVPIXYObjByXYLenList_length_le (s : UUIDPosMan) (xylenlist : List XYLen)
    (sx sy l : Int) (hl : 1 ≤ l) (res : List VPIXYObj)
    (hres : s.GetVPIXYObjByXYLenList xylenlist sx sy l = some res) : (res.length : Int) ≤ l :=
  vpLoop_length s sx sy l 0 xylenlist [] res (by simp only [List.length_nil]; omega) hres

/-- C4 (the code at the failing input). On the 10 by 10 index that holds `"a"`
at cell `(2, 9)`, `GetVPIXYObjByXYLenList` with the single offset `(0, 0)`, the
origin `(2, 9)` and the limit `0` returns a slice of length one: the limit is
tested only after an element was appended. -/
theorem collect_limit_zero_returns_one :
    Reachable 10 10 stateA ∧
    stateA.GetVPIXYObjByXYLenList [XYLen.mk 0 0 0] 2 9 0
      = some [VPIXYObj.mk 0 2 9 (some objA)] ∧
    ¬ ([VPIXYObj.mk 0 2 9 (some objA)].length ≤ 0) :=
  ⟨reachable_stateA, by decide, by decide⟩

/-! ## C5: `GetObjListAt` and `Get1stObjAt` on arbitrary coordinates -/

/-- On a state that satisfies the invariant `Get1stObjAt` returns for all
coordinates: the first live entry of the wrapped cell, or nil. -/
theorem Get1stObjAt_total {w h : Int} {s : UUIDPosMan} (hs : Inv w h s) (x y : Int) :
    ∃ b, bucketAt s.pos2objs (s.XWrap x) (s.YWrap y) = some b ∧
      s.Get1stObjAt x y = some (live b).head? := by
  obtain ⟨b, hb⟩ := hs.wrap_bucket x y
  refine ⟨b, hb, ?_⟩
  have hb' : bucketAt s.pos2objs (s.Wrap x y).1 (s.Wrap x y).2 = some b := hb
  simp only [UUIDPosMan.Get1stObjAt, hb', Option.map_some', firstLive_eq]

/-- On a state that satisfies the invariant `GetObjListAt` panics for every
pair of coordinates that is not itself a cell of the grid. -/
theorem GetObjListAt_outOfRange {w h : Int} {s : UUIDPosMan} (hs : Inv w h s) (x y : Int)
    (hout : ¬ (0 ≤ x ∧ x < w ∧ 0 ≤ y ∧ y < h)) : s.GetObjListAt x y = none := by
  cases hb : bucketAt s.pos2objs x y with
  | none => simp [UUIDPosMan.GetObjListAt, hb]
  | some b => exact absurd (inRange_of_bucketAt hs.grid.dims hb) hout

/-- C5 (the code at the failing input). On `New(10, 10)` the call
`GetObjListAt(-1, 0)` panics with an index out of range, because `len` is taken
of `fo.pos2objs[x][y]` before the coordinates are wrapped; so do
`GetObjListAt(10, 0)` and, on the index holding `"a"` at `(2, 9)`,
`GetObjListAt(12, -1)`, while `Get1stObjAt`, which wraps first, returns. -/
theorem get_obj_list_at_unwrapped_panics :
    (New 10 10).GetObjListAt (-1) 0 = none ∧ (New 10 10).GetObjListAt 10 0 = none ∧
    (New 10 10).Get1stObjAt (-1) 0 = some none ∧
    Reachable 10 10 stateA ∧ stateA.GetObjListAt 12 (-1) = none ∧
    stateA.Get1stObjAt 12 (-1) = some (some objA) ∧
    stateA.GetObjListAt 2 9 = some [objA] :=
  ⟨by decide, by decide, by decide, reachable_stateA, by decide, by decide, by decide⟩

/-! ## `AddToXY` and `Del` on states that satisfy the invariant -/

theorem AddToXY_spec {w h : Int} {s : UUIDPosMan} (hs : Inv w h s) (o : Obj) (x y : Int)
    (habs : mapGet s.uuid2obj o.GetUUID = none) :
    ∃ s' b, s.AddToXY o x y = some (s', none) ∧ Inv w h s' ∧
      s'.GetByUUID o.GetUUID = some o ∧
      s'.GetXYByUUID o.GetUUID = (s.XWrap x, s.YWrap y, true) ∧
      bucketAt s'.pos2objs (s.XWrap x) (s.YWrap y) = some b ∧ o ∈ live b ∧
      occ o.GetUUID b = 1 ∧ s'.slotsOf o.GetUUID = 1 ∧
      s'.GetObjListAt (s.XWrap x) (s.YWrap y) = some (live b) ∧
      s'.Count = s.Count + 1 := by
  obtain ⟨b0, hb0, hok⟩ := addNolock_ok hs o x y habs
  have hs' := inv_added hs o (s.Wrap x y) hb0 habs
  have hb : bucketAt (bucketPut s.pos2objs (s.Wrap x y).1 (s.Wrap x y).2 (addToBucket o b0))
      (s.XWrap x) (s.YWrap y) = some (addToBucket o b0) := by
    rw [bucketAt_bucketPut hb0]
    simp [UUIDPosMan.Wrap]
  have hpos : mapGet (mapSet s.uuid2pos o.GetUUID (s.Wrap x y)) o.GetUUID
      = some (s.Wrap x y) := by
    simp [mapGet_mapSet]
  obtain ⟨b1, hb1, hocc⟩ := hs'.grid.atPos o.GetUUID (s.Wrap x y) hpos
  have hb1' : b1 = addToBucket o b0 := by
    have : bucketAt (bucketPut s.pos2objs (s.Wrap x y).1 (s.Wrap x y).2 (addToBucket o b0))
        (s.XWrap x) (s.YWrap y) = some b1 := hb1
    rw [hb] at this
    exact (Option.some.inj this).symm
  subst hb1'
  refine ⟨_, addToBucket o b0, hok, hs', ?_, ?_, hb, ?_, hocc, ?_,
    GetObjListAt_of_bucketAt hs' hb, ?_⟩
  · simp [UUIDPosMan.GetByUUID, mapGet_mapSet]
  · simp [UUIDPosMan.GetXYByUUID, mapGet_mapSet, UUIDPosMan.Wrap]
  · rw [mem_live_addToBucket]
    exact Or.inl rfl
  · have := hs'.grid.slots o.GetUUID
    simp only [hpos, Option.isSome_some, if_true] at this
    exact this
  · simp [UUIDPosMan.Count, length_mapSet, habs]

theorem Del_spec {w h : Int} {s : UUIDPosMan} (hs : Inv w h s) (o : Obj)
    (hreg : mapGet s.uuid2obj o.GetUUID ≠ none) :
    ∃ s' p b', s.Del o = some (s', none) ∧ Inv w h s' ∧
      mapGet s.uuid2pos o.GetUUID = some p ∧ s'.Count + 1 = s.Count ∧
      s'.GetByUUID o.GetUUID = none ∧ s'.GetXYByUUID o.GetUUID = (0, 0, false) ∧
      bucketAt s'.pos2objs p.1 p.2 = some b' ∧ occ o.GetUUID b' = 0 := by
  obtain ⟨p, b, r, hp, hb, hocc, hr, hok⟩ := delNolock_ok hs o hreg
  have hs' := inv_deleted hs o.GetUUID hp hb hr
  refine ⟨_, p, r, hok, hs', hp, ?_, ?_, ?_, ?_, ?_⟩
  · exact length_mapDelete s.uuid2obj o.GetUUID hs.objKeys hreg
  · simp [UUIDPosMan.GetByUUID, mapGet_mapDelete]
  · simp [UUIDPosMan.GetXYByUUID, mapGet_mapDelete]
  · show bucketAt (bucketPut s.pos2objs p.1 p.2 r) p.1 p.2 = some r
    rw [bucketAt_bucketPut hb]
    simp
  · have h1 := occ_delFromBucket o.GetUUID o.GetUUID b r hr
    simp only [if_true] at h1
    omega

/-! ## C6: insert and lookup -/

/-- C6. In a reachable state, for an object `o` whose identity is not
registered and all integers `x, y`, `AddToXY(o, x, y)` succeeds; afterwards
`GetByUUID` returns `o`, `GetXYByUUID` returns `(XWrap(x), YWrap(y), true)`, `o`
is among the live entries of the bucket at that cell (which `GetObjListAt`
returns), and `Count()` has grown by one. -/
theorem insert_lookup_round_trip {w h : Int} {s : UUIDPosMan} (hr : Reachable w h s) (o : Obj)
    (x y : Int) (habs : s.GetByUUID o.GetUUID = none) :
    ∃ s' b, s.AddToXY o x y = some (s', none) ∧
      s'.GetByUUID o.GetUUID = some o ∧
      s'.GetXYByUUID o.GetUUID = (s.XWrap x, s.YWrap y, true) ∧
      bucketAt s'.pos2objs (s.XWrap x) (s.YWrap y) = some b ∧ o ∈ live b ∧
      s'.GetObjListAt (s.XWrap x) (s.YWrap y) = some (live b) ∧
      s'.Count = s.Count + 1 := by
  obtain ⟨s', b, h1, -, h2, h3, h4, h5, -, -, h6, h7⟩ :=
    AddToXY_spec (reachable_inv hr) o x y habs
  exact ⟨s', b, h1, h2, h3, h4, h5, h6, h7⟩

/-- The witness of C6: on a 10 by 10 grid, inserting `"a"` at `(12, -1)` records
cell `(2, 9)`. -/
theorem insert_lookup_round_trip_witness :
    Reachable 10 10 (New 10 10) ∧ (New 10 10).GetByUUID objA.GetUUID = none ∧
    (New 10 10).XWrap 12 = 2 ∧ (New 10 10).YWrap (-1) = 9 ∧
    ∃ s' b, (New 10 10).AddToXY objA 12 (-1) = some (s', none) ∧
      s'.GetByUUID objA.GetUUID = some objA ∧
      s'.GetXYByUUID objA.GetUUID = ((New 10 10).XWrap 12, (New 10 10).YWrap (-1), true) ∧
      bucketAt s'.pos2objs ((New 10 10).XWrap 12) ((New 10 10).YWrap (-1)) = some b ∧
      objA ∈ live b ∧
      s'.GetObjListAt ((New 10 10).XWrap 12) ((New 10 10).YWrap (-1)) = some (live b) ∧
      s'.Count = (New 10 10).Count + 1 :=
  ⟨Reachable.init (by decide) (by decide), by decide, by decide, by decide,
    insert_lookup_round_trip (Reachable.init (by decide) (by decide)) objA 12 (-1)
      (by decide)⟩

/-! ## C7: insert conflict -/

/-- C7. In every state (reachable or not), for an object `o` whose identity is
already registered and all integers `x, y`, `AddToXY(o, x, y)` returns an error
and the resulting state is the prior state: `uuid2obj`, `uuid2pos` and the whole
grid are unchanged. -/
theorem insert_conflict_atomic (s : UUIDPosMan) (o : Obj) (x y : Int)
    (hreg : s.GetByUUID o.GetUUID ≠ none) :
    s.AddToXY o x y = some (s, some Err.addObjExist) :=
  addNolock_conflict s o x y hreg

/-- The witness of C7: a second object value with identity `"a"` is refused by
the index that holds `"a"`. -/
theorem insert_conflict_atomic_witness :
    Reachable 10 10 stateA ∧ stateA.GetByUUID objA2.GetUUID ≠ none ∧
    stateA.AddToXY objA2 3 4 = some (stateA, some Err.addObjExist) :=
  ⟨reachable_stateA, by decide, insert_conflict_atomic stateA objA2 3 4 (by decide)⟩

/-! ## `Del` without `Cleanup` -/

/-- On a state reached without `Cleanup`, `Del(o)` on an unregistered identity returns an
error and changes nothing; on a registered identity, with recorded cell `p`, it
succeeds, `Count()` decreases by one, `GetByUUID` is absent, `GetXYByUUID`
reports not-exist, and no entry with the identity of `o` is among the live
entries that `GetObjListAt` returns at `p`. -/
theorem remove_contract {w h : Int} {s : UUIDPosMan} (hr : Reachable w h s) (o : Obj) :
    (s.GetByUUID o.GetUUID = none → s.Del o = some (s, some Err.delObjNotExist)) ∧
    (s.GetByUUID o.GetUUID ≠ none →
      ∃ (s' : UUIDPosMan) (p : Int × Int) (l : List Obj), s.GetXYByUUID o.GetUUID = (p.1, p.2, true) ∧ s.Del o = some (s', none) ∧
        s'.Count + 1 = s.Count ∧ s'.GetByUUID o.GetUUID = none ∧
        s'.GetXYByUUID o.GetUUID = (0, 0, false) ∧
        s'.GetObjListAt p.1 p.2 = some l ∧ ∀ v ∈ l, v.GetUUID ≠ o.GetUUID) := by
  have hs := reachable_inv hr
  refine ⟨fun habs => delNolock_absent s o habs, fun hreg => ?_⟩
  obtain ⟨s', p, b', hok, hs', hp, hcnt, hobj, hxy, hb', hocc⟩ := Del_spec hs o hreg
  refine ⟨s', p, live b', ?_, hok, hcnt, hobj, hxy, GetObjListAt_of_bucketAt hs' hb',
    (occ_eq_zero_iff _ _).1 hocc⟩
  simp [UUIDPosMan.GetXYByUUID, hp]

/-- An instance of `remove_contract`: removing `objA` from the index that holds it, and
removing the unregistered `objB`. -/
theorem remove_contract_witness :
    Reachable 10 10 stateA ∧ stateA.GetByUUID objB.GetUUID = none ∧
    stateA.GetByUUID objA.GetUUID ≠ none ∧
    stateA.Del objB = some (stateA, some Err.delObjNotExist) ∧
    ∃ (s' : UUIDPosMan) (p : Int × Int) (l : List Obj), stateA.GetXYByUUID objA.GetUUID = (p.1, p.2, true) ∧
      stateA.Del objA = some (s', none) ∧
      s'.Count + 1 = stateA.Count ∧ s'.GetByUUID objA.GetUUID = none ∧
      s'.GetXYByUUID objA.GetUUID = (0, 0, false) ∧
      s'.GetObjListAt p.1 p.2 = some l ∧ ∀ v ∈ l, v.GetUUID ≠ objA.GetUUID :=
  ⟨reachable_stateA, by decide, by decide,
    (remove_contract reachable_stateA objB).1 (by decide),
    (remove_contract reachable_stateA objA).2 (by decide)⟩

/-! ## `AddOrUpdateToXY` without `Cleanup` -/

/-- On a state reached without `Cleanup`, for every object `o` and all integers `x, y`,
`AddOrUpdateToXY(o, x, y)` returns no error; afterwards `GetByUUID` returns `o`,
the recorded position is `(XWrap(x), YWrap(y))`, the identity of `o` holds
exactly one live slot of the whole grid, in the bucket of that cell, which holds
`o`; when the identity was registered, `Count()` is unchanged and the result is
that of `Del(o)` followed by `AddToXY(o, x, y)`, and otherwise `Count()` grows by
one and the result is that of `AddToXY(o, x, y)`. -/
theorem insert_or_replace {w h : Int} {s : UUIDPosMan} (hr : Reachable w h s) (o : Obj)
    (x y : Int) :
    ∃ s' b, s.AddOrUpdateToXY o x y = some (s', none) ∧
      s'.GetByUUID o.GetUUID = some o ∧
      s'.GetXYByUUID o.GetUUID = (s.XWrap x, s.YWrap y, true) ∧
      s'.slotsOf o.GetUUID = 1 ∧
      bucketAt s'.pos2objs (s.XWrap x) (s.YWrap y) = some b ∧ occ o.GetUUID b = 1 ∧
      o ∈ live b ∧
      (s.GetByUUID o.GetUUID ≠ none →
        s'.Count = s.Count ∧
        ∃ s1, s.Del o = some (s1, none) ∧ s1.AddToXY o x y = some (s', none)) ∧
      (s.GetByUUID o.GetUUID = none →
        s'.Count = s.Count + 1 ∧ s.AddToXY o x y = some (s', none)) := by
  have hs := reachable_inv hr
  by_cases hreg : mapGet s.uuid2obj o.GetUUID = none
  · obtain ⟨s', b, h1, -, h2, h3, h4, h5, h6, h7, -, h8⟩ := AddToXY_spec hs o x y hreg
    refine ⟨s', b, ?_, h2, h3, h7, h4, h6, h5, fun hne => absurd hreg hne, fun _ => ⟨h8, h1⟩⟩
    rw [AddOrUpdateToXY_absent s o x y hreg]
    exact h1
  · obtain ⟨s1, hdel, hs1, habs1, heq⟩ := AddOrUpdateToXY_present hs o x y hreg
    obtain ⟨s', b, h1, -, h2, h3, h4, h5, h6, h7, -, h8⟩ := AddToXY_spec hs1 o x y habs1
    obtain ⟨s1', -, -, hdel', -, -, hcnt, -⟩ := Del_spec hs o hreg
    rw [hdel] at hdel'
    simp only [Option.some.injEq, Prod.mk.injEq, and_true] at hdel'
    subst hdel'
    have hxw : s1.XWrap x = s.XWrap x := by
      simp only [UUIDPosMan.XWrap, hs1.xw, hs.xw]
    have hyw : s1.YWrap y = s.YWrap y := by
      simp only [UUIDPosMan.YWrap, hs1.yw, hs.yw]
    rw [hxw, hyw] at h3 h4
    refine ⟨s', b, ?_, h2, h3, h7, h4, h6, h5, fun _ => ⟨by omega, s1, hdel, h1⟩,
      fun habs => absurd habs hreg⟩
    rw [heq]
    exact h1

/-- An instance of `insert_or_replace`: replacing `objA` by a second object value with the same
identity, at cell `(3, 4)`. -/
theorem insert_or_replace_witness :
    Reachable 10 10 stateA ∧
    ∃ s' b, stateA.AddOrUpdateToXY objA2 3 4 = some (s', none) ∧
      s'.GetByUUID objA2.GetUUID = some objA2 ∧
      s'.GetXYByUUID objA2.GetUUID = (stateA.XWrap 3, stateA.YWrap 4, true) ∧
      s'.slotsOf objA2.GetUUID = 1 ∧
      bucketAt s'.pos2objs (stateA.XWrap 3) (stateA.YWrap 4) = some b ∧
      occ objA2.GetUUID b = 1 ∧ objA2 ∈ live b ∧
      (stateA.GetByUUID objA2.GetUUID ≠ none →
        s'.Count = stateA.Count ∧
        ∃ s1, stateA.Del objA2 = some (s1, none) ∧ s1.AddToXY objA2 3 4 = some (s', none)) ∧
      (stateA.GetByUUID objA2.GetUUID = none →
        s'.Count = stateA.Count + 1 ∧ stateA.AddToXY objA2 3 4 = some (s', none)) :=
  ⟨reachable_stateA, insert_or_replace reachable_stateA objA2 3 4⟩

/-! ## C10: first-match search -/

theorem callsUntil_append_of_none (p : Obj → Int → Int → XYLen → Bool)
    (cs r : List (Obj × Int × Int × XYLen)) (h : cs.find? (holdsAt p) = none) :
    callsUntil p (cs ++ r) = cs ++ callsUntil p r := by
  induction cs with
  | nil => rfl
  | cons c cs ih =>
    simp only [List.find?_cons] at h
    cases hc : holdsAt p c with
    | true => simp [hc] at h
    | false =>
      simp only [hc] at h
      simp [callsUntil, hc, ih h]

theorem callsUntil_append_of_some (p : Obj → Int → Int → XYLen → Bool)
    (cs r : List (Obj × Int × Int × XYLen)) (c : Obj × Int × Int × XYLen)
    (h : cs.find? (holdsAt p) = some c) :
    callsUntil p (cs ++ r) = callsUntil p cs := by
  induction cs with
  | nil => simp at h
  | cons d cs ih =>
    simp only [List.find?_cons] at h
    cases hd : holdsAt p d with
    | true => simp [callsUntil, hd]
    | false =>
      simp only [hd] at h
      simp [callsUntil, hd, ih h]

theorem search1stBucket_logged (p : Obj → Int → Int → XYLen → Bool) (x y : Int) (v : XYLen)
    (b : UUIDPosIList) (log : List (Obj × Int × Int × XYLen)) :
    search1stBucket (logged p) x y v b log =
      ((((live b).map (fun o => (o, x, y, v))).find? (holdsAt p)).map (fun c => c.1),
        log ++ callsUntil p ((live b).map (fun o => (o, x, y, v)))) := by
  induction b generalizing log with
  | nil => simp [search1stBucket, live, callsUntil]
  | cons slot b ih =>
    cases slot with
    | none => simpa only [search1stBucket, live] using ih log
    | some o =>
      cases ho : p o x y v with
      | true => simp [search1stBucket, live, logged, callsUntil, holdsAt, ho]
      | false => simp [search1stBucket, live, logged, callsUntil, holdsAt, ho, ih]

theorem search1stLoop_logged {w h : Int} {s : UUIDPosMan} (hs : Inv w h s) (sx sy : Int)
    (p : Obj → Int → Int → XYLen → Bool) (vs : List XYLen)
    (log : List (Obj × Int × Int × XYLen)) :
    s.search1stLoop sx sy (logged p) vs log =
      some (firstResult p (s.candidates sx sy vs), log ++ callsUntil p (s.candidates sx sy vs)) := by
  induction vs generalizing log with
  | nil => simp [UUIDPosMan.search1stLoop, UUIDPosMan.candidates, firstResult, callsUntil]
  | cons v vs ih =>
    obtain ⟨b, hb⟩ := hs.wrap_bucket (goAdd sx v.X) (goAdd sy v.Y)
    simp only [UUIDPosMan.search1stLoop, UUIDPosMan.candidates, hb, search1stBucket_logged]
    cases hf : ((live b).map (fun o => (o, (s.Wrap (goAdd sx v.X) (goAdd sy v.Y)).1,
        (s.Wrap (goAdd sx v.X) (goAdd sy v.Y)).2, v))).find? (holdsAt p) with
    | none =>
      simp only [Option.map_none', ih, firstResult, List.find?_append, hf, Option.none_or,
        callsUntil_append_of_none p _ _ hf, List.append_assoc]
      have hnone : callsUntil p ((live b).map (fun o =>
          (o, (s.Wrap (goAdd sx v.X) (goAdd sy v.Y)).1,
            (s.Wrap (goAdd sx v.X) (goAdd sy v.Y)).2, v))) =
          (live b).map (fun o => (o, (s.Wrap (goAdd sx v.X) (goAdd sy v.Y)).1,
            (s.Wrap (goAdd sx v.X) (goAdd sy v.Y)).2, v)) := by
        have := callsUntil_append_of_none p _ [] hf
        simpa [callsUntil] using this
      rw [hnone]
    | some c =>
      have hmem := List.mem_of_find?_eq_some hf
      simp only [List.mem_map] at hmem
      obtain ⟨o, -, rfl⟩ := hmem
      simp only [Option.map_some', firstResult, List.find?_append, hf, Option.or_some,
        callsUntil_append_of_some p _ _ _ hf]

/-- C10. In a reachable state, `Search1stByXYLenList` with a side-effect-free
predicate (run as the recording callback `logged p`) returns normally; the calls
of the predicate are, in order, the candidates of the query up to and including
the first one that satisfies it; the result is `(o, x, y)` for that candidate,
and it is the absent result `(nil, 0, 0)` iff no candidate satisfies the
predicate, in which case the predicate was applied exactly once to every
candidate (every live entry of every offset's cell). -/
theorem search_first_match {w h : Int} {s : UUIDPosMan} (hr : Reachable w h s)
    (xylenlist : List XYLen) (sx sy : Int) (p : Obj → Int → Int → XYLen → Bool) :
    s.Search1stByXYLenList xylenlist sx sy (logged p) [] =
      some (firstResult p (s.candidates sx sy xylenlist),
        callsUntil p (s.candidates sx sy xylenlist)) ∧
    (∀ c, (s.candidates sx sy xylenlist).find? (holdsAt p) = some c →
      firstResult p (s.candidates sx sy xylenlist) = (some c.1, c.2.1, c.2.2.1)) ∧
    (firstResult p (s.candidates sx sy xylenlist) = (none, 0, 0) ↔
      ∀ c ∈ s.candidates sx sy xylenlist, p c.1 c.2.1 c.2.2.1 c.2.2.2 = false) ∧
    ((∀ c ∈ s.candidates sx sy xylenlist, p c.1 c.2.1 c.2.2.1 c.2.2.2 = false) →
      callsUntil p (s.candidates sx sy xylenlist) = s.candidates sx sy xylenlist) := by
  have hs := reachable_inv hr
  refine ⟨?_, ?_, ?_, ?_⟩
  · simpa [UUIDPosMan.Search1stByXYLenList] using
      search1stLoop_logged hs sx sy p xylenlist []
  · intro c hc
    simp [firstResult, hc]
  · unfold firstResult
    cases hf : (s.candidates sx sy xylenlist).find? (holdsAt p) with
    | none =>
      simp only [true_iff]
      intro c hc
      have := List.find?_eq_none.1 hf c hc
      simpa [holdsAt] using this
    | some c =>
      simp only [Prod.mk.injEq, false_and, false_iff, reduceCtorEq]
      intro hall
      have h1 := List.find?_some hf
      have h2 := hall c (List.mem_of_find?_eq_some hf)
      simp [holdsAt, h2] at h1
  · intro hall
    have hf : (s.candidates sx sy xylenlist).find? (holdsAt p) = none := by
      rw [List.find?_eq_none]
      intro c hc
      simpa [holdsAt] using hall c hc
    have := callsUntil_append_of_none p _ [] hf
    simpa [callsUntil] using this

/-- The witness of C10: searching around `(2, 9)` on the index that holds
`objA` there, with a predicate that is always false. -/
theorem search_first_match_witness :
    Reachable 10 10 stateA ∧
    stateA.Search1stByXYLenList [XYLen.mk 0 0 0, XYLen.mk 10 (-10) 1] 2 9
        (logged (fun _ _ _ _ => false)) [] =
      some ((none, 0, 0),
        [(objA, 2, 9, XYLen.mk 0 0 0), (objA, 2, 9, XYLen.mk 10 (-10) 1)]) :=
  ⟨reachable_stateA, by
    have h := (search_first_match reachable_stateA [XYLen.mk 0 0 0, XYLen.mk 10 (-10) 1] 2 9
      (fun _ _ _ _ => false)).1
    rw [h]
    decide⟩

/-! ## The invariant kept by all five mutators -/

theorem atPos_del {pos pos' : String → Option (Int × Int)} {g : List (List UUIDPosIList)}
    (hat : ∀ id p, pos id = some p → ∃ b, bucketAt g p.1 p.2 = some b ∧ 1 ≤ occ id b)
    {id : String} {p : Int × Int} {b r : UUIDPosIList} (hb : bucketAt g p.1 p.2 = some b)
    (hr : delFromBucket id b = some r) (hnew : pos' id = none)
    (hframe : ∀ id', id' ≠ id → pos' id' = pos id') :
    ∀ id' p', pos' id' = some p' →
      ∃ b', bucketAt (bucketPut g p.1 p.2 r) p'.1 p'.2 = some b' ∧ 1 ≤ occ id' b' := by
  intro id' p' hp'
  have hid : id' ≠ id := by
    intro e
    subst e
    rw [hnew] at hp'
    exact Option.noConfusion hp'
  rw [hframe id' hid] at hp'
  obtain ⟨b0, hb0, hocc⟩ := hat id' p' hp'
  rw [bucketAt_bucketPut hb]
  by_cases hpp : p'.1 = p.1 ∧ p'.2 = p.2
  · refine ⟨r, by simp [hpp], ?_⟩
    rw [hpp.1, hpp.2, hb] at hb0
    have h2 := occ_delFromBucket id id' b r hr
    have : ¬ id = id' := fun e => hid e.symm
    simp only [this, if_false] at h2
    cases hb0
    omega
  · exact ⟨b0, by simp [hpp, hb0], hocc⟩

theorem atPos_add {pos pos' : String → Option (Int × Int)} {g : List (List UUIDPosIList)}
    (hat : ∀ id p, pos id = some p → ∃ b, bucketAt g p.1 p.2 = some b ∧ 1 ≤ occ id b)
    (o : Obj) {q : Int × Int} {b : UUIDPosIList} (hb : bucketAt g q.1 q.2 = some b)
    (hnew : pos' o.GetUUID = some q)
    (hframe : ∀ id', id' ≠ o.GetUUID → pos' id' = pos id') :
    ∀ id' p', pos' id' = some p' →
      ∃ b', bucketAt (bucketPut g q.1 q.2 (addToBucket o b)) p'.1 p'.2 = some b' ∧
        1 ≤ occ id' b' := by
  intro id' p' hp'
  rw [bucketAt_bucketPut hb]
  by_cases hid : id' = o.GetUUID
  · subst hid
    rw [hnew] at hp'
    cases hp'
    refine ⟨addToBucket o b, by simp, ?_⟩
    rw [occ_addToBucket]
    simp
  · rw [hframe id' hid] at hp'
    obtain ⟨b0, hb0, hocc⟩ := hat id' p' hp'
    by_cases hpp : p'.1 = q.1 ∧ p'.2 = q.2
    · refine ⟨addToBucket o b, by simp [hpp], ?_⟩
      rw [hpp.1, hpp.2, hb] at hb0
      cases hb0
      rw [occ_addToBucket]
      omega
    · exact ⟨b0, by simp [hpp, hb0], hocc⟩

theorem located_New {w h : Int} (hw : 0 < w) (hh : 0 < h) : Located w h (New w h) := by
  refine ⟨rfl, rfl, hw, hh, dims_New w h, ?_, ?_, ?_, ?_, ?_⟩
  · simp [New, mapKeys]
  · simp [New, mapKeys]
  · intro id
    simp [New, mapGet]
  · intro id o ho
    simp [New, mapGet] at ho
  · intro id p hp
    simp [New, mapGet] at hp

theorem Located.cell_bucket {w h : Int} {s : UUIDPosMan} (hs : Located w h s) (x y : Int) :
    ∃ b, bucketAt s.pos2objs (s.Wrap x y).1 (s.Wrap x y).2 = some b := by
  have hx := wrapFn_range hs.wpos x
  have hy := wrapFn_range hs.hpos y
  simp only [UUIDPosMan.Wrap, UUIDPosMan.XWrap, UUIDPosMan.YWrap, hs.xw, hs.yw]
  exact bucketAt_of_dims hs.dims hx.1 hx.2 hy.1 hy.2

theorem Located.addNolock_returns {w h : Int} {s : UUIDPosMan} (hs : Located w h s) (o : Obj)
    (x y : Int) (habs : mapGet s.uuid2obj o.GetUUID = none) :
    ∃ b, bucketAt s.pos2objs (s.Wrap x y).1 (s.Wrap x y).2 = some b ∧
      s.addNolock o x y = some
        ({ s with
            uuid2obj := mapSet s.uuid2obj o.GetUUID o
            uuid2pos := mapSet s.uuid2pos o.GetUUID (s.Wrap x y)
            pos2objs := bucketPut s.pos2objs (s.Wrap x y).1 (s.Wrap x y).2 (addToBucket o b) },
          none) := by
  obtain ⟨b, hb⟩ := hs.cell_bucket x y
  refine ⟨b, hb, ?_⟩
  simp only [UUIDPosMan.addNolock, habs, ne_eq, not_true_eq_false, if_false,
    UUIDPosMan.addObj2Pos]
  have hb' : bucketAt s.pos2objs (s.Wrap x y).1 (s.Wrap x y).2 = some b := hb
  simp only [UUIDPosMan.Wrap, UUIDPosMan.XWrap, UUIDPosMan.YWrap] at hb' ⊢
  rw [hb']
  rfl

theorem located_added {w h : Int} {s : UUIDPosMan} (hs : Located w h s) (o : Obj)
    (q : Int × Int) {b : UUIDPosIList} (hb : bucketAt s.pos2objs q.1 q.2 = some b) :
    Located w h { s with
      uuid2obj := mapSet s.uuid2obj o.GetUUID o
      uuid2pos := mapSet s.uuid2pos o.GetUUID q
      pos2objs := bucketPut s.pos2objs q.1 q.2 (addToBucket o b) } := by
  refine ⟨hs.xw, hs.yw, hs.wpos, hs.hpos, dims_bucketPut hs.dims _ _ _, ?_, ?_, ?_, ?_, ?_⟩
  · exact mapKeys_mapSet_nodup _ _ _ hs.objKeys
  · exact mapKeys_mapSet_nodup _ _ _ hs.posKeys
  · intro id
    simp only [mapGet_mapSet]
    by_cases hid : o.GetUUID = id
    · simp [hid]
    · simpa [hid] using hs.objPos id
  · intro id o' ho'
    simp only [mapGet_mapSet] at ho'
    by_cases hid : o.GetUUID = id
    · simp only [hid, if_true, Option.some.injEq] at ho'
      rw [← ho']
      exact hid
    · simp only [hid, if_false] at ho'
      exact hs.keyed id o' ho'
  · refine atPos_add hs.atPos o hb ?_ ?_
    · simp [mapGet_mapSet]
    · intro id' hid
      have : ¬ o.GetUUID = id' := fun e => hid e.symm
      simp [mapGet_mapSet, this]

theorem Located.recorded_slot {w h : Int} {s : UUIDPosMan} (hs : Located w h s)
    {id : String} (hreg : mapGet s.uuid2pos id ≠ none) :
    ∃ p b r, mapGet s.uuid2pos id = some p ∧ bucketAt s.pos2objs p.1 p.2 = some b ∧
      delFromBucket id b = some r := by
  cases hp : mapGet s.uuid2pos id with
  | none => exact absurd hp hreg
  | some p =>
    obtain ⟨b, hb, hocc⟩ := hs.atPos id p hp
    cases hr : delFromBucket id b with
    | none =>
      rw [delFromBucket_eq_none] at hr
      omega
    | some r => exact ⟨p, b, r, rfl, hb, hr⟩

theorem Located.delNolock_returns {w h : Int} {s : UUIDPosMan} (hs : Located w h s) (o : Obj)
    (hreg : mapGet s.uuid2obj o.GetUUID ≠ none) :
    ∃ p b r, mapGet s.uuid2pos o.GetUUID = some p ∧ bucketAt s.pos2objs p.1 p.2 = some b ∧
      delFromBucket o.GetUUID b = some r ∧
      s.delObjAt o p.1 p.2 = some ({ s with pos2objs := bucketPut s.pos2objs p.1 p.2 r }, none) ∧
      s.delNolock o = some
        ({ s with
            uuid2obj := mapDelete s.uuid2obj o.GetUUID
            uuid2pos := mapDelete s.uuid2pos o.GetUUID
            pos2objs := bucketPut s.pos2objs p.1 p.2 r },
          none) := by
  obtain ⟨p, b, r, hp, hb, hr⟩ := hs.recorded_slot ((hs.objPos _).1 hreg)
  refine ⟨p, b, r, hp, hb, hr, ?_, ?_⟩
  · simp [UUIDPosMan.delObjAt, hb, hr]
  · simp [UUIDPosMan.delNolock, hreg, hp, UUIDPosMan.delObjAt, hb, hr]

theorem located_deleted {w h : Int} {s : UUIDPosMan} (hs : Located w h s) (id : String)
    {p : Int × Int} {b r : UUIDPosIList}
    (hb : bucketAt s.pos2objs p.1 p.2 = some b) (hr : delFromBucket id b = some r) :
    Located w h { s with
      uuid2obj := mapDelete s.uuid2obj id
      uuid2pos := mapDelete s.uuid2pos id
      pos2objs := bucketPut s.pos2objs p.1 p.2 r } := by
  refine ⟨hs.xw, hs.yw, hs.wpos, hs.hpos, dims_bucketPut hs.dims _ _ _, ?_, ?_, ?_, ?_, ?_⟩
  · exact mapKeys_mapDelete_nodup _ _ hs.objKeys
  · exact mapKeys_mapDelete_nodup _ _ hs.posKeys
  · intro id'
    simp only [mapGet_mapDelete]
    by_cases hid : id = id'
    · simp [hid]
    · simpa [hid] using hs.objPos id'
  · intro id' o' ho'
    simp only [mapGet_mapDelete] at ho'
    by_cases hid : id = id'
    · simp [hid] at ho'
    · simp only [hid, if_false] at ho'
      exact hs.keyed id' o' ho'
  · refine atPos_del hs.atPos hb hr ?_ ?_
    · simp [mapGet_mapDelete]
    · intro id' hid
      have : ¬ id = id' := fun e => hid e.symm
      simp [mapGet_mapDelete, this]

theorem Located.UpdateToXY_returns {w h : Int} {s : UUIDPosMan} (hs : Located w h s) (o : Obj)
    (x y : Int) (hreg : mapGet s.uuid2pos o.GetUUID ≠ none) :
    ∃ p b r b2, mapGet s.uuid2pos o.GetUUID = some p ∧ bucketAt s.pos2objs p.1 p.2 = some b ∧
      delFromBucket o.GetUUID b = some r ∧
      s.delObjAt o p.1 p.2 = some ({ s with pos2objs := bucketPut s.pos2objs p.1 p.2 r }, none) ∧
      bucketAt (bucketPut s.pos2objs p.1 p.2 r) (s.Wrap x y).1 (s.Wrap x y).2 = some b2 ∧
      s.UpdateToXY o x y = some
        ({ s with
            uuid2pos := mapSet s.uuid2pos o.GetUUID (s.Wrap x y)
            pos2objs := bucketPut (bucketPut s.pos2objs p.1 p.2 r)
              (s.Wrap x y).1 (s.Wrap x y).2 (addToBucket o b2) },
          none) := by
  obtain ⟨p, b, r, hp, hb, hr⟩ := hs.recorded_slot hreg
  obtain ⟨b1, hb1⟩ := hs.cell_bucket x y
  have hb2 : ∃ b2, bucketAt (bucketPut s.pos2objs p.1 p.2 r) (s.Wrap x y).1 (s.Wrap x y).2
      = some b2 := by
    rw [bucketAt_bucketPut hb]
    split
    · exact ⟨r, rfl⟩
    · exact ⟨b1, hb1⟩
  obtain ⟨b2, hb2⟩ := hb2
  refine ⟨p, b, r, b2, hp, hb, hr, ?_, hb2, ?_⟩
  · simp [UUIDPosMan.delObjAt, hb, hr]
  · simp only [UUIDPosMan.UpdateToXY, hp, UUIDPosMan.delObjAt, hb, hr, UUIDPosMan.addObj2Pos]
    have hb2' := hb2
    simp only [UUIDPosMan.Wrap, UUIDPosMan.XWrap, UUIDPosMan.YWrap] at hb2' ⊢
    rw [hb2']
    rfl

theorem located_updated {w h : Int} {s : UUIDPosMan} (hs : Located w h s) (o : Obj)
    (q : Int × Int) {p : Int × Int} {b r b2 : UUIDPosIList}
    (hp : mapGet s.uuid2pos o.GetUUID = some p)
    (hb : bucketAt s.pos2objs p.1 p.2 = some b) (hr : delFromBucket o.GetUUID b = some r)
    (hb2 : bucketAt (bucketPut s.pos2objs p.1 p.2 r) q.1 q.2 = some b2) :
    Located w h { s with
      uuid2pos := mapSet s.uuid2pos o.GetUUID q
      pos2objs := bucketPut (bucketPut s.pos2objs p.1 p.2 r) q.1 q.2 (addToBucket o b2) } := by
  have hmid : ∀ id' p',
      (fun id => if o.GetUUID = id then none else mapGet s.uuid2pos id) id' = some p' →
      ∃ b', bucketAt (bucketPut s.pos2objs p.1 p.2 r) p'.1 p'.2 = some b' ∧ 1 ≤ occ id' b' := by
    refine atPos_del hs.atPos hb hr ?_ ?_
    · simp
    · intro id' hid
      have : ¬ o.GetUUID = id' := fun e => hid e.symm
      simp [this]
  refine ⟨hs.xw, hs.yw, hs.wpos, hs.hpos, dims_bucketPut (dims_bucketPut hs.dims _ _ _) _ _ _,
    hs.objKeys, ?_, ?_, hs.keyed, ?_⟩
  · exact mapKeys_mapSet_nodup _ _ _ hs.posKeys
  · intro id
    simp only [mapGet_mapSet]
    by_cases hid : o.GetUUID = id
    · subst hid
      simp only [if_true]
      rw [hs.objPos, hp]
      simp
    · simpa [hid] using hs.objPos id
  · refine atPos_add hmid o hb2 ?_ ?_
    · simp [mapGet_mapSet]
    · intro id' hid
      have : ¬ o.GetUUID = id' := fun e => hid e.symm
      simp [mapGet_mapSet, this]

theorem located_addNolock {w h : Int} {s s' : UUIDPosMan} {e : Option Err}
    (hs : Located w h s) (o : Obj) (x y : Int) (hcall : s.addNolock o x y = some (s', e)) :
    Located w h s' := by
  by_cases hreg : mapGet s.uuid2obj o.GetUUID = none
  · obtain ⟨b, hb, hok⟩ := hs.addNolock_returns o x y hreg
    rw [hok] at hcall
    simp only [Option.some.injEq, Prod.mk.injEq] at hcall
    rw [← hcall.1]
    exact located_added hs o (s.Wrap x y) hb
  · rw [addNolock_conflict s o x y hreg] at hcall
    simp only [Option.some.injEq, Prod.mk.injEq] at hcall
    rw [← hcall.1]
    exact hs

theorem located_delNolock {w h : Int} {s s' : UUIDPosMan} {e : Option Err}
    (hs : Located w h s) (o : Obj) (hcall : s.delNolock o = some (s', e)) :
    Located w h s' := by
  by_cases hreg : mapGet s.uuid2obj o.GetUUID = none
  · rw [delNolock_absent s o hreg] at hcall
    simp only [Option.some.injEq, Prod.mk.injEq] at hcall
    rw [← hcall.1]
    exact hs
  · obtain ⟨p, b, r, -, hb, hr, -, hok⟩ := hs.delNolock_returns o hreg
    rw [hok] at hcall
    simp only [Option.some.injEq, Prod.mk.injEq] at hcall
    rw [← hcall.1]
    exact located_deleted hs o.GetUUID hb hr

theorem located_UpdateToXY {w h : Int} {s s' : UUIDPosMan} {e : Option Err}
    (hs : Located w h s) (o : Obj) (x y : Int) (hcall : s.UpdateToXY o x y = some (s', e)) :
    Located w h s' := by
  by_cases hreg : mapGet s.uuid2pos o.GetUUID = none
  · rw [UpdateToXY_absent s o x y hreg] at hcall
    simp only [Option.some.injEq, Prod.mk.injEq] at hcall
    rw [← hcall.1]
    exact hs
  · obtain ⟨p, b, r, b2, hp, hb, hr, -, hb2, hok⟩ := hs.UpdateToXY_returns o x y hreg
    rw [hok] at hcall
    simp only [Option.some.injEq, Prod.mk.injEq] at hcall
    rw [← hcall.1]
    exact located_updated hs o (s.Wrap x y) hp hb hr hb2

theorem Located.AddOrUpdateToXY_registered {w h : Int} {s : UUIDPosMan} (hs : Located w h s)
    (o : Obj) (x y : Int) (hreg : mapGet s.uuid2obj o.GetUUID ≠ none) :
    ∃ s1, s.Del o = some (s1, none) ∧ Located w h s1 ∧
      mapGet s1.uuid2obj o.GetUUID = none ∧
      s.AddOrUpdateToXY o x y = s1.AddToXY o x y := by
  obtain ⟨p, b, r, -, hb, hr, -, hok⟩ := hs.delNolock_returns o hreg
  refine ⟨_, hok, located_deleted hs o.GetUUID hb hr, ?_, ?_⟩
  · simp [mapGet_mapDelete]
  · simp only [UUIDPosMan.AddOrUpdateToXY, hreg, ne_eq, not_false_eq_true, if_true, hok,
      UUIDPosMan.AddToXY]

theorem located_call {w h : Int} {s s' : UUIDPosMan} {e : Option Err} (hs : Located w h s)
    (c : Call) (hcall : s.call c = some (s', e)) : Located w h s' := by
  cases c with
  | addToXY o x y => exact located_addNolock hs o x y hcall
  | del o => exact located_delNolock hs o hcall
  | updateToXY o x y => exact located_UpdateToXY hs o x y hcall
  | addOrUpdateToXY o x y =>
    simp only [UUIDPosMan.call] at hcall
    by_cases hreg : mapGet s.uuid2obj o.GetUUID = none
    · rw [AddOrUpdateToXY_absent s o x y hreg] at hcall
      exact located_addNolock hs o x y hcall
    · obtain ⟨s1, -, hs1, -, heq⟩ := hs.AddOrUpdateToXY_registered o x y hreg
      rw [heq] at hcall
      exact located_addNolock hs1 o x y hcall

theorem located_cleanupStep {w h : Int} {s : UUIDPosMan} (hs : Located w h s) (id : String) :
    Located w h { s with
      uuid2obj := mapDelete s.uuid2obj id
      uuid2pos := mapDelete s.uuid2pos id } := by
  refine ⟨hs.xw, hs.yw, hs.wpos, hs.hpos, hs.dims, ?_, ?_, ?_, ?_, ?_⟩
  · exact mapKeys_mapDelete_nodup _ _ hs.objKeys
  · exact mapKeys_mapDelete_nodup _ _ hs.posKeys
  · intro id'
    simp only [mapGet_mapDelete]
    by_cases hid : id = id'
    · simp [hid]
    · simpa [hid] using hs.objPos id'
  · intro id' o' ho'
    simp only [mapGet_mapDelete] at ho'
    by_cases hid : id = id'
    · simp [hid] at ho'
    · simp only [hid, if_false] at ho'
      exact hs.keyed id' o' ho'
  · intro id' p' hp'
    simp only [mapGet_mapDelete] at hp'
    by_cases hid : id = id'
    · simp [hid] at hp'
    · simp only [hid, if_false] at hp'
      exact hs.atPos id' p' hp'

theorem located_cleanupLoop {w h : Int} (es : List (String × Obj)) {s s' : UUIDPosMan}
    (hs : Located w h s) (hrun : UUIDPosMan.cleanupLoop es s = some s') : Located w h s' := by
  induction es generalizing s with
  | nil =>
    simp only [UUIDPosMan.cleanupLoop, Option.some.injEq] at hrun
    rw [← hrun]
    exact hs
  | cons e es ih =>
    simp only [UUIDPosMan.cleanupLoop, cleanupStep_eq, Option.some_bind] at hrun
    exact ih (located_cleanupStep hs e.1) hrun

theorem reachableAll_located {w h : Int} {s : UUIDPosMan} (hr : ReachableAll w h s) :
    Located w h s := by
  induction hr with
  | init hw hh => exact located_New hw hh
  | step c _ hcall ih => exact located_call ih c hcall
  | cleanup _ hrun ih => exact located_cleanupLoop _ ih hrun

theorem Reachable.toAll {w h : Int} {s : UUIDPosMan} (hr : Reachable w h s) :
    ReachableAll w h s := by
  induction hr with
  | init hw hh => exact ReachableAll.init hw hh
  | step c _ hcall ih => exact ReachableAll.step c ih hcall

theorem reachableAll_stateA : ReachableAll 10 10 stateA := reachable_stateA.toAll

theorem Located.call_returns {w h : Int} {s : UUIDPosMan} (hs : Located w h s) (c : Call) :
    ∃ s' e, s.call c = some (s', e) := by
  cases c with
  | addToXY o x y =>
    by_cases hreg : mapGet s.uuid2obj o.GetUUID = none
    · obtain ⟨b, -, hok⟩ := hs.addNolock_returns o x y hreg
      exact ⟨_, _, hok⟩
    · exact ⟨_, _, addNolock_conflict s o x y hreg⟩
  | del o =>
    by_cases hreg : mapGet s.uuid2obj o.GetUUID = none
    · exact ⟨_, _, delNolock_absent s o hreg⟩
    · obtain ⟨p, b, r, -, -, -, -, hok⟩ := hs.delNolock_returns o hreg
      exact ⟨_, _, hok⟩
  | updateToXY o x y =>
    by_cases hreg : mapGet s.uuid2pos o.GetUUID = none
    · exact ⟨_, _, UpdateToXY_absent s o x y hreg⟩
    · obtain ⟨p, b, r, b2, -, -, -, -, -, hok⟩ := hs.UpdateToXY_returns o x y hreg
      exact ⟨_, _, hok⟩
  | addOrUpdateToXY o x y =>
    simp only [UUIDPosMan.call]
    by_cases hreg : mapGet s.uuid2obj o.GetUUID = none
    · rw [AddOrUpdateToXY_absent s o x y hreg]
      obtain ⟨b, -, hok⟩ := hs.addNolock_returns o x y hreg
      exact ⟨_, _, hok⟩
    · obtain ⟨s1, -, hs1, habs1, heq⟩ := hs.AddOrUpdateToXY_registered o x y hreg
      rw [heq]
      obtain ⟨b, -, hok⟩ := hs1.addNolock_returns o x y habs1
      exact ⟨_, _, hok⟩

/-! ## C11: the result of `GetVPIXYObjByXYLenList` -/

theorem vpBucket_eq (i x y : Int) (n : Nat) (b : UUIDPosIList) (rtn : List VPIXYObj)
    (hl : rtn.length < n) :
    vpBucket i x y (n : Int) b rtn =
      if n ≤ rtn.length + (live b).length then
        ((rtn ++ (live b).map (fun o => VPIXYObj.mk i x y (some o))).take n, true)
      else (rtn ++ (live b).map (fun o => VPIXYObj.mk i x y (some o)), false) := by
  induction b generalizing rtn with
  | nil =>
    have : ¬ n ≤ rtn.length := by omega
    simp [vpBucket, live, this]
  | cons slot b ih =>
    cases slot with
    | none => simpa only [vpBucket, live] using ih rtn hl
    | some o =>
      simp only [vpBucket, live, List.map_cons, List.length_cons]
      by_cases hfull : rtn.length + 1 = n
      · have h1 : ((rtn ++ [VPIXYObj.mk i x y (some o)]).length : Int) ≥ (n : Int) := by
          simp only [List.length_append, List.length_singleton]
          omega
        have h2 : n ≤ rtn.length + ((live b).length + 1) := by omega
        rw [if_pos h1, if_pos h2]
        have h3 : rtn ++ VPIXYObj.mk i x y (some o) ::
            (live b).map (fun o => VPIXYObj.mk i x y (some o)) =
            (rtn ++ [VPIXYObj.mk i x y (some o)]) ++
              (live b).map (fun o => VPIXYObj.mk i x y (some o)) := by simp
        rw [h3, List.take_left' (by simp [hfull])]
      · have h1 : ¬ ((rtn ++ [VPIXYObj.mk i x y (some o)]).length : Int) ≥ (n : Int) := by
          simp only [List.length_append, List.length_singleton]
          omega
        rw [if_neg h1, ih (rtn ++ [VPIXYObj.mk i x y (some o)]) (by simp; omega)]
        simp only [List.length_append, List.length_singleton, List.append_assoc,
          List.singleton_append]
        have h4 : (n ≤ rtn.length + 1 + (live b).length) ↔
            (n ≤ rtn.length + ((live b).length + 1)) := by omega
        simp only [h4]

theorem vpLoop_eq {w h : Int} {s : UUIDPosMan} (hs : Located w h s) (sx sy : Int) (n : Nat)
    (i : Int) (vs : List XYLen) (rtn : List VPIXYObj) (hl : rtn.length < n) :
    s.vpLoop sx sy (n : Int) i vs rtn = some ((rtn ++ s.vpEnum sx sy i vs).take n) := by
  induction vs generalizing rtn i with
  | nil =>
    simp only [UUIDPosMan.vpLoop, UUIDPosMan.vpEnum, List.append_nil]
    rw [List.take_of_length_le (by omega)]
  | cons v vs ih =>
    obtain ⟨b, hb⟩ := hs.cell_bucket (goAdd sx v.X) (goAdd sy v.Y)
    simp only [UUIDPosMan.vpLoop, UUIDPosMan.vpEnum, hb, vpBucket_eq _ _ _ _ _ _ hl]
    by_cases hfull : n ≤ rtn.length + (live b).length
    · simp only [hfull, if_true]
      rw [← List.append_assoc]
      have hlen : n ≤ (rtn ++ (live b).map (fun o =>
          VPIXYObj.mk i (s.Wrap (goAdd sx v.X) (goAdd sy v.Y)).1
            (s.Wrap (goAdd sx v.X) (goAdd sy v.Y)).2 (some o))).length := by
        simp only [List.length_append, List.length_map]
        exact hfull
      exact congrArg some (List.take_append_of_le_length hlen).symm
    · simp only [hfull, if_false]
      rw [ih (i + 1) _ (by simp; omega), List.append_assoc]

theorem vpEnum_I_ge (s : UUIDPosMan) (sx sy : Int) (i : Int) (vs : List XYLen) :
    ∀ e ∈ s.vpEnum sx sy i vs, i ≤ e.I := by
  induction vs generalizing i with
  | nil => simp [UUIDPosMan.vpEnum]
  | cons v vs ih =>
    intro e he
    simp only [UUIDPosMan.vpEnum, List.mem_append] at he
    rcases he with he | he
    · split at he
      · simp only [List.mem_map] at he
        obtain ⟨o, -, rfl⟩ := he
        exact le_refl _
      · simp at he
    · have := ih (i + 1) e he
      omega

theorem vpEnum_sorted (s : UUIDPosMan) (sx sy : Int) (i : Int) (vs : List XYLen) :
    (s.vpEnum sx sy i vs).Pairwise (fun a b => a.I ≤ b.I) := by
  induction vs generalizing i with
  | nil => simp [UUIDPosMan.vpEnum]
  | cons v vs ih =>
    simp only [UUIDPosMan.vpEnum]
    rw [List.pairwise_append]
    have hcell : ∀ a ∈ (match bucketAt s.pos2objs (s.Wrap (goAdd sx v.X) (goAdd sy v.Y)).1
        (s.Wrap (goAdd sx v.X) (goAdd sy v.Y)).2 with
      | some b => (live b).map (fun o =>
          VPIXYObj.mk i (s.Wrap (goAdd sx v.X) (goAdd sy v.Y)).1
            (s.Wrap (goAdd sx v.X) (goAdd sy v.Y)).2 (some o))
      | none => []), a.I = i := by
      intro a ha
      split at ha
      · simp only [List.mem_map] at ha
        obtain ⟨o, -, rfl⟩ := ha
        rfl
      · simp at ha
    refine ⟨?_, ih (i + 1), ?_⟩
    · apply List.pairwise_of_forall_mem_list
      intro a ha b hb
      rw [hcell a ha, hcell b hb]
    · intro a ha b hb
      have := vpEnum_I_ge s sx sy (i + 1) vs b hb
      rw [hcell a ha]
      omega

theorem vpEnum_O_live (s : UUIDPosMan) (sx sy : Int) (i : Int) (vs : List XYLen) :
    ∀ e ∈ s.vpEnum sx sy i vs, e.O ≠ none := by
  induction vs generalizing i with
  | nil => simp [UUIDPosMan.vpEnum]
  | cons v vs ih =>
    intro e he
    simp only [UUIDPosMan.vpEnum, List.mem_append] at he
    rcases he with he | he
    · split at he
      · simp only [List.mem_map] at he
        obtain ⟨o, -, rfl⟩ := he
        simp
      · simp at he
    · exact ih (i + 1) e he

/-- C11. In a state reachable by the public mutators, for every offset list,
origin and limit `L ≥ 1`, `GetVPIXYObjByXYLenList(offsets, sx, sy, L)` returns
the first `min(L, len(E))` elements of the enumeration `E` (offset index
ascending, bucket slot ascending, every live entry tagged with its offset index
and wrapped coordinates); the `I` fields of the result are in non-decreasing
order and no element holds a nil object. -/
theorem bounded_collect_is_take {w h : Int} {s : UUIDPosMan} (hr : ReachableAll w h s)
    (xylenlist : List XYLen) (sx sy l : Int) (hl : 1 ≤ l) :
    s.GetVPIXYObjByXYLenList xylenlist sx sy l =
      some ((s.vpEnum sx sy 0 xylenlist).take l.toNat) ∧
    ((s.vpEnum sx sy 0 xylenlist).take l.toNat).length =
      min l.toNat (s.vpEnum sx sy 0 xylenlist).length ∧
    ((s.vpEnum sx sy 0 xylenlist).take l.toNat).Pairwise (fun a b => a.I ≤ b.I) ∧
    ∀ e ∈ (s.vpEnum sx sy 0 xylenlist).take l.toNat, e.O ≠ none := by
  have hs := reachableAll_located hr
  refine ⟨?_, List.length_take _ _, ?_, ?_⟩
  · have hcast : l = ((l.toNat : Nat) : Int) := (Int.toNat_of_nonneg (by omega)).symm
    have hpos : ([] : List VPIXYObj).length < l.toNat := by
      simp only [List.length_nil]
      omega
    have := vpLoop_eq hs sx sy l.toNat 0 xylenlist [] hpos
    rw [← hcast] at this
    simpa [UUIDPosMan.GetVPIXYObjByXYLenList] using this
  · exact List.Pairwise.sublist (List.take_sublist _ _) (vpEnum_sorted s sx sy 0 xylenlist)
  · intro e he
    exact vpEnum_O_live s sx sy 0 xylenlist e (List.mem_of_mem_take he)

/-- The witness of C11: collecting at most one element around `(2, 9)` on the
index that holds `objA` there, with two offsets that lead to that cell. -/
theorem bounded_collect_is_take_witness :
    ReachableAll 10 10 stateA ∧
    stateA.vpEnum 2 9 0 [XYLen.mk 0 0 0, XYLen.mk 10 (-10) 1] =
      [VPIXYObj.mk 0 2 9 (some objA), VPIXYObj.mk 1 2 9 (some objA)] ∧
    stateA.GetVPIXYObjByXYLenList [XYLen.mk 0 0 0, XYLen.mk 10 (-10) 1] 2 9 1 =
      some ((stateA.vpEnum 2 9 0 [XYLen.mk 0 0 0, XYLen.mk 10 (-10) 1]).take (1 : Int).toNat) :=
  ⟨reachableAll_stateA, by decide,
    (bounded_collect_is_take reachableAll_stateA [XYLen.mk 0 0 0, XYLen.mk 10 (-10) 1]
      2 9 1 (by decide)).1⟩

/-! ## C12: `IterByXYLenList` -/

theorem iterBucket_cases {σ : Type}
    (stopFn : σ → Obj → Int → Int → Int → XYLen → Bool × σ) (x y i : Int) (v : XYLen)
    (b : UUIDPosIList) (st : σ) :
    ((iterBucket stopFn x y i v b st).1 = true ∧
      ∀ rest, callUntilTrue stopFn ((live b).map (fun o => (o, x, y, i, v)) ++ rest) st =
        (iterBucket stopFn x y i v b st).2) ∨
    ((iterBucket stopFn x y i v b st).1 = false ∧
      ∀ rest, callUntilTrue stopFn ((live b).map (fun o => (o, x, y, i, v)) ++ rest) st =
        callUntilTrue stopFn rest (iterBucket stopFn x y i v b st).2) := by
  induction b generalizing st with
  | nil => exact Or.inr ⟨rfl, fun _ => rfl⟩
  | cons slot b ih =>
    cases slot with
    | none => simpa only [iterBucket, live] using ih st
    | some o =>
      cases hstop : (stopFn st o x y i v).1 with
      | true =>
        refine Or.inl ⟨by simp [iterBucket, hstop], fun rest => ?_⟩
        simp [iterBucket, live, callUntilTrue, hstop]
      | false =>
        have := ih (stopFn st o x y i v).2
        simpa [iterBucket, live, callUntilTrue, hstop] using this

theorem iterLoop_eq {σ : Type} {w h : Int} {s : UUIDPosMan} (hs : Located w h s)
    (sx sy : Int) (stopFn : σ → Obj → Int → Int → Int → XYLen → Bool × σ) (i : Int)
    (vs : List XYLen) (st : σ) :
    s.iterLoop sx sy stopFn i vs st =
      some (callUntilTrue stopFn (s.iterCandidates sx sy i vs) st) := by
  induction vs generalizing i st with
  | nil => rfl
  | cons v vs ih =>
    obtain ⟨b, hb⟩ := hs.cell_bucket (goAdd sx v.X) (goAdd sy v.Y)
    simp only [UUIDPosMan.iterLoop, UUIDPosMan.iterCandidates, hb]
    rcases iterBucket_cases stopFn (s.Wrap (goAdd sx v.X) (goAdd sy v.Y)).1
      (s.Wrap (goAdd sx v.X) (goAdd sy v.Y)).2 i v b st with ⟨hflag, hrun⟩ | ⟨hflag, hrun⟩
    · rw [hrun]
      cases hres : iterBucket stopFn (s.Wrap (goAdd sx v.X) (goAdd sy v.Y)).1
        (s.Wrap (goAdd sx v.X) (goAdd sy v.Y)).2 i v b st with
      | mk flag st' =>
        rw [hres] at hflag
        simp only at hflag
        subst hflag
        rfl
    · rw [hrun]
      cases hres : iterBucket stopFn (s.Wrap (goAdd sx v.X) (goAdd sy v.Y)).1
        (s.Wrap (goAdd sx v.X) (goAdd sy v.Y)).2 i v b st with
      | mk flag st' =>
        rw [hres] at hflag
        simp only at hflag
        subst hflag
        exact ih (i + 1) st'

theorem callUntilTrue_loggedStop (p : Obj → Int → Int → Int → XYLen → Bool)
    (cs log : List (Obj × Int × Int × Int × XYLen)) :
    callUntilTrue (loggedStop p) cs log =
      log ++ takeThrough (fun c => p c.1 c.2.1 c.2.2.1 c.2.2.2.1 c.2.2.2.2) cs := by
  induction cs generalizing log with
  | nil => simp [callUntilTrue, takeThrough]
  | cons c cs ih =>
    cases hc : p c.1 c.2.1 c.2.2.1 c.2.2.2.1 c.2.2.2.2 with
    | true => simp [callUntilTrue, takeThrough, loggedStop, hc]
    | false => simp [callUntilTrue, takeThrough, loggedStop, hc, ih]

/-- C12. In a state reachable by the public mutators, `IterByXYLenList` returns
normally and its effect on the caller is that of calling `stopFn` on the
enumeration `(o, x, y, i, offsets[i])` of the live entries (offset index
ascending, bucket slot ascending, `(x, y)` the wrapped cell of the offset), in
order, until the first call that returns true; for a side-effect-free stop
predicate the recorded calls are the shortest initial segment of the enumeration
that ends with the first entry on which it is true (the whole enumeration when
there is none); the parameter `l` has no effect.  (The embedding of the method
returns no new index state: the body assigns to no field.) -/
theorem iterate_until_stop {w h : Int} {s : UUIDPosMan} (hr : ReachableAll w h s)
    (xylenlist : List XYLen) (sx sy l : Int) :
    (∀ (σ : Type) (stopFn : σ → Obj → Int → Int → Int → XYLen → Bool × σ) (st : σ),
      s.IterByXYLenList xylenlist sx sy l stopFn st =
        some (callUntilTrue stopFn (s.iterCandidates sx sy 0 xylenlist) st)) ∧
    (∀ p : Obj → Int → Int → Int → XYLen → Bool,
      s.IterByXYLenList xylenlist sx sy l (loggedStop p) [] =
        some (takeThrough (fun c => p c.1 c.2.1 c.2.2.1 c.2.2.2.1 c.2.2.2.2)
          (s.iterCandidates sx sy 0 xylenlist))) ∧
    (∀ (l' : Int) (σ : Type) (stopFn : σ → Obj → Int → Int → Int → XYLen → Bool × σ) (st : σ),
      s.IterByXYLenList xylenlist sx sy l' stopFn st =
        s.IterByXYLenList xylenlist sx sy l stopFn st) := by
  have hs := reachableAll_located hr
  refine ⟨fun σ stopFn st => iterLoop_eq hs sx sy stopFn 0 xylenlist st, fun p => ?_,
    fun _ _ _ _ => rfl⟩
  have := iterLoop_eq hs sx sy (loggedStop p) 0 xylenlist []
  rw [callUntilTrue_loggedStop, List.nil_append] at this
  exact this

/-- The witness of C12: iterating around `(2, 9)` on the index that holds
`objA` there, over two offsets that lead to that cell; a predicate that is
always true is called once, a predicate that is always false twice. -/
theorem iterate_until_stop_witness :
    ReachableAll 10 10 stateA ∧
    stateA.IterByXYLenList [XYLen.mk 0 0 0, XYLen.mk 10 (-10) 1] 2 9 5
        (loggedStop (fun _ _ _ _ _ => true)) [] =
      some [(objA, 2, 9, 0, XYLen.mk 0 0 0)] ∧
    stateA.IterByXYLenList [XYLen.mk 0 0 0, XYLen.mk 10 (-10) 1] 2 9 5
        (loggedStop (fun _ _ _ _ _ => false)) [] =
      some [(objA, 2, 9, 0, XYLen.mk 0 0 0), (objA, 2, 9, 1, XYLen.mk 10 (-10) 1)] :=
  ⟨reachableAll_stateA, by
    rw [(iterate_until_stop reachableAll_stateA [XYLen.mk 0 0 0, XYLen.mk 10 (-10) 1]
      2 9 5).2.1 (fun _ _ _ _ _ => true)]
    decide, by
    rw [(iterate_until_stop reachableAll_stateA [XYLen.mk 0 0 0, XYLen.mk 10 (-10) 1]
      2 9 5).2.1 (fun _ _ _ _ _ => false)]
    decide⟩

/-! ## C13: the torus wrap -/

theorem wrapFn_dvd (n i : Int) : n ∣ i - wrapFn n i := by
  refine ⟨i / n, ?_⟩
  have := Int.emod_add_ediv i n
  unfold wrapFn
  omega

theorem wrapFn_unique {n : Int} (i r : Int) (h0 : 0 ≤ r) (h1 : r < n)
    (hd : n ∣ i - r) : r = wrapFn n i := by
  unfold wrapFn
  have h2 : r % n = i % n := by
    rw [Int.emod_eq_emod_iff_emod_sub_eq_zero]
    have : n ∣ r - i := by
      have := Int.dvd_neg.2 hd
      simpa using this
    exact Int.emod_eq_zero_of_dvd this
  rw [← h2, Int.emod_eq_of_lt h0 h1]

/-- C13. For an index built by `New(w, h)` with `w, h > 0` (in any state
reachable by the public mutators) and all integers `x, y`, `Wrap(x, y)` is the
pair of the unique value in `[0, w)` congruent to `x` modulo `w` and the unique
value in `[0, h)` congruent to `y` modulo `h`; hence `Wrap(x + w, y) =
Wrap(x, y)`, `Wrap(x, y + h) = Wrap(x, y)` and `Wrap(-1, -1) = (w - 1, h - 1)`. -/
theorem torus_wrap {w h : Int} {s : UUIDPosMan} (hr : ReachableAll w h s) (x y : Int) :
    (0 ≤ (s.Wrap x y).1 ∧ (s.Wrap x y).1 < w ∧ w ∣ x - (s.Wrap x y).1) ∧
    (0 ≤ (s.Wrap x y).2 ∧ (s.Wrap x y).2 < h ∧ h ∣ y - (s.Wrap x y).2) ∧
    (∀ r, 0 ≤ r → r < w → w ∣ x - r → r = (s.Wrap x y).1) ∧
    (∀ r, 0 ≤ r → r < h → h ∣ y - r → r = (s.Wrap x y).2) ∧
    s.Wrap (x + w) y = s.Wrap x y ∧ s.Wrap x (y + h) = s.Wrap x y ∧
    s.Wrap (-1) (-1) = (w - 1, h - 1) := by
  have hs := reachableAll_located hr
  have hw := hs.wpos
  have hh := hs.hpos
  simp only [UUIDPosMan.Wrap, UUIDPosMan.XWrap, UUIDPosMan.YWrap, hs.xw, hs.yw]
  refine ⟨⟨(wrapFn_range hw x).1, (wrapFn_range hw x).2, wrapFn_dvd w x⟩,
    ⟨(wrapFn_range hh y).1, (wrapFn_range hh y).2, wrapFn_dvd h y⟩,
    fun r h0 h1 hd => wrapFn_unique x r h0 h1 hd,
    fun r h0 h1 hd => wrapFn_unique y r h0 h1 hd, ?_, ?_, ?_⟩
  · simp [wrapFn]
  · simp [wrapFn]
  · have h1 : w - 1 = wrapFn w (-1) :=
      wrapFn_unique (-1) (w - 1) (by omega) (by omega) ⟨-1, by ring⟩
    have h2 : h - 1 = wrapFn h (-1) :=
      wrapFn_unique (-1) (h - 1) (by omega) (by omega) ⟨-1, by ring⟩
    rw [← h1, ← h2]

/-- The witness of C13: on size 10 by 10, `-1` wraps to `9` and `12` to `2`. -/
theorem torus_wrap_witness :
    ReachableAll 10 10 (New 10 10) ∧ (New 10 10).Wrap (-1) (-1) = (9, 9) ∧
    (New 10 10).Wrap 12 (-1) = (2, 9) ∧
    (New 10 10).Wrap (12 + 10) (-1) = (New 10 10).Wrap 12 (-1) :=
  ⟨ReachableAll.init (by decide) (by decide),
    (torus_wrap (ReachableAll.init (by decide) (by decide)) 0 0).2.2.2.2.2.2,
    by decide,
    (torus_wrap (ReachableAll.init (by decide) (by decide)) 12 (-1)).2.2.2.2.1⟩

/-! ## C14: `GetByXYAndUUID` -/

/-- C14. In a state reachable by the public mutators, `GetByXYAndUUID(id, x, y)`
returns `(nil, error)` iff `id` is not registered; when `id` is registered with
object `o` and recorded position `p`, it returns `(o, nil)` iff
`(XWrap(x), YWrap(y)) = p`, and otherwise `o` with the position-mismatch error.
(The embedding of the method returns no new index state: the body assigns to no
field.) -/
theorem lookup_by_identity_and_position {w h : Int} {s : UUIDPosMan}
    (hr : ReachableAll w h s) (id : String) (x y : Int) :
    (((s.GetByXYAndUUID id x y).1 = none ∧ (s.GetByXYAndUUID id x y).2 ≠ none) ↔
      s.GetByUUID id = none) ∧
    (s.GetByUUID id ≠ none →
      ∃ (o : Obj) (p : Int × Int), s.GetByUUID id = some o ∧
        s.GetXYByUUID id = (p.1, p.2, true) ∧
        (s.GetByXYAndUUID id x y = (some o, none) ↔ (s.XWrap x, s.YWrap y) = p) ∧
        ((s.XWrap x, s.YWrap y) ≠ p →
          s.GetByXYAndUUID id x y = (some o, some Err.posNotMatch))) := by
  have hs := reachableAll_located hr
  cases hobj : mapGet s.uuid2obj id with
  | none => simp [UUIDPosMan.GetByXYAndUUID, UUIDPosMan.GetByUUID, hobj]
  | some o =>
    have hreg : mapGet s.uuid2pos id ≠ none := (hs.objPos id).1 (by rw [hobj]; simp)
    cases hpos : mapGet s.uuid2pos id with
    | none => exact absurd hpos hreg
    | some p =>
      refine ⟨?_, fun _ => ⟨o, p, ?_, ?_, ?_, ?_⟩⟩
      · simp only [UUIDPosMan.GetByXYAndUUID, UUIDPosMan.GetByUUID, hobj, hpos]
        split <;> simp
      · simp [UUIDPosMan.GetByUUID, hobj]
      · simp [UUIDPosMan.GetXYByUUID, hpos]
      · simp only [UUIDPosMan.GetByXYAndUUID, hobj, hpos, UUIDPosMan.Wrap]
        by_cases hx : s.XWrap x = p.1
        · by_cases hy : s.YWrap y = p.2
          · simp [hx, hy, Prod.ext_iff]
          · simp [hx, hy, Prod.ext_iff]
        · simp [hx, Prod.ext_iff]
      · intro hne
        simp only [UUIDPosMan.GetByXYAndUUID, hobj, hpos, UUIDPosMan.Wrap]
        have : s.XWrap x ≠ p.1 ∨ s.YWrap y ≠ p.2 := by
          by_contra hcon
          simp only [not_or, not_not] at hcon
          exact hne (Prod.ext hcon.1 hcon.2)
        simp [this]

/-- The witness of C14: looking up `"a"`, held at `(2, 9)`, at a position that
wraps to `(2, 9)`, at another position, and looking up an unregistered
identity. -/
theorem lookup_by_identity_and_position_witness :
    ReachableAll 10 10 stateA ∧
    stateA.GetByXYAndUUID "a" 12 (-1) = (some objA, none) ∧
    stateA.GetByXYAndUUID "a" 5 5 = (some objA, some Err.posNotMatch) ∧
    stateA.GetByXYAndUUID "b" 2 9 = (none, some Err.getObjNotExist) ∧
    ((((stateA.GetByXYAndUUID "b" 2 9).1 = none ∧ (stateA.GetByXYAndUUID "b" 2 9).2 ≠ none) ↔
      stateA.GetByUUID "b" = none)) :=
  ⟨reachableAll_stateA, by decide, by decide, by decide,
    (lookup_by_identity_and_position reachableAll_stateA "b" 2 9).1⟩

/-! ## C15: `GetAllList` and `Count` -/

theorem mem_iff_mapGet {β : Type} (m : List (String × β)) (hm : (mapKeys m).Nodup)
    (k : String) (v : β) : (k, v) ∈ m ↔ mapGet m k = some v := by
  induction m with
  | nil => simp [mapGet]
  | cons e m ih =>
    obtain ⟨a, u⟩ := e
    have hm' : a ∉ mapKeys m ∧ (mapKeys m).Nodup := by
      simpa [mapKeys] using hm
    by_cases h : a = k
    · subst h
      have hnot : ∀ v', (a, v') ∉ m := by
        intro v' hmem
        exact hm'.1 (List.mem_map.2 ⟨(a, v'), hmem, rfl⟩)
      simp only [List.mem_cons, Prod.mk.injEq, true_and, mapGet, if_true, Option.some.injEq]
      constructor
      · rintro (h1 | h1)
        · exact h1.symm
        · exact absurd h1 (hnot v)
      · intro h1
        exact Or.inl h1.symm
    · have hk : ¬ k = a := fun e => h e.symm
      simp only [List.mem_cons, Prod.mk.injEq, hk, false_and, false_or, mapGet, h, if_false]
      exact ih hm'.2

theorem Located.keyed_mem {w h : Int} {s : UUIDPosMan} (hs : Located w h s) :
    ∀ e ∈ s.uuid2obj, e.2.GetUUID = e.1 := by
  intro e he
  exact hs.keyed e.1 e.2 ((mem_iff_mapGet s.uuid2obj hs.objKeys e.1 e.2).1 he)

theorem Located.getAllList_ids {w h : Int} {s : UUIDPosMan} (hs : Located w h s) :
    s.GetAllList.map Obj.GetUUID = mapKeys s.uuid2obj := by
  simp only [UUIDPosMan.GetAllList, mapKeys, List.map_map]
  apply List.map_congr_left
  intro e he
  exact hs.keyed_mem e he

/-- C15. In a state reachable by the public mutators, `GetAllList()` holds,
exactly once each, the object registered for every registered identity and
nothing else: its identities are the keys of `uuid2obj`, which are distinct, an
object is in the list iff it is the object registered for its identity, and the
length of the list is `Count()`, the number of registered identities.  (The
list is a new slice built by the method; in the embedding it is a value, which
no later call changes.) -/
theorem snapshot_and_count {w h : Int} {s : UUIDPosMan} (hr : ReachableAll w h s) :
    s.GetAllList.map Obj.GetUUID = mapKeys s.uuid2obj ∧
    (s.GetAllList.map Obj.GetUUID).Nodup ∧
    s.GetAllList.Nodup ∧
    (∀ o, o ∈ s.GetAllList ↔ s.GetByUUID o.GetUUID = some o) ∧
    (∀ id o, s.GetByUUID id = some o → o ∈ s.GetAllList ∧ o.GetUUID = id) ∧
    (∀ id, id ∈ mapKeys s.uuid2obj ↔ s.GetByUUID id ≠ none) ∧
    s.GetAllList.length = s.Count ∧
    s.Count = (mapKeys s.uuid2obj).length := by
  have hs := reachableAll_located hr
  have hids := hs.getAllList_ids
  have hnodup : (s.GetAllList.map Obj.GetUUID).Nodup := by
    rw [hids]
    exact hs.objKeys
  have hmem : ∀ o, o ∈ s.GetAllList ↔ s.GetByUUID o.GetUUID = some o := by
    intro o
    simp only [UUIDPosMan.GetAllList, UUIDPosMan.GetByUUID, List.mem_map]
    constructor
    · rintro ⟨e, he, rfl⟩
      have hk := hs.keyed_mem e he
      rw [hk]
      exact (mem_iff_mapGet s.uuid2obj hs.objKeys e.1 e.2).1 he
    · intro hget
      exact ⟨(o.GetUUID, o), (mem_iff_mapGet s.uuid2obj hs.objKeys _ _).2 hget, rfl⟩
  refine ⟨hids, hnodup, List.Nodup.of_map _ hnodup, hmem, ?_, ?_, ?_, ?_⟩
  · intro id o hget
    have hk := hs.keyed id o hget
    refine ⟨(hmem o).2 ?_, hk⟩
    rw [hk]
    exact hget
  · intro id
    exact mem_mapKeys s.uuid2obj id
  · simp [UUIDPosMan.GetAllList, UUIDPosMan.Count]
  · simp [UUIDPosMan.Count, mapKeys]

/-- The witness of C15: the snapshot of the index that holds `objA`. -/
theorem snapshot_and_count_witness :
    ReachableAll 10 10 stateA ∧ stateA.GetAllList = [objA] ∧ stateA.Count = 1 ∧
    stateA.GetAllList.length = stateA.Count ∧
    (∀ o, o ∈ stateA.GetAllList ↔ stateA.GetByUUID o.GetUUID = some o) :=
  ⟨reachableAll_stateA, by decide, by decide,
    (snapshot_and_count reachableAll_stateA).2.2.2.2.2.2.1,
    (snapshot_and_count reachableAll_stateA).2.2.2.1⟩

/-! ## C16: lock discipline -/

/-- C16 (the code at the failing input). `Count` reads `uuid2obj` with no lock
held, and `GetAllList` reads `len(fo.uuid2obj)` before it takes the shared lock,
whatever the size of the map; the sibling readers `GetByUUID` and `GetXYByUUID`
read only between `RLock` and `RUnlock`. -/
theorem count_reads_without_lock :
    disciplined Held.nothing CountEvents = false ∧
    (∀ n, disciplined Held.nothing (GetAllListEvents n) = false) ∧
    disciplined Held.nothing GetByUUIDEvents = true ∧
    disciplined Held.nothing GetXYByUUIDEvents = true := by
  refine ⟨by decide, fun n => ?_, by decide, by decide⟩
  simp [GetAllListEvents, disciplined]

/-! ## C17: the error of `delObjAt` is unreachable -/

theorem reachableAll_stateC : ReachableAll 10 10 stateC :=
  ReachableAll.step (Call.addToXY objA 5 5)
    (ReachableAll.cleanup reachableAll_stateA
      (by decide : stateA.Cleanup = some { stateA with uuid2obj := [], uuid2pos := [] }))
    (by decide : UUIDPosMan.call { stateA with uuid2obj := [], uuid2pos := [] }
      (Call.addToXY objA 5 5) = some (stateC, none))

/-- C17. In every state reachable from `New(w, h)` by `AddToXY`,
`AddOrUpdateToXY`, `Del`, `UpdateToXY` and `Cleanup`, the scan `delObjAt` at the
recorded cell of a registered identity finds it; hence `Del(o)` and
`UpdateToXY(o, nx, ny)` return normally, never with the error of `delObjAt`,
with an error iff the identity of `o` is not registered, and in that case with
the state unchanged; and `AddOrUpdateToXY` returns no error. -/
theorem internal_inconsistency_unreachable {w h : Int} {s : UUIDPosMan}
    (hr : ReachableAll w h s) (o : Obj) :
    (∀ p : Int × Int, s.GetXYByUUID o.GetUUID = (p.1, p.2, true) →
      ∃ s1, s.delObjAt o p.1 p.2 = some (s1, none)) ∧
    (∃ s' e, s.Del o = some (s', e) ∧ e ≠ some Err.objNotAt ∧
      (e ≠ none ↔ s.GetByUUID o.GetUUID = none) ∧ (e ≠ none → s' = s)) ∧
    (∀ nx ny, ∃ s' e, s.UpdateToXY o nx ny = some (s', e) ∧ e ≠ some Err.objNotAt ∧
      (e ≠ none ↔ s.GetByUUID o.GetUUID = none) ∧ (e ≠ none → s' = s)) ∧
    (∀ x y, ∃ s', s.AddOrUpdateToXY o x y = some (s', none)) := by
  have hs := reachableAll_located hr
  refine ⟨?_, ?_, ?_, ?_⟩
  · intro p hp
    have hp' := mapGet_of_GetXYByUUID hp
    have hreg : mapGet s.uuid2obj o.GetUUID ≠ none := by
      rw [hs.objPos, hp']
      simp
    obtain ⟨p1, b, r, hp1, -, -, hdel, -⟩ := hs.delNolock_returns o hreg
    rw [hp'] at hp1
    cases hp1
    exact ⟨_, hdel⟩
  · by_cases hreg : mapGet s.uuid2obj o.GetUUID = none
    · refine ⟨s, some Err.delObjNotExist, delNolock_absent s o hreg, by decide, ?_, fun _ => rfl⟩
      simp [UUIDPosMan.GetByUUID, hreg]
    · obtain ⟨p, b, r, -, -, -, -, hok⟩ := hs.delNolock_returns o hreg
      refine ⟨_, none, hok, by decide, ?_, fun hne => absurd rfl hne⟩
      simp [UUIDPosMan.GetByUUID, hreg]
  · intro nx ny
    by_cases hreg : mapGet s.uuid2pos o.GetUUID = none
    · have hobj : mapGet s.uuid2obj o.GetUUID = none := by
        have := (hs.objPos o.GetUUID).not
        simp only [ne_eq, not_not] at this
        exact this.2 hreg
      refine ⟨s, some Err.updObjNotFound, UpdateToXY_absent s o nx ny hreg, by decide, ?_,
        fun _ => rfl⟩
      simp [UUIDPosMan.GetByUUID, hobj]
    · obtain ⟨p, b, r, b2, -, -, -, -, -, hok⟩ := hs.UpdateToXY_returns o nx ny hreg
      have hobj : mapGet s.uuid2obj o.GetUUID ≠ none := (hs.objPos _).2 hreg
      refine ⟨_, none, hok, by decide, ?_, fun hne => absurd rfl hne⟩
      simp [UUIDPosMan.GetByUUID, hobj]
  · intro x y
    by_cases hreg : mapGet s.uuid2obj o.GetUUID = none
    · rw [AddOrUpdateToXY_absent s o x y hreg]
      obtain ⟨b, -, hok⟩ := hs.addNolock_returns o x y hreg
      exact ⟨_, hok⟩
    · obtain ⟨s1, -, hs1, habs1, heq⟩ := hs.AddOrUpdateToXY_registered o x y hreg
      rw [heq]
      obtain ⟨b, -, hok⟩ := hs1.addNolock_returns o x y habs1
      exact ⟨_, hok⟩

/-- The witness of C17: after `Cleanup` left an entry of `"a"` in cell `(2, 9)`
and `"a"` was added again at `(5, 5)`, `Del`, `UpdateToXY` and `AddOrUpdateToXY`
of `"a"` succeed, and `Del` of the unregistered `"b"` leaves the state as it
is. -/
theorem internal_inconsistency_unreachable_witness :
    ReachableAll 10 10 stateC ∧
    (stateC.Del objA).map Prod.snd = some none ∧
    (stateC.UpdateToXY objA 2 9).map Prod.snd = some none ∧
    stateC.Del objB = some (stateC, some Err.delObjNotExist) ∧
    (∀ x y, ∃ s', stateC.AddOrUpdateToXY objA x y = some (s', none)) :=
  ⟨reachableAll_stateC, by decide, by decide, by decide,
    (internal_inconsistency_unreachable reachableAll_stateC objA).2.2.2⟩

/-! ## C18: tombstone slots -/

theorem delFromBucket_set (id : String) (b r : UUIDPosIList)
    (h : delFromBucket id b = some r) :
    ∃ i v, b[i]? = some (some v) ∧ v.GetUUID = id ∧
      (∀ j, j < i → ∀ u, b[j]? = some (some u) → u.GetUUID ≠ id) ∧ r = b.set i none := by
  induction b generalizing r with
  | nil => simp [delFromBucket] at h
  | cons slot b ih =>
    cases slot with
    | none =>
      simp only [delFromBucket, Option.map_eq_some'] at h
      obtain ⟨r', hr', rfl⟩ := h
      obtain ⟨i, v, h1, h2, h3, h4⟩ := ih r' hr'
      refine ⟨i + 1, v, by simpa using h1, h2, ?_, by simp [h4]⟩
      intro j hj u hu
      cases j with
      | zero => simp at hu
      | succ j => exact h3 j (by omega) u (by simpa using hu)
    | some w =>
      by_cases hw : w.GetUUID = id
      · simp only [delFromBucket, hw, if_true, Option.some.injEq] at h
        subst h
        exact ⟨0, w, by simp, hw, fun j hj => absurd hj (by omega), by simp⟩
      · simp only [delFromBucket, hw, if_false, Option.map_eq_some'] at h
        obtain ⟨r', hr', rfl⟩ := h
        obtain ⟨i, v, h1, h2, h3, h4⟩ := ih r' hr'
        refine ⟨i + 1, v, by simpa using h1, h2, ?_, by simp [h4]⟩
        intro j hj u hu
        cases j with
        | zero =>
          simp only [List.getElem?_cons_zero, Option.some.injEq] at hu
          rw [← hu]
          exact hw
        | succ j => exact h3 j (by omega) u (by simpa using hu)

theorem addToBucket_set (o : Obj) (b : UUIDPosIList) (h : none ∈ b) :
    ∃ i, b[i]? = some none ∧ (∀ j, j < i → b[j]? ≠ some none) ∧
      addToBucket o b = b.set i (some o) := by
  induction b with
  | nil => simp at h
  | cons slot b ih =>
    cases slot with
    | none => exact ⟨0, by simp, fun j hj => absurd hj (by omega), by simp [addToBucket]⟩
    | some w =>
      have h' : none ∈ b := by simpa using h
      obtain ⟨i, h1, h2, h3⟩ := ih h'
      refine ⟨i + 1, by simpa using h1, ?_, by simp [addToBucket, h3]⟩
      intro j hj
      cases j with
      | zero => simp
      | succ j => simpa using h2 j (by omega)

theorem addToBucket_append (o : Obj) (b : UUIDPosIList) (h : none ∉ b) :
    addToBucket o b = b ++ [some o] := by
  induction b with
  | nil => rfl
  | cons slot b ih =>
    cases slot with
    | none => simp at h
    | some w =>
      have h' : none ∉ b := by simpa using h
      simp [addToBucket, ih h']

theorem mem_live_iff (v : Obj) (b : UUIDPosIList) : v ∈ live b ↔ some v ∈ b := by
  induction b with
  | nil => simp [live]
  | cons slot b ih =>
    cases slot with
    | none => simpa [live] using ih
    | some w => simp [live, ih]

theorem vpBucket_O (i x y l : Int) (b : UUIDPosIList) (rtn : List VPIXYObj)
    (hrtn : ∀ e ∈ rtn, e.O ≠ none) : ∀ e ∈ (vpBucket i x y l b rtn).1, e.O ≠ none := by
  induction b generalizing rtn with
  | nil => simpa only [vpBucket] using hrtn
  | cons slot b ih =>
    cases slot with
    | none => simpa only [vpBucket] using ih rtn hrtn
    | some o =>
      have hnext : ∀ e ∈ rtn ++ [VPIXYObj.mk i x y (some o)], e.O ≠ none := by
        intro e he
        simp only [List.mem_append, List.mem_singleton] at he
        rcases he with he | he
        · exact hrtn e he
        · rw [he]
          simp
      simp only [vpBucket]
      split
      · exact hnext
      · exact ih _ hnext

theorem vpLoop_O (s : UUIDPosMan) (sx sy l i : Int) (vs : List XYLen)
    (rtn res : List VPIXYObj) (hrtn : ∀ e ∈ rtn, e.O ≠ none)
    (hres : s.vpLoop sx sy l i vs rtn = some res) : ∀ e ∈ res, e.O ≠ none := by
  induction vs generalizing rtn i with
  | nil =>
    simp only [UUIDPosMan.vpLoop, Option.some.injEq] at hres
    subst hres
    exact hrtn
  | cons v vs ih =>
    simp only [UUIDPosMan.vpLoop] at hres
    split at hres
    · exact Option.noConfusion hres
    · rename_i b hb
      have hbk := vpBucket_O i (s.Wrap (goAdd sx v.X) (goAdd sy v.Y)).1
        (s.Wrap (goAdd sx v.X) (goAdd sy v.Y)).2 l b rtn hrtn
      split at hres
      · rename_i rtn' heq
        simp only [Option.some.injEq] at hres
        subst hres
        rw [heq] at hbk
        exact hbk
      · rename_i rtn' heq
        rw [heq] at hbk
        exact ih (i + 1) rtn' hbk hres

/-- C18. `delObjAt` sets the slot of the first live entry with the identity to
nil and changes neither the length of the bucket nor any other slot;
`addObj2Pos` writes the object into the lowest-indexed nil slot of a bucket
that has one, leaving the length and all other slots unchanged, and appends,
growing the bucket by one, only when there is no nil slot.  In a state reachable
by the public mutators `Get1stObjAt` returns the first live entry of the wrapped
cell (nil only when the cell has none), `GetObjListAt` returns the live entries
only, and no element returned by `GetVPIXYObjByXYLenList` holds a nil object
(`filterfn` and `stopFn` are called on live entries only by the type of the
embedding). -/
theorem tombstone_slot_reuse {w h : Int} {s : UUIDPosMan} (hr : ReachableAll w h s)
    (o : Obj) (x y : Int) :
    (∀ s', s.delObjAt o x y = some (s', none) →
      ∃ (b : UUIDPosIList) (i : Nat) (v : Obj), bucketAt s.pos2objs x y = some b ∧
        b[i]? = some (some v) ∧ v.GetUUID = o.GetUUID ∧
        (∀ j, j < i → ∀ u, b[j]? = some (some u) → u.GetUUID ≠ o.GetUUID) ∧
        bucketAt s'.pos2objs x y = some (b.set i none) ∧
        (b.set i none).length = b.length ∧ ∀ j, j ≠ i → (b.set i none)[j]? = b[j]?) ∧
    (∀ s', s.addObj2Pos o x y = some s' →
      ∃ b : UUIDPosIList, bucketAt s.pos2objs x y = some b ∧
        ((none ∈ b ∧ ∃ i : Nat, b[i]? = some none ∧ (∀ j, j < i → b[j]? ≠ some none) ∧
            bucketAt s'.pos2objs x y = some (b.set i (some o)) ∧
            (b.set i (some o)).length = b.length ∧
            ∀ j, j ≠ i → (b.set i (some o))[j]? = b[j]?) ∨
          (none ∉ b ∧ bucketAt s'.pos2objs x y = some (b ++ [some o]) ∧
            (b ++ [some o]).length = b.length + 1 ∧
            ∀ j, j < b.length → (b ++ [some o])[j]? = b[j]?))) ∧
    (∃ b, bucketAt s.pos2objs (s.XWrap x) (s.YWrap y) = some b ∧
      s.Get1stObjAt x y = some (live b).head? ∧ (∀ v, v ∈ live b ↔ some v ∈ b) ∧
      ((live b).head? = none ↔ live b = [])) ∧
    (∀ l, s.GetObjListAt x y = some l →
      ∃ b, bucketAt s.pos2objs (s.XWrap x) (s.YWrap y) = some b ∧ l = live b) ∧
    (∀ xylenlist sx sy lim res, s.GetVPIXYObjByXYLenList xylenlist sx sy lim = some res →
      ∀ e ∈ res, e.O ≠ none) := by
  have hs := reachableAll_located hr
  refine ⟨?_, ?_, ?_, ?_, ?_⟩
  · intro s' hdel
    unfold UUIDPosMan.delObjAt at hdel
    cases hb : bucketAt s.pos2objs x y with
    | none => simp [hb] at hdel
    | some b =>
      cases hrm : delFromBucket o.GetUUID b with
      | none => simp [hb, hrm] at hdel
      | some r =>
        simp only [hb, hrm, Option.some.injEq, Prod.mk.injEq, and_true] at hdel
        obtain ⟨i, v, h1, h2, h3, h4⟩ := delFromBucket_set _ b r hrm
        refine ⟨b, i, v, rfl, h1, h2, h3, ?_, by simp, ?_⟩
        · rw [← hdel, ← h4]
          show bucketAt (bucketPut s.pos2objs x y r) x y = some r
          rw [bucketAt_bucketPut hb]
          simp
        · intro j hj
          exact List.getElem?_set_ne (fun e => hj e.symm)
  · intro s' hadd
    unfold UUIDPosMan.addObj2Pos at hadd
    cases hb : bucketAt s.pos2objs x y with
    | none => simp [hb] at hadd
    | some b =>
      simp only [hb, Option.some.injEq] at hadd
      have hnew : bucketAt s'.pos2objs x y = some (addToBucket o b) := by
        rw [← hadd]
        show bucketAt (bucketPut s.pos2objs x y (addToBucket o b)) x y = some (addToBucket o b)
        rw [bucketAt_bucketPut hb]
        simp
      refine ⟨b, rfl, ?_⟩
      by_cases hnil : none ∈ b
      · obtain ⟨i, h1, h2, h3⟩ := addToBucket_set o b hnil
        refine Or.inl ⟨hnil, i, h1, h2, by rw [hnew, h3], by simp, ?_⟩
        intro j hj
        exact List.getElem?_set_ne (fun e => hj e.symm)
      · refine Or.inr ⟨hnil, by rw [hnew, addToBucket_append o b hnil], by simp, ?_⟩
        intro j hj
        exact List.getElem?_append_left hj
  · obtain ⟨b, hb⟩ := hs.cell_bucket x y
    refine ⟨b, hb, ?_, fun v => mem_live_iff v b, by simp⟩
    have hb' : bucketAt s.pos2objs (s.Wrap x y).1 (s.Wrap x y).2 = some b := hb
    simp only [UUIDPosMan.Get1stObjAt, hb', Option.map_some', firstLive_eq]
  · intro l hl
    obtain ⟨b, hb⟩ := hs.cell_bucket x y
    refine ⟨b, hb, ?_⟩
    unfold UUIDPosMan.GetObjListAt at hl
    have hb' : bucketAt s.pos2objs (s.Wrap x y).1 (s.Wrap x y).2 = some b := hb
    cases hraw : bucketAt s.pos2objs x y with
    | none => simp [hraw] at hl
    | some b0 =>
      simp only [hraw, hb', Option.map_some', collectLive_eq, List.nil_append,
        Option.some.injEq] at hl
      exact hl.symm
  · intro xylenlist sx sy lim res hres
    exact vpLoop_O s sx sy lim 0 xylenlist [] res (by simp) hres

/-- The witness of C18: on the index that holds `objA` in slot 0 of cell
`(2, 9)`, `delObjAt` leaves the bucket `[nil]`, and `addObj2Pos` of `objB` into
that cell appends, as the bucket has no nil slot. -/
theorem tombstone_slot_reuse_witness :
    ReachableAll 10 10 stateA ∧
    (stateA.delObjAt objA 2 9).map (fun r => (bucketAt r.1.pos2objs 2 9, r.2)) =
      some (some [none], none) ∧
    (stateA.addObj2Pos objB 2 9).map (fun r => bucketAt r.pos2objs 2 9) =
      some (some [some objA, some objB]) ∧
    (∃ b, bucketAt stateA.pos2objs (stateA.XWrap 12) (stateA.YWrap (-1)) = some b ∧
      stateA.Get1stObjAt 12 (-1) = some (live b).head? ∧ (∀ v, v ∈ live b ↔ some v ∈ b) ∧
      ((live b).head? = none ↔ live b = [])) :=
  ⟨reachableAll_stateA, by decide, by decide,
    (tombstone_slot_reuse reachableAll_stateA objA 12 (-1)).2.2.1⟩

/-! ## C19: the frame of the single-object mutators -/

theorem filter_live_addToBucket (o : Obj) (b : UUIDPosIList) (id : String)
    (h : o.GetUUID ≠ id) :
    (live (addToBucket o b)).filter (fun v => decide (v.GetUUID = id)) =
      (live b).filter (fun v => decide (v.GetUUID = id)) := by
  induction b with
  | nil => simp [addToBucket, live, h]
  | cons slot b ih =>
    cases slot with
    | none => simp [addToBucket, live, h]
    | some w => simp [addToBucket, live, List.filter_cons, ih]

theorem filter_live_delFromBucket (a id : String) (b r : UUIDPosIList)
    (hr : delFromBucket a b = some r) (h : a ≠ id) :
    (live r).filter (fun v => decide (v.GetUUID = id)) =
      (live b).filter (fun v => decide (v.GetUUID = id)) := by
  induction b generalizing r with
  | nil => simp [delFromBucket] at hr
  | cons slot b ih =>
    cases slot with
    | none =>
      simp only [delFromBucket, Option.map_eq_some'] at hr
      obtain ⟨r', hr', rfl⟩ := hr
      simpa [live] using ih r' hr'
    | some w =>
      by_cases hw : w.GetUUID = a
      · simp only [delFromBucket, hw, if_true, Option.some.injEq] at hr
        subst hr
        have : ¬ w.GetUUID = id := by rw [hw]; exact h
        simp [live, List.filter_cons, this]
      · simp only [delFromBucket, hw, if_false, Option.map_eq_some'] at hr
        obtain ⟨r', hr', rfl⟩ := hr
        simp [live, List.filter_cons, ih r' hr']

theorem cellLiveOf_put (id : String) (s s' : UUIDPosMan) {x y : Int} {b0 b1 : UUIDPosIList}
    (hgrid : s'.pos2objs = bucketPut s.pos2objs x y b1)
    (hb : bucketAt s.pos2objs x y = some b0)
    (hf : (live b1).filter (fun v => decide (v.GetUUID = id)) =
      (live b0).filter (fun v => decide (v.GetUUID = id))) :
    ∀ x' y', s'.cellLiveOf id x' y' = s.cellLiveOf id x' y' := by
  intro x' y'
  simp only [UUIDPosMan.cellLiveOf, UUIDPosMan.cellLive, hgrid, bucketAt_bucketPut hb]
  by_cases hc : x' = x ∧ y' = y
  · simp only [hc, and_self, if_true, hb]
    exact hf
  · simp only [hc, if_false]

theorem exists_live_iff (id : String) (l : List Obj) :
    (∃ v ∈ l, v.GetUUID = id) ↔ l.filter (fun v => decide (v.GetUUID = id)) ≠ [] := by
  simp [List.filter_eq_nil_iff]

theorem frame_addNolock {w h : Int} {s s' : UUIDPosMan} {e : Option Err}
    (hs : Located w h s) (o : Obj) (x y : Int) (id : String) (hid : o.GetUUID ≠ id)
    (hcall : s.addNolock o x y = some (s', e)) :
    s'.GetByUUID id = s.GetByUUID id ∧ s'.GetXYByUUID id = s.GetXYByUUID id ∧
      ∀ x' y', s'.cellLiveOf id x' y' = s.cellLiveOf id x' y' := by
  by_cases hreg : mapGet s.uuid2obj o.GetUUID = none
  · obtain ⟨b, hb, hok⟩ := hs.addNolock_returns o x y hreg
    rw [hok] at hcall
    simp only [Option.some.injEq, Prod.mk.injEq] at hcall
    rw [← hcall.1]
    refine ⟨?_, ?_, cellLiveOf_put id s _ rfl hb (filter_live_addToBucket o b id hid)⟩
    · simp [UUIDPosMan.GetByUUID, mapGet_mapSet, hid]
    · simp [UUIDPosMan.GetXYByUUID, mapGet_mapSet, hid]
  · rw [addNolock_conflict s o x y hreg] at hcall
    simp only [Option.some.injEq, Prod.mk.injEq] at hcall
    rw [← hcall.1]
    exact ⟨rfl, rfl, fun _ _ => rfl⟩

theorem frame_delNolock {w h : Int} {s s' : UUIDPosMan} {e : Option Err}
    (hs : Located w h s) (o : Obj) (id : String) (hid : o.GetUUID ≠ id)
    (hcall : s.delNolock o = some (s', e)) :
    s'.GetByUUID id = s.GetByUUID id ∧ s'.GetXYByUUID id = s.GetXYByUUID id ∧
      ∀ x' y', s'.cellLiveOf id x' y' = s.cellLiveOf id x' y' := by
  by_cases hreg : mapGet s.uuid2obj o.GetUUID = none
  · rw [delNolock_absent s o hreg] at hcall
    simp only [Option.some.injEq, Prod.mk.injEq] at hcall
    rw [← hcall.1]
    exact ⟨rfl, rfl, fun _ _ => rfl⟩
  · obtain ⟨p, b, r, -, hb, hr, -, hok⟩ := hs.delNolock_returns o hreg
    rw [hok] at hcall
    simp only [Option.some.injEq, Prod.mk.injEq] at hcall
    rw [← hcall.1]
    refine ⟨?_, ?_, cellLiveOf_put id s _ rfl hb (filter_live_delFromBucket _ id b r hr hid)⟩
    · simp [UUIDPosMan.GetByUUID, mapGet_mapDelete, hid]
    · simp [UUIDPosMan.GetXYByUUID, mapGet_mapDelete, hid]

theorem frame_UpdateToXY {w h : Int} {s s' : UUIDPosMan} {e : Option Err}
    (hs : Located w h s) (o : Obj) (x y : Int) (id : String) (hid : o.GetUUID ≠ id)
    (hcall : s.UpdateToXY o x y = some (s', e)) :
    s'.GetByUUID id = s.GetByUUID id ∧ s'.GetXYByUUID id = s.GetXYByUUID id ∧
      ∀ x' y', s'.cellLiveOf id x' y' = s.cellLiveOf id x' y' := by
  by_cases hreg : mapGet s.uuid2pos o.GetUUID = none
  · rw [UpdateToXY_absent s o x y hreg] at hcall
    simp only [Option.some.injEq, Prod.mk.injEq] at hcall
    rw [← hcall.1]
    exact ⟨rfl, rfl, fun _ _ => rfl⟩
  · obtain ⟨p, b, r, b2, -, hb, hr, -, hb2, hok⟩ := hs.UpdateToXY_returns o x y hreg
    rw [hok] at hcall
    simp only [Option.some.injEq, Prod.mk.injEq] at hcall
    rw [← hcall.1]
    have h1 := cellLiveOf_put id s { s with pos2objs := bucketPut s.pos2objs p.1 p.2 r } rfl hb
      (filter_live_delFromBucket _ id b r hr hid)
    have h2 := cellLiveOf_put id { s with pos2objs := bucketPut s.pos2objs p.1 p.2 r }
      { s with
          uuid2pos := mapSet s.uuid2pos o.GetUUID (s.Wrap x y)
          pos2objs := bucketPut (bucketPut s.pos2objs p.1 p.2 r)
            (s.Wrap x y).1 (s.Wrap x y).2 (addToBucket o b2) }
      rfl hb2 (filter_live_addToBucket o b2 id hid)
    refine ⟨rfl, ?_, fun x' y' => (h2 x' y').trans (h1 x' y')⟩
    simp [UUIDPosMan.GetXYByUUID, mapGet_mapSet, hid]

/-- C19. In a state reachable by the public mutators, a call of `AddToXY`,
`AddOrUpdateToXY`, `Del` or `UpdateToXY` on an object with identity `a` returns
normally, and for every identity `b ≠ a`, whether the call succeeds or fails,
`GetByUUID(b)` and `GetXYByUUID(b)` are unchanged and every cell has the same
live entries with identity `b` as before (so whether an entry with identity `b`
is among the live entries of a cell is unchanged). -/
theorem frame_single_identity {w h : Int} {s : UUIDPosMan} (hr : ReachableAll w h s)
    (c : Call) (b : String) (hb : c.obj.GetUUID ≠ b) :
    ∃ s' e, s.call c = some (s', e) ∧
      s'.GetByUUID b = s.GetByUUID b ∧ s'.GetXYByUUID b = s.GetXYByUUID b ∧
      (∀ x y, s'.cellLiveOf b x y = s.cellLiveOf b x y) ∧
      (∀ x y, (∃ v ∈ s'.cellLive x y, v.GetUUID = b) ↔
        (∃ v ∈ s.cellLive x y, v.GetUUID = b)) := by
  have hs := reachableAll_located hr
  obtain ⟨s', e, hcall⟩ := hs.call_returns c
  have hframe : s'.GetByUUID b = s.GetByUUID b ∧ s'.GetXYByUUID b = s.GetXYByUUID b ∧
      ∀ x y, s'.cellLiveOf b x y = s.cellLiveOf b x y := by
    cases c with
    | addToXY o x y => exact frame_addNolock hs o x y b hb hcall
    | del o => exact frame_delNolock hs o b hb hcall
    | updateToXY o x y => exact frame_UpdateToXY hs o x y b hb hcall
    | addOrUpdateToXY o x y =>
      simp only [UUIDPosMan.call] at hcall
      by_cases hreg : mapGet s.uuid2obj o.GetUUID = none
      · rw [AddOrUpdateToXY_absent s o x y hreg] at hcall
        exact frame_addNolock hs o x y b hb hcall
      · obtain ⟨s1, hdel, hs1, -, heq⟩ := hs.AddOrUpdateToXY_registered o x y hreg
        rw [heq] at hcall
        obtain ⟨h1, h2, h3⟩ := frame_delNolock hs o b hb hdel
        obtain ⟨h4, h5, h6⟩ := frame_addNolock hs1 o x y b hb hcall
        exact ⟨h4.trans h1, h5.trans h2, fun x' y' => (h6 x' y').trans (h3 x' y')⟩
  refine ⟨s', e, hcall, hframe.1, hframe.2.1, hframe.2.2, ?_⟩
  intro x y
  rw [exists_live_iff, exists_live_iff]
  have := hframe.2.2 x y
  simp only [UUIDPosMan.cellLiveOf] at this
  rw [this]

/-- The witness of C19: adding `"b"` into the cell of `"a"` on the index that
holds `"a"` at `(2, 9)` changes nothing about `"a"`. -/
theorem frame_single_identity_witness :
    ReachableAll 10 10 stateA ∧ (Call.addToXY objB 12 (-1)).obj.GetUUID ≠ "a" ∧
    ∃ s' e, stateA.call (Call.addToXY objB 12 (-1)) = some (s', e) ∧
      s'.GetByUUID "a" = stateA.GetByUUID "a" ∧
      s'.GetXYByUUID "a" = stateA.GetXYByUUID "a" ∧
      (∀ x y, s'.cellLiveOf "a" x y = stateA.cellLiveOf "a" x y) ∧
      (∀ x y, (∃ v ∈ s'.cellLive x y, v.GetUUID = "a") ↔
        (∃ v ∈ stateA.cellLive x y, v.GetUUID = "a")) :=
  ⟨reachableAll_stateA, by decide,
    frame_single_identity reachableAll_stateA (Call.addToXY objB 12 (-1)) "a" (by decide)⟩

/-! ## C20: the object held by the registry and by the grid -/

/-- C20 (the code at the failing input). On the 10 by 10 index that holds
`objA` under `"a"` at `(2, 9)`, `UpdateToXY(objA2, 5, 5)` with a second object
value of the same identity succeeds and leaves a reachable state in which the
bucket at `(5, 5)` holds `objA2` while `GetByUUID("a")` still returns `objA`:
`UpdateToXY` puts its argument into the grid and does not touch `uuid2obj`.
`AddOrUpdateToXY(objA2, 5, 5)` on the same index stores `objA2` in both. -/
theorem relocate_other_value_splits_handle :
    Reachable 10 10 stateA ∧ objA2.GetUUID = objA.GetUUID ∧ objA2 ≠ objA ∧
    stateA.UpdateToXY objA2 5 5 = some
      ({ stateA with
          uuid2pos := [("a", (5, 5))]
          pos2objs := bucketPut (bucketPut stateA.pos2objs 2 9 [none]) 5 5 [some objA2] },
        none) ∧
    Reachable 10 10
      { stateA with
          uuid2pos := [("a", (5, 5))]
          pos2objs := bucketPut (bucketPut stateA.pos2objs 2 9 [none]) 5 5 [some objA2] } ∧
    UUIDPosMan.Get1stObjAt
      { stateA with
          uuid2pos := [("a", (5, 5))]
          pos2objs := bucketPut (bucketPut stateA.pos2objs 2 9 [none]) 5 5 [some objA2] }
      5 5 = some (some objA2) ∧
    UUIDPosMan.GetByUUID
      { stateA with
          uuid2pos := [("a", (5, 5))]
          pos2objs := bucketPut (bucketPut stateA.pos2objs 2 9 [none]) 5 5 [some objA2] }
      objA2.GetUUID = some objA ∧
    (stateA.AddOrUpdateToXY objA2 5 5).map
        (fun r => (r.1.Get1stObjAt 5 5, r.1.GetByUUID "a", r.2)) =
      some (some (some objA2), some objA2, none) :=
  ⟨reachable_stateA, by decide, by decide, by decide,
    Reachable.step (Call.updateToXY objA2 5 5) reachable_stateA
      (by decide : stateA.call (Call.updateToXY objA2 5 5) = some
        ({ stateA with
            uuid2pos := [("a", (5, 5))]
            pos2objs := bucketPut (bucketPut stateA.pos2objs 2 9 [none]) 5 5 [some objA2] },
          none)),
    by decide, by decide, by decide⟩

/-! ## States with entries left by `Cleanup` -/

theorem reachableAll_stateCleaned : ReachableAll 10 10 stateCleaned :=
  ReachableAll.cleanup reachableAll_stateA (by decide : stateA.Cleanup = some stateCleaned)

theorem reachableAll_stateD : ReachableAll 10 10 stateD :=
  ReachableAll.step (Call.addToXY objA 2 9) reachableAll_stateCleaned
    (by decide : stateCleaned.call (Call.addToXY objA 2 9) = some (stateD, none))

theorem Located.GetObjListAt_cell {w h : Int} {s : UUIDPosMan} (hs : Located w h s)
    {x y : Int} {b : UUIDPosIList} (hb : bucketAt s.pos2objs x y = some b) :
    s.GetObjListAt x y = some (live b) := by
  obtain ⟨hx0, hx1, hy0, hy1⟩ := inRange_of_bucketAt hs.dims hb
  simp only [UUIDPosMan.GetObjListAt, hb, UUIDPosMan.Wrap, UUIDPosMan.XWrap, UUIDPosMan.YWrap,
    hs.xw, hs.yw, wrapFn_of_inRange hx0 hx1, wrapFn_of_inRange hy0 hy1, Option.map_some',
    collectLive_eq, List.nil_append]

theorem cellLiveOf_length (s : UUIDPosMan) (id : String) {x y : Int} {b : UUIDPosIList}
    (hb : bucketAt s.pos2objs x y = some b) : (s.cellLiveOf id x y).length = occ id b := by
  simp only [UUIDPosMan.cellLiveOf, UUIDPosMan.cellLive, hb, occ, List.countP_eq_length_filter]

/-! ## C3: `UpdateToXY` -/

/-- C3 as stated fails. On the 10 by 10 index that holds `objA` at cell
`(2, 9)`, the successful `UpdateToXY(objA, 12, -1)` has the new cell equal to the
old cell, and `GetObjListAt` at the old cell `(2, 9)` still contains `objA`.
And on the index reached by `AddToXY(objA, 12, -1)`, `Cleanup()`,
`AddToXY(objA, 2, 9)`, where the bucket of `(2, 9)` also holds the entry that
`Cleanup` left, the successful `UpdateToXY(objA, 5, 5)` to another cell leaves
`objA` in the old cell `(2, 9)`. -/
theorem relocate_same_cell_counterexample :
    (Reachable 10 10 stateA ∧ stateA.GetByUUID "a" = some objA ∧
      stateA.GetXYByUUID "a" = (2, 9, true) ∧
      ∃ s' l, stateA.UpdateToXY objA 12 (-1) = some (s', none) ∧
        s'.GetObjListAt 2 9 = some l ∧ objA ∈ l) ∧
    (ReachableAll 10 10 stateD ∧ stateD.GetByUUID "a" = some objA ∧
      stateD.GetXYByUUID "a" = (2, 9, true) ∧
      (stateD.UpdateToXY objA 5 5).map (fun r => (r.1.GetObjListAt 2 9, r.2)) =
        some (some [objA], none)) :=
  ⟨⟨reachable_stateA, by decide, by decide, stateA, [objA], by decide, by decide, by decide⟩,
    ⟨reachableAll_stateD, by decide, by decide, by decide⟩⟩

/-- C3, amended. In every state reachable by the public mutators (`Cleanup`
included), for an object `o` whose identity is registered with recorded cell
`p`, `UpdateToXY(o, nx, ny)` succeeds; afterwards `GetObjListAt` at the new cell
`(XWrap(nx), YWrap(ny))` contains `o`, `GetXYByUUID` returns the new cell and
`Count()` is unchanged.  When the new cell differs from `p` and the cell `p`
held exactly one live entry with the identity of `o`, which is so in every state
reached without `Cleanup`, `GetObjListAt` at the old cell `p` afterwards holds no
entry with the identity of `o`. -/
theorem relocate_postcondition {w h : Int} {s : UUIDPosMan} (hr : ReachableAll w h s)
    (o : Obj) (p : Int × Int) (nx ny : Int)
    (hp : s.GetXYByUUID o.GetUUID = (p.1, p.2, true)) :
    ∃ s' lold lnew, s.UpdateToXY o nx ny = some (s', none) ∧
      s'.GetObjListAt p.1 p.2 = some lold ∧
      (¬ (s.XWrap nx = p.1 ∧ s.YWrap ny = p.2) →
        (s.cellLiveOf o.GetUUID p.1 p.2).length = 1 →
        ∀ v ∈ lold, v.GetUUID ≠ o.GetUUID) ∧
      (Reachable w h s → (s.cellLiveOf o.GetUUID p.1 p.2).length = 1) ∧
      s'.GetObjListAt (s.XWrap nx) (s.YWrap ny) = some lnew ∧ o ∈ lnew ∧
      s'.GetXYByUUID o.GetUUID = (s.XWrap nx, s.YWrap ny, true) ∧
      s'.Count = s.Count := by
  have hs := reachableAll_located hr
  have hp' := mapGet_of_GetXYByUUID hp
  have hreg : mapGet s.uuid2pos o.GetUUID ≠ none := by rw [hp']; simp
  obtain ⟨p1, b, r, b2, hp1, hb, hr', -, hb2, hok⟩ := hs.UpdateToXY_returns o nx ny hreg
  rw [hp'] at hp1
  cases hp1
  have hs' := located_updated hs o (s.Wrap nx ny) hp' hb hr' hb2
  have hnew : bucketAt (bucketPut (bucketPut s.pos2objs p.1 p.2 r) (s.Wrap nx ny).1
      (s.Wrap nx ny).2 (addToBucket o b2)) (s.Wrap nx ny).1 (s.Wrap nx ny).2
      = some (addToBucket o b2) := by
    rw [bucketAt_bucketPut hb2]
    simp
  have hmid : bucketAt (bucketPut s.pos2objs p.1 p.2 r) p.1 p.2 = some r := by
    rw [bucketAt_bucketPut hb]
    simp
  have hold : ∃ bo, bucketAt (bucketPut (bucketPut s.pos2objs p.1 p.2 r) (s.Wrap nx ny).1
      (s.Wrap nx ny).2 (addToBucket o b2)) p.1 p.2 = some bo ∧
      (¬ (s.XWrap nx = p.1 ∧ s.YWrap ny = p.2) → bo = r) := by
    rw [bucketAt_bucketPut hb2]
    by_cases hc : p.1 = (s.Wrap nx ny).1 ∧ p.2 = (s.Wrap nx ny).2
    · refine ⟨addToBucket o b2, by simp [hc], ?_⟩
      intro hne
      exact absurd ⟨hc.1.symm, hc.2.symm⟩ hne
    · exact ⟨r, by simp [hc, hmid], fun _ => rfl⟩
  obtain ⟨bo, hbo, hbor⟩ := hold
  refine ⟨_, live bo, live (addToBucket o b2), hok, hs'.GetObjListAt_cell hbo, ?_, ?_,
    hs'.GetObjListAt_cell hnew, ?_, ?_, rfl⟩
  · intro hne hone
    rw [hbor hne]
    rw [cellLiveOf_length s o.GetUUID hb] at hone
    have h1 := occ_delFromBucket o.GetUUID o.GetUUID b r hr'
    simp only [if_true] at h1
    have h2 : occ o.GetUUID r = 0 := by omega
    exact (occ_eq_zero_iff _ _).1 h2
  · intro hreach
    obtain ⟨b', hb', hocc⟩ := (reachable_inv hreach).grid.atPos o.GetUUID p hp'
    rw [hb] at hb'
    cases hb'
    rw [cellLiveOf_length s o.GetUUID hb]
    exact hocc
  · rw [mem_live_addToBucket]
    exact Or.inl rfl
  · simp [UUIDPosMan.GetXYByUUID, mapGet_mapSet, UUIDPosMan.Wrap]

/-- The witness of C3: relocating `objA` from cell `(2, 9)` to cell `(5, 5)`. -/
theorem relocate_postcondition_witness :
    ReachableAll 10 10 stateA ∧ stateA.GetXYByUUID objA.GetUUID = (2, 9, true) ∧
    ∃ s' lold lnew, stateA.UpdateToXY objA 5 5 = some (s', none) ∧
      s'.GetObjListAt 2 9 = some lold ∧
      (¬ (stateA.XWrap 5 = 2 ∧ stateA.YWrap 5 = 9) →
        (stateA.cellLiveOf objA.GetUUID 2 9).length = 1 →
        ∀ v ∈ lold, v.GetUUID ≠ objA.GetUUID) ∧
      (Reachable 10 10 stateA → (stateA.cellLiveOf objA.GetUUID 2 9).length = 1) ∧
      s'.GetObjListAt (stateA.XWrap 5) (stateA.YWrap 5) = some lnew ∧ objA ∈ lnew ∧
      s'.GetXYByUUID objA.GetUUID = (stateA.XWrap 5, stateA.YWrap 5, true) ∧
      s'.Count = stateA.Count :=
  ⟨reachableAll_stateA, by decide,
    relocate_postcondition reachableAll_stateA objA (2, 9) 5 5 (by decide)⟩

/-! ## C8: `Del` after `Cleanup` -/

/-- C8 (the code at the failing input). On the index reached by
`AddToXY(objA, 12, -1)`, `Cleanup()`, `AddToXY(objA, 2, 9)`, the identity `"a"`
is registered at `(2, 9)` and the bucket of that cell also holds the entry that
`Cleanup` left; `Del(objA)` succeeds, `Count()` goes from 1 to 0, `GetByUUID` is
absent and `GetXYByUUID` reports not-exist, but `GetObjListAt(2, 9)` still
returns an entry with the identity `"a"`. -/
theorem remove_after_cleanup_keeps_entry :
    ReachableAll 10 10 stateD ∧ stateD.GetByUUID "a" = some objA ∧
    stateD.GetXYByUUID "a" = (2, 9, true) ∧ stateD.Count = 1 ∧
    ∃ s', stateD.Del objA = some (s', none) ∧ s'.Count = 0 ∧ s'.GetByUUID "a" = none ∧
      s'.GetXYByUUID "a" = (0, 0, false) ∧ s'.GetObjListAt 2 9 = some [objA] :=
  ⟨reachableAll_stateD, by decide, by decide, by decide,
    { stateD with
        uuid2obj := []
        uuid2pos := []
        pos2objs := bucketPut stateD.pos2objs 2 9 [none, some objA] },
    by decide, by decide, by decide, by decide, by decide⟩

/-! ## C9: `AddOrUpdateToXY` after `Cleanup` -/

/-- C9 (the code at the failing input). On the index reached by
`AddToXY(objA, 12, -1)` and `Cleanup()`, `AddOrUpdateToXY(objA, 5, 5)` returns no
error and records `"a"` at `(5, 5)`, but the identity then holds two live slots
of the grid: the new one in cell `(5, 5)` and the one that `Cleanup` left in cell
`(2, 9)`. -/
theorem insert_or_replace_after_cleanup_two_slots :
    ReachableAll 10 10 stateCleaned ∧ stateCleaned.GetByUUID "a" = none ∧
    stateCleaned.AddOrUpdateToXY objA 5 5 = some (stateC, none) ∧
    stateC.GetByUUID "a" = some objA ∧ stateC.GetXYByUUID "a" = (5, 5, true) ∧
    stateC.slotsOf "a" = 2 ∧
    stateC.GetObjListAt 5 5 = some [objA] ∧ stateC.GetObjListAt 2 9 = some [objA] :=
  ⟨reachableAll_stateCleaned, by decide, by decide, by decide, by decide, by decide,
    by decide, by decide⟩

end uuidposman
